import Mathlib

/-!
# OptionPriceDemo: Black-Scholes, Black and Cox-Ross-Rubinstein pricers

A shallow embedding of `BlackScholes.cpp`, `Black.cpp`, `BinomialTree.cpp`,
`NearZero.h` and the parts of `AMatrix.h` the lattice uses.

Numbers: a C++ `double` is modelled as an element of a linearly ordered field
`α`, so `+ - * /` are exact and `x / 0 = 0`; rounding, overflow, `NaN` and
`Inf` are not modelled.  Decimal literals of the source are the rationals they
spell.  The functions `exp`, `sqrt`, `log` and the constant `M_PI` come from
`<math.h>`, not from this repository, and are taken as a parameter `Libm α`;
`fabs` is the absolute value of the ordered field and `pow(K, 3)` is `K ^ 3`.
-/

set_option autoImplicit false

/-- The part of `<math.h>` the pricers call. -/
structure Libm (α : Type) where
  exp : α → α
  sqrt : α → α
  log : α → α
  M_PI : α

/-- The real-number reading of `<math.h>`: the exponential, the square root,
the natural logarithm and the number pi. -/
noncomputable def Libm.real : Libm ℝ where
  exp := Real.exp
  sqrt := Real.sqrt
  log := Real.log
  M_PI := Real.pi

/-- A computable stand-in for `<math.h>` over the rationals, used to run the
control flow of the pricers on concrete inputs. -/
def Libm.toy : Libm ℚ where
  exp := fun x => 1 + x
  sqrt := fun x => x
  log := fun x => x - 1
  M_PI := 3

section NearZero

variable {α : Type} [LinearOrderedField α]

/-- `const double NEAR_ZERO = 1E-10;` -/
def NEAR_ZERO : α := 1e-10

/-- `inline bool nearZero(double p, double threshold = NEAR_ZERO)`; the callers
that leave the threshold out pass `NEAR_ZERO` here. -/
def nearZero (p : α) (threshold : α) : Bool :=
  decide (p > -threshold) && decide (p < threshold)

end NearZero

namespace BlackScholes

variable {α : Type} [LinearOrderedField α] (L : Libm α)

/-- `BlackScholes::N`: the cumulative normal distribution function
(polynomial approximation). -/
def N (x : α) : α :=
  let a1 : α := 0.31938153
  let a2 : α := -0.356563782
  let a3 : α := 1.781477937
  let a4 : α := -1.821255978
  let a5 : α := 1.330274429
  let Pi : α := L.M_PI
  let l : α := |x|
  let k : α := 1.0 / (1.0 + 0.2316419 * l)
  let w : α := 1.0 - 1.0 / L.sqrt (2 * Pi) * L.exp (-l * l / 2) *
    (a1 * k + a2 * k * k + a3 * k ^ 3 + a4 * k ^ 4 + a5 * k ^ 5)
  if x < 0 then 1.0 - w else w

/-- `BlackScholes::DN`: derivative of the cumulative normal distribution
function. -/
def DN (x : α) : α :=
  let Pi2 : α := 2.0 * 3.141592653589793238462643
  (1.0 / (L.sqrt Pi2)) * L.exp (-(x * x) / 2.0)

/-- `BlackScholes::value`. -/
def value (strike assetPrice vol rate T yield : α) (call : Bool) : α :=
  let modPrice := assetPrice * L.exp (-yield * T)
  let term := vol * L.sqrt T
  let d1 := (L.log (assetPrice / strike) + (rate - yield + ((vol * vol) / 2.0)) * T) / term
  let d2 := d1 - term
  if call then
    modPrice * N L d1 - strike * L.exp (-rate * T) * N L d2
  else strike * L.exp (-rate * T) * N L (-d2) - modPrice * N L (-d1)

/-- `BlackScholes::vega`. -/
def vega (strike assetPrice vol rate T yield : α) : α :=
  let d1 := (L.log (assetPrice / strike) + (rate - yield + ((vol * vol) / 2.0)) * T) /
    (vol * L.sqrt T)
  assetPrice * L.sqrt T * DN L d1 * L.exp (-yield * T)

/-- The quantity `p1` of one pass through the loop of
`BlackScholes::impliedVol`. -/
def impliedVol.p1 (strike assetPrice marketPrice rate T yield vol : α) : α :=
  value L strike assetPrice vol rate T yield true - marketPrice

/-- The quantity `p2` of one pass through the loop of
`BlackScholes::impliedVol` (the code's inline "vega(vol)"), from the values
`sqrtT`, `logTerm`, `divTerm` computed before the loop. -/
def impliedVol.p2 (assetPrice rate T yield sqrtT logTerm divTerm vol : α) : α :=
  let d1 := (logTerm + (rate - yield + ((vol * vol) / 2.0)) * T) / (vol * sqrtT)
  assetPrice * sqrtT * DN L d1 * divTerm

/-- The loop `while (--iterations) { ... }` of `BlackScholes::impliedVol`.
The first argument is the value of `iterations` when the loop condition is
about to be evaluated; the loop is entered with 100, so the case 0 (where the
C++ counter would go negative) is never reached. -/
def impliedVol.loop (strike assetPrice marketPrice rate T yield sqrtT logTerm divTerm : α) :
    Nat → α → α
  | 0, vol => vol
  | iterations + 1, vol =>
    -- `--iterations` leaves `iterations`; the loop stops when that is 0
    if iterations = 0 then vol
    else
      let p1 := impliedVol.p1 L strike assetPrice marketPrice rate T yield vol
      if nearZero p1 NEAR_ZERO then vol
      else
        let p2 := impliedVol.p2 L assetPrice rate T yield sqrtT logTerm divTerm vol
        impliedVol.loop strike assetPrice marketPrice rate T yield sqrtT logTerm divTerm
          iterations (vol - (p1 / p2))

/-- `BlackScholes::impliedVol` (Newton-Raphson). -/
def impliedVol (strike assetPrice marketPrice rate T yield : α) : α :=
  let iterations : Nat := 100
  let vol : α := 0.5
  let sqrtT := L.sqrt T
  let logTerm := L.log (assetPrice / strike)
  let divTerm := L.exp (-yield * T)
  impliedVol.loop L strike assetPrice marketPrice rate T yield sqrtT logTerm divTerm
    iterations vol

end BlackScholes

namespace Black

variable {α : Type} [LinearOrderedField α] (L : Libm α)

/-- `Black::N`: the cumulative normal distribution function (polynomial
approximation). -/
def N (x : α) : α :=
  let a1 : α := 0.31938153
  let a2 : α := -0.356563782
  let a3 : α := 1.781477937
  let a4 : α := -1.821255978
  let a5 : α := 1.330274429
  let Pi : α := 3.141592653589793238462643
  let l : α := |x|
  let k : α := 1.0 / (1.0 + 0.2316419 * l)
  let w : α := 1.0 - 1.0 / L.sqrt (2 * Pi) * L.exp (-l * l / 2) *
    (a1 * k + a2 * k * k + a3 * k ^ 3 + a4 * k ^ 4 + a5 * k ^ 5)
  if x < 0 then 1.0 - w else w

/-- `Black::DN`: derivative of the cumulative normal distribution function. -/
def DN (x : α) : α :=
  let Pi2 : α := 2.0 * 3.141592653589793238462643
  (1.0 / (L.sqrt Pi2)) * L.exp (-(x * x) / 2.0)

/-- `Black::value`. -/
def value (strike forwardPrice vol rate T : α) (call : Bool) : α :=
  let term := vol * L.sqrt T
  let d1 := (L.log (forwardPrice / strike) + (((vol * vol) / 2.0)) * T) / term
  let d2 := d1 - term
  if call then
    L.exp (-rate * T) * ((forwardPrice * N L d1) - (strike * N L d2))
  else L.exp (-rate * T) * ((strike * N L (-d2)) - (forwardPrice * N L (-d1)))

/-- `Black::vega`. -/
def vega (strike forwardPrice vol rate T : α) : α :=
  let d1 := (L.log (forwardPrice / strike) + (((vol * vol) / 2.0)) * T) / (vol * L.sqrt T)
  forwardPrice * L.exp (-rate * T) * L.sqrt T * DN L d1

/-- The quantity `p1` of one pass through the loop of `Black::impliedVol`. -/
def impliedVol.p1 (strike forwardPrice marketPrice rate T vol : α) : α :=
  value L strike forwardPrice vol rate T true - marketPrice

/-- The quantity `p2` of one pass through the loop of `Black::impliedVol`
(the code's inline "vega(vol)"), from the values `sqrtT` and `logTerm`
computed before the loop. -/
def impliedVol.p2 (forwardPrice rate T sqrtT logTerm vol : α) : α :=
  let d1 := (logTerm + (((vol * vol) / 2.0)) * T) / (vol * sqrtT)
  forwardPrice * L.exp (-rate * T) * sqrtT * DN L d1

/-- The loop `while (--iterations) { ... }` of `Black::impliedVol`.  The first
argument is the value of `iterations` when the loop condition is about to be
evaluated; the loop is entered with 100, so the case 0 is never reached. -/
def impliedVol.loop (strike forwardPrice marketPrice rate T sqrtT logTerm : α) :
    Nat → α → α
  | 0, vol => vol
  | iterations + 1, vol =>
    if iterations = 0 then vol
    else
      let p1 := impliedVol.p1 L strike forwardPrice marketPrice rate T vol
      if nearZero p1 NEAR_ZERO then vol
      else
        let p2 := impliedVol.p2 L forwardPrice rate T sqrtT logTerm vol
        impliedVol.loop strike forwardPrice marketPrice rate T sqrtT logTerm
          iterations (vol - (p1 / p2))

/-- `Black::impliedVol` (Newton-Raphson). -/
def impliedVol (strike forwardPrice marketPrice rate T : α) : α :=
  let iterations : Nat := 100
  let vol : α := 0.5
  let sqrtT := L.sqrt T
  let logTerm := L.log (forwardPrice / strike)
  impliedVol.loop L strike forwardPrice marketPrice rate T sqrtT logTerm iterations vol

end Black

/-- `template <typename T> class Matrix` of `AMatrix.h`: the recorded
dimensions and the rows of a `std::vector<std::vector<T>>`.  (Named
`AMatrix.Matrix` after its header, the plain name being taken.) -/
structure AMatrix.Matrix (α : Type) where
  m_rows : Int
  m_cols : Int
  m_rawData : List (List α)

namespace AMatrix.Matrix

variable {α : Type}

/-- `Matrix(int r, int c, const T& x)`: `r` rows of `c` copies of `x`. -/
def fill (r c : Int) (x : α) : Matrix α :=
  ⟨r, c, List.replicate r.toNat (List.replicate c.toNat x)⟩

/-- The read `m[i][j]`.  Inside the stored rows it is the stored cell; outside
the C++ read is undefined and the model yields `0`. -/
def get [Zero α] (m : AMatrix.Matrix α) (i j : Nat) : α :=
  ((m.m_rawData.getD i []).getD j 0)

/-- The store `m[i][j] = x`.  Inside the stored rows it replaces the cell;
outside (where the C++ store is undefined: it lands past the end of the row
vector) the model leaves every stored cell as it was.  What such a store does to
memory outside the table is not modelled: after it the C++ heap may be damaged,
and a later call that allocates or frees memory (`resize`, a destructor) may
abort.  A result of the model for a later call is therefore the state the
object has if that call returns. -/
def set (m : AMatrix.Matrix α) (i j : Nat) (x : α) : AMatrix.Matrix α :=
  { m with m_rawData := m.m_rawData.set i ((m.m_rawData.getD i []).set j x) }

/-- The stored table has `r` rows of exactly `c` cells each. -/
def IsGrid (m : AMatrix.Matrix α) (r c : Nat) : Prop :=
  m.m_rawData.length = r ∧ ∀ row ∈ m.m_rawData, row.length = c

end AMatrix.Matrix

/-- `for (int i = lo; i < hi; i++) body(i)` as a state transformer. -/
def forUp {σ : Type} (lo hi : Nat) (body : Nat → σ → σ) (s : σ) : σ :=
  (List.range' lo (hi - lo)).foldl (fun acc i => body i acc) s

/-- `for (int i = hi; i > 0; i--) body(i)` as a state transformer: the body
runs at `hi, hi - 1, ..., 1`. -/
def forDown {σ : Type} : Nat → (Nat → σ → σ) → σ → σ
  | 0, _, s => s
  | i + 1, body, s => forDown i body (body (i + 1) s)

/-- `for (int i = hi - 1; i >= 0; i--) body(i)` as a state transformer: the
body runs at `hi - 1, ..., 0` (not at all when `hi = 0`). -/
def forDownTo0 {σ : Type} : Nat → (Nat → σ → σ) → σ → σ
  | 0, _, s => s
  | i + 1, body, s => forDownTo0 i body (body i s)

/-- `class BinomialTree`: the step count and the two owned grids. -/
structure BinomialTree (α : Type) where
  m_stepNumber : Int
  m_s : AMatrix.Matrix α
  m_v : AMatrix.Matrix α

namespace BinomialTree

variable {α : Type} [LinearOrderedField α] (L : Libm α)

/-- `BinomialTree()`: 51 steps (50 plus today) and two 51 x 51 grids of 0. -/
def new : BinomialTree α :=
  ⟨51, AMatrix.Matrix.fill 51 51 0, AMatrix.Matrix.fill 51 51 0⟩

/-- `inline double dmax(double x, double y) const` -/
def dmax (x y : α) : α := if x > y then x else y

/-- `inline double payOff(double strike, double price, bool call) const` -/
def payOff (strike price : α) (call : Bool) : α :=
  if call then dmax (price - strike) 0.0 else dmax (strike - price) 0.0

/-- The forward pass of `BinomialTree::value` (lines 49-58): the asset price
tree, built in `m_s`. -/
def value.assetPass (stepNumber : Int) (u d assetPrice : α) (m_s : AMatrix.Matrix α) :
    AMatrix.Matrix α :=
  let m_s := m_s.set 0 0 assetPrice
  forUp 1 stepNumber.toNat (fun m m_s =>
    let m_s := forDown (m + 1) (fun n m_s => m_s.set m n (u * m_s.get (m - 1) (n - 1))) m_s
    m_s.set m 0 (d * m_s.get (m - 1) 0)) m_s

/-- The terminal payoff loop of `BinomialTree::value` (lines 60-63). -/
def value.terminalPass (stepNumber : Int) (strike : α) (call : Bool) (m_s m_v : AMatrix.Matrix α) :
    AMatrix.Matrix α :=
  forUp 0 stepNumber.toNat (fun n m_v =>
    m_v.set (stepNumber - 1).toNat n
      (payOff strike (m_s.get (stepNumber - 1).toNat n) call)) m_v

/-- The backward induction of `BinomialTree::value` (lines 65-74). -/
def value.backwardPass (stepNumber : Int) (strike p discount : α) (call : Bool)
    (m_s m_v : AMatrix.Matrix α) : AMatrix.Matrix α :=
  forDownTo0 (stepNumber - 1).toNat (fun m m_v =>
    forUp 0 (m + 1) (fun n m_v =>
      let hold := ((1 - p) * m_v.get (m + 1) n) + (p * m_v.get (m + 1) (n + 1))
      let hold := hold * discount
      m_v.set m n (dmax hold (payOff strike (m_s.get m n) call))) m_v) m_v

/-- `BinomialTree::value`: the returned price and the model after the call
(the two grids are overwritten in place). -/
def value (bt : BinomialTree α) (strike assetPrice vol rate maturity yield : α)
    (call : Bool) : α × BinomialTree α :=
  let dt := maturity / (((bt.m_stepNumber - 1 : Int) : α))
  let sqrtDt := L.sqrt dt
  let u := L.exp (vol * sqrtDt)
  let d := L.exp (-vol * sqrtDt)
  let a := L.exp ((rate - yield) * dt)
  let p := (a - d) / (u - d)
  let m_s := value.assetPass bt.m_stepNumber u d assetPrice bt.m_s
  let m_v := value.terminalPass bt.m_stepNumber strike call m_s bt.m_v
  let discount := L.exp (-rate * dt)
  let m_v := value.backwardPass bt.m_stepNumber strike p discount call m_s m_v
  (m_v.get 0 0, { bt with m_s := m_s, m_v := m_v })

end BinomialTree

/-! ## Specification-side definitions -/

namespace BlackScholes

variable {α : Type} [LinearOrderedField α] (L : Libm α)

/-- The Spot-model price as the specification writes it:
call = `S e^(-qT) N(d1) - K e^(-rT) N(d2)`, put = `K e^(-rT) N(-d2) - S e^(-qT) N(-d1)`,
with `d1 = (ln(S/K) + (r - q + vol^2/2) T) / (vol sqrt T)` and `d2 = d1 - vol sqrt T`. -/
def specValue (K S vol r T q : α) (call : Bool) : α :=
  let d1 := (L.log (S / K) + (r - q + vol ^ 2 / 2) * T) / (vol * L.sqrt T)
  let d2 := d1 - vol * L.sqrt T
  if call then S * L.exp (-(q * T)) * N L d1 - K * L.exp (-(r * T)) * N L d2
  else K * L.exp (-(r * T)) * N L (-d2) - S * L.exp (-(q * T)) * N L (-d1)

/-- The quantity `d1` of the Spot model. -/
def d1 (K S vol r T q : α) : α :=
  (L.log (S / K) + (r - q + vol ^ 2 / 2) * T) / (vol * L.sqrt T)

/-- The quantity `d2 = d1 - vol sqrt T` of the Spot model. -/
def d2 (K S vol r T q : α) : α :=
  d1 L K S vol r T q - vol * L.sqrt T

/-- One Newton update of the specification:
`s - (value(s) - marketPrice) / vega(s)`, the value priced as a call. -/
def newtonStep (K S marketPrice r T q : α) (s : α) : α :=
  s - (value L K S s r T q true - marketPrice) / vega L K S s r T q

/-- The Newton sequence of the specification: `s_0 = 0.5` and
`s_(k+1) = s_k - (value(s_k) - marketPrice) / vega(s_k)`. -/
def newtonSeq (K S marketPrice r T q : α) (k : Nat) : α :=
  (newtonStep L K S marketPrice r T q)^[k] 0.5

end BlackScholes

namespace Black

variable {α : Type} [LinearOrderedField α] (L : Libm α)

/-- The quantity `d1 = (ln(F/K) + (vol^2/2) T) / (vol sqrt T)` of the Forward
model. -/
def d1 (K F vol T : α) : α :=
  (L.log (F / K) + (vol ^ 2 / 2) * T) / (vol * L.sqrt T)

/-- The quantity `d2 = d1 - vol sqrt T` of the Forward model. -/
def d2 (K F vol T : α) : α :=
  d1 L K F vol T - vol * L.sqrt T

/-- One Newton update of the specification for the Forward model. -/
def newtonStep (K F marketPrice r T : α) (s : α) : α :=
  s - (value L K F s r T true - marketPrice) / vega L K F s r T

/-- The Newton sequence of the specification for the Forward model. -/
def newtonSeq (K F marketPrice r T : α) (k : Nat) : α :=
  (newtonStep L K F marketPrice r T)^[k] 0.5

end Black


namespace BinomialTree

variable {α : Type} [LinearOrderedField α] (L : Libm α)

/-- The lattice state invariant: both owned grids are `N x N`, with `N` the step
count. -/
def WF (bt : BinomialTree α) : Prop :=
  bt.m_s.IsGrid bt.m_stepNumber.toNat bt.m_stepNumber.toNat ∧
  bt.m_v.IsGrid bt.m_stepNumber.toNat bt.m_stepNumber.toNat

/-- The recurrence the forward pass of `BinomialTree::value` follows (lines 49, 55
and 57): `m_s[0][0] = assetPrice`, `m_s[m][0] = d * m_s[m-1][0]`,
`m_s[m][n] = u * m_s[m-1][n-1]`. -/
def value.assetNode (u d assetPrice : α) : Nat → Nat → α
  | 0, _ => assetPrice
  | m + 1, 0 => d * value.assetNode u d assetPrice m 0
  | m + 1, n + 1 => u * value.assetNode u d assetPrice m n

/-- The recurrence the terminal loop and the backward induction of
`BinomialTree::value` follow (lines 62 and 70-72), `k` levels above the last
level. -/
def value.valueNode (strike p discount : α) (call : Bool) (asset : Nat → Nat → α) :
    Nat → Nat → Nat → α
  | 0, m, n => payOff strike (asset m n) call
  | k + 1, m, n =>
    dmax ((((1 - p) * value.valueNode strike p discount call asset k (m + 1) n)
        + (p * value.valueNode strike p discount call asset k (m + 1) (n + 1))) * discount)
      (payOff strike (asset m n) call)

/-- The payoff of the specification: `max(x - K, 0)` for a call, `max(K - x, 0)`
for a put. -/
def specPayoff (K : α) (call : Bool) (x : α) : α :=
  if call then max (x - K) 0 else max (K - x) 0

/-- The value `V(m, n)` of the specification on a lattice of `N` levels:
`V(N-1, n) = payoff(S u^n d^(N-1-n))` and, for `m < N - 1`,
`V(m, n) = max(disc ((1-p) V(m+1, n) + p V(m+1, n+1)), payoff(S u^n d^(m-n)))`. -/
def specV (N : Nat) (K S u d p disc : α) (call : Bool) (m n : Nat) : α :=
  if m + 1 < N then
    max (disc * ((1 - p) * specV N K S u d p disc call (m + 1) n
        + p * specV N K S u d p disc call (m + 1) (n + 1)))
      (specPayoff K call (S * u ^ n * d ^ (m - n)))
  else specPayoff K call (S * u ^ n * d ^ (m - n))
termination_by N - m
decreasing_by all_goals omega

/-- The lattice price of the specification: `V(0, 0)` with `dt = T/(N-1)`,
`u = exp(vol sqrt dt)`, `d = exp(-vol sqrt dt)`, `p = (exp((r-q) dt) - d)/(u - d)`
and discount factor `exp(-r dt)`. -/
def specValue (N : Nat) (K S vol r T q : α) (call : Bool) : α :=
  let dt := T / ((N : α) - 1)
  let u := L.exp (vol * L.sqrt dt)
  let d := L.exp (-vol * L.sqrt dt)
  let p := (L.exp ((r - q) * dt) - d) / (u - d)
  specV N K S u d p (L.exp (-r * dt)) call 0 0

end BinomialTree

namespace AMatrix

variable {α : Type}

/-- `std::vector<T>::resize(n, v)`: the first `n` elements, padded with copies
of `v` up to length `n`. -/
def vectorResize {β : Type} (l : List β) (n : Nat) (v : β) : List β :=
  l.take n ++ List.replicate (n - l.length) v

namespace Matrix

/-- `explicit Matrix(const std::vector<std::vector<T>>& values)`, that is
`setMatrix(values)`: the row count is `values.size()`, the column count is the
size of the first row (0 for the empty table). -/
def ofTable (values : List (List α)) : Matrix α :=
  ⟨(values.length : Int),
    if values.length ≠ 0 then (((values.headD []).length : Nat) : Int) else 0,
    values⟩

/-- The grid is well formed: it stores exactly `rows()` rows, every row has
exactly `cols()` cells, and `cols()` is not negative. -/
def WellFormed (m : Matrix α) : Prop :=
  (m.m_rawData.length : Int) = m.m_rows ∧ 0 ≤ m.m_cols ∧
  ∀ row ∈ m.m_rawData, (row.length : Int) = m.m_cols

/-- `Matrix<T>::resize(int r, int c, const T& v)`.  When the dimensions are
unchanged nothing happens.  Otherwise the existing rows are resized to `c` cells
(only when `c` differs from the recorded column count), the recorded dimensions
are set and the row vector is resized to `r` rows, new rows being `c` copies of
`v`.  A negative `r` or `c` reaches `std::vector` as a huge unsigned size and
the call throws `std::length_error`: the result is `none`. -/
def resize (m : Matrix α) (r c : Int) (v : α) : Option (Matrix α) :=
  if r = m.m_rows ∧ c = m.m_cols then some m
  else if r < 0 ∨ c < 0 then none
  else
    let rawData :=
      if c ≠ m.m_cols then m.m_rawData.map (fun row => vectorResize row c.toNat v)
      else m.m_rawData
    some ⟨r, c, vectorResize rawData r.toNat (List.replicate c.toNat v)⟩

/-- The getter `std::vector<T> Matrix<T>::column(int colIdx) const`: a copy of
column `colIdx`.  (A negative index is undefined in C++ and not modelled.) -/
def column [Zero α] (m : Matrix α) (colIdx : Nat) : List α :=
  let retVal : List α := List.replicate m.m_rows.toNat 0
  forUp 0 m.m_rows.toNat (fun j retVal => retVal.set j (m.get j colIdx)) retVal

/-- The setter `void Matrix<T>::column(int colIdx, const std::vector<T>& col)`:
`m_rawData[j][colIdx] = col[j]` for every row `j`.  (Reading `col` past its end
is undefined in C++; the model reads `0` there.) -/
def columnSet [Zero α] (m : Matrix α) (colIdx : Nat) (col : List α) : Matrix α :=
  forUp 0 m.m_rows.toNat (fun j m => m.set j colIdx (col.getD j 0)) m

end Matrix

/-- `template <class T> Matrix<T> transpose(const Matrix<T>& m)`: a new grid
`retVal(m.cols(), m.rows())` with `retVal[i][j] = m[j][i]`. -/
def transpose [Zero α] (m : Matrix α) : Matrix α :=
  let retVal : Matrix α := Matrix.fill m.m_cols m.m_rows 0
  forUp 0 retVal.m_rows.toNat (fun i retVal =>
    forUp 0 retVal.m_cols.toNat (fun j retVal => retVal.set i j (m.get j i)) retVal) retVal

/-- `template <class T> bool operator==(const Matrix<T>& m1, const Matrix<T>& m2)`:
element-wise comparison over the dimensions of `m1` (equal dimensions are a
precondition, checked by an `assert` only). -/
def operator_eq [Zero α] [DecidableEq α] (m1 m2 : Matrix α) : Bool :=
  (List.range m1.m_rows.toNat).all (fun i =>
    (List.range m1.m_cols.toNat).all (fun j => decide (m1.get i j = m2.get i j)))

end AMatrix

namespace BinomialTree

variable {α : Type} [LinearOrderedField α] (L : Libm α)

/-- The getter `int timeSteps(void) const`. -/
def timeSteps (bt : BinomialTree α) : Int := bt.m_stepNumber - 1

/-- The setter `void timeSteps(const unsigned int ts)`: `m_stepNumber = ts + 1`
(computed in 32-bit unsigned arithmetic and converted to `int`), then both grids
are resized to `m_stepNumber x m_stepNumber` with fill `0.0`.  The result is
`none` when a resize throws on a negative size; `some bt` is the state the object
has when the call returns.  Whether the call returns also depends on what the
model does not hold (the memory available to `std::vector`, and the heap being
intact, see `AMatrix.Matrix.set`). -/
def timeStepsSet (bt : BinomialTree α) (ts : Nat) : Option (BinomialTree α) :=
  let w : Nat := (ts + 1) % 4294967296
  let stepNumber : Int := if w < 2147483648 then (w : Int) else (w : Int) - 4294967296
  match bt.m_s.resize stepNumber stepNumber 0.0 with
  | none => none
  | some m_s =>
    match bt.m_v.resize stepNumber stepNumber 0.0 with
    | none => none
    | some m_v => some ⟨stepNumber, m_s, m_v⟩

/-- `BinomialTree::delta`: the returned value and the model after the call. -/
def delta (bt : BinomialTree α) (strike assetPrice vol rate maturity yield : α)
    (call : Bool) : α × BinomialTree α :=
  let bt := (value L bt strike assetPrice vol rate maturity yield call).2
  let dt := maturity / (((bt.m_stepNumber - 1 : Int) : α))
  let sqrtDt := L.sqrt dt
  let u := L.exp (vol * sqrtDt)
  let d := L.exp (-vol * sqrtDt)
  let delta := (bt.m_v.get 1 1 - bt.m_v.get 1 0) / ((assetPrice * u) - (assetPrice * d))
  (delta, bt)

/-- `BinomialTree::gamma`: the returned value and the model after the call. -/
def gamma (bt : BinomialTree α) (strike assetPrice vol rate maturity yield : α) :
    α × BinomialTree α :=
  let bt := (value L bt strike assetPrice vol rate maturity yield true).2
  let dt := maturity / (((bt.m_stepNumber - 1 : Int) : α))
  let sqrtDt := L.sqrt dt
  let u := L.exp (vol * sqrtDt)
  let d := L.exp (-vol * sqrtDt)
  let h := 0.5 * ((assetPrice * u * u) - (assetPrice * d * d))
  let delta1 := (bt.m_v.get 2 2 - bt.m_v.get 2 1) / ((assetPrice * u * u) - assetPrice)
  let delta2 := (bt.m_v.get 2 1 - bt.m_v.get 2 0) / (assetPrice - (assetPrice * d * d))
  ((delta1 - delta2) / h, bt)

/-- `BinomialTree::theta`: the returned value and the model after the call. -/
def theta (bt : BinomialTree α) (strike assetPrice vol rate maturity yield : α)
    (call : Bool) : α × BinomialTree α :=
  let bt := (value L bt strike assetPrice vol rate maturity yield call).2
  let dt := maturity / (((bt.m_stepNumber - 1 : Int) : α))
  let theta := (bt.m_v.get 2 1 - bt.m_v.get 0 0) / (2.0 * dt)
  (theta, bt)

/-- `BinomialTree::rho`: the returned value and the model after the two calls of
`value`. -/
def rho (bt : BinomialTree α) (strike assetPrice vol rate maturity yield : α)
    (call : Bool) : α × BinomialTree α :=
  let deltaR : α := 0.00001
  let r0 := value L bt strike assetPrice vol rate maturity yield call
  let f0 := r0.1
  let r1 := value L r0.2 strike assetPrice vol (rate + deltaR) maturity yield call
  let f1 := r1.1
  (((f0 - f1) / deltaR) / 100.0, r1.2)

/-- `BinomialTree::vega`: the returned value and the model after the two calls of
`value`. -/
def vega (bt : BinomialTree α) (strike assetPrice vol rate maturity yield : α) :
    α × BinomialTree α :=
  let deltaV : α := 0.00001
  let r0 := value L bt strike assetPrice vol rate maturity yield true
  let f0 := r0.1
  let r1 := value L r0.2 strike assetPrice (vol + deltaV) rate maturity yield true
  let f1 := r1.1
  (((f0 - f1) / deltaV) / 100.0, r1.2)

/-- The lattice state invariant with the recorded dimensions: both owned grids
are well formed and both record `m_stepNumber` rows and columns. -/
def Inv (bt : BinomialTree α) : Prop :=
  bt.m_s.WellFormed ∧ bt.m_v.WellFormed ∧
  bt.m_s.m_rows = bt.m_stepNumber ∧ bt.m_s.m_cols = bt.m_stepNumber ∧
  bt.m_v.m_rows = bt.m_stepNumber ∧ bt.m_v.m_cols = bt.m_stepNumber

/-- The gamma of the specification, from a value tree `v`:
`(delta1 - delta2)/h` with `h = 0.5 (S u^2 - S d^2)`,
`delta1 = (v[2][2] - v[2][1])/(S u^2 - S)`, `delta2 = (v[2][1] - v[2][0])/(S - S d^2)`. -/
def specGamma (S u d : α) (v : AMatrix.Matrix α) : α :=
  let h := 0.5 * (S * u ^ 2 - S * d ^ 2)
  let delta1 := (v.get 2 2 - v.get 2 1) / (S * u ^ 2 - S)
  let delta2 := (v.get 2 1 - v.get 2 0) / (S - S * d ^ 2)
  (delta1 - delta2) / h

end BinomialTree

namespace AMatrix

variable {α : Type}

/-- `template <class T> bool operator!=(const Matrix<T>& m1, const Matrix<T>& m2)`:
true as soon as a cell differs, over the dimensions of `m1` (equal dimensions are a
precondition, checked by an `assert` only). -/
def operator_ne [Zero α] [DecidableEq α] (m1 m2 : Matrix α) : Bool :=
  (List.range m1.m_rows.toNat).any (fun i =>
    (List.range m1.m_cols.toNat).any (fun j => decide (m1.get i j ≠ m2.get i j)))

namespace Matrix

/-- `Matrix(void)`: no rows, no columns. -/
def empty : Matrix α := ⟨0, 0, []⟩

/-- `void clear(void)`. -/
def clear (_m : Matrix α) : Matrix α := ⟨0, 0, []⟩

/-- `void setMatrix(int r, int c)`: the recorded dimensions are set and the row
vector is resized to `r` rows, new rows being `c` copies of `T()`; the rows already
stored are not touched.  A negative `r` or `c` makes `std::vector` throw: the
result is `none`. -/
def setMatrix [Zero α] (m : Matrix α) (r c : Int) : Option (Matrix α) :=
  if r < 0 ∨ c < 0 then none
  else some ⟨r, c, vectorResize m.m_rawData r.toNat (List.replicate c.toNat 0)⟩

/-- `void setMatrix(const std::vector<std::vector<T>>& values)`: the grid becomes
the grid of the table. -/
def setMatrixTable (_m : Matrix α) (values : List (List α)) : Matrix α :=
  ofTable values

/-- `Matrix<T>& operator=(const T& a)`: assign `a` to every element. -/
def assign (m : Matrix α) (a : α) : Matrix α :=
  forUp 0 m.m_rows.toNat (fun i m =>
    forUp 0 m.m_cols.toNat (fun j m => m.set i j a) m) m

/-- The grids reachable through the constructors `Matrix()`, `Matrix(r, c, fill)`
with `r, c ≥ 0` and `Matrix(table)`, followed by calls of `resize` and `clear`.
The predicate `ok r c` restricts the dimensions passed to `Matrix(r, c, fill)` and
to `resize(r, c, fill)`. -/
inductive Reachable (ok : Int → Int → Prop) : Matrix α → Prop
  | empty : Reachable ok Matrix.empty
  | fill (r c : Int) (x : α) : 0 ≤ r → 0 ≤ c → ok r c → Reachable ok (Matrix.fill r c x)
  | ofTable (values : List (List α)) : Reachable ok (Matrix.ofTable values)
  | resize (m m' : Matrix α) (r c : Int) (v : α) :
      Reachable ok m → ok r c → m.resize r c v = some m' → Reachable ok m'
  | clear (m : Matrix α) : Reachable ok m → Reachable ok m.clear

end Matrix

end AMatrix

namespace Black

variable {α : Type} [LinearOrderedField α] (L : Libm α)

/-- `Black::rho`. -/
def rho (strike forwardPrice vol rate T : α) (call : Bool) : α :=
  let tmp := vol * L.sqrt T
  let d1 := (L.log (forwardPrice / strike) + (((vol * vol) / 2.0)) * T) / tmp
  let d2 := d1 - tmp
  if call then strike * T * L.exp (-rate * T) * N L d2
  else -strike * T * L.exp (-rate * T) * N L (-d2)

end Black

namespace BinomialTree

variable {α : Type} [LinearOrderedField α] (L : Libm α)

/-- The risk-neutral probability `p` of `BinomialTree::value` (lines 38-46), as a
function of the step count and the arguments it depends on. -/
def value.p (stepNumber : Int) (vol rate maturity yield : α) : α :=
  let dt := maturity / (((stepNumber - 1 : Int) : α))
  let sqrtDt := L.sqrt dt
  let u := L.exp (vol * sqrtDt)
  let d := L.exp (-vol * sqrtDt)
  let a := L.exp ((rate - yield) * dt)
  (a - d) / (u - d)

/-- A grid access of `BinomialTree::value`: `true` for the asset grid `m_s`,
`false` for the value grid `m_v`, then the row index and the column index. -/
abbrev value.Access := Bool × Nat × Nat

/-- The cells `BinomialTree::value` reads or writes (lines 49-76), in program
order, as a function of the step count: the same loops as `value`, recording the
index pair of every `m_s[..][..]` and `m_v[..][..]`. -/
def value.accesses (stepNumber : Int) : List value.Access :=
  -- m_s[0][0] = assetPrice
  let t : List value.Access := [(true, 0, 0)]
  let t := forUp 1 stepNumber.toNat (fun m t =>
    let t := forDown (m + 1) (fun n t =>
      -- m_s[m][n] = u * m_s[m - 1][n - 1]
      t ++ [(true, m - 1, n - 1), (true, m, n)]) t
    -- m_s[m][0] = d * m_s[m - 1][0]
    t ++ [(true, m - 1, 0), (true, m, 0)]) t
  let t := forUp 0 stepNumber.toNat (fun n t =>
    -- m_v[N-1][n] = payOff(strike, m_s[N-1][n], call)
    t ++ [(true, (stepNumber - 1).toNat, n), (false, (stepNumber - 1).toNat, n)]) t
  let t := forDownTo0 (stepNumber - 1).toNat (fun m t =>
    forUp 0 (m + 1) (fun n t =>
      -- hold from m_v[m+1][n], m_v[m+1][n+1]; m_v[m][n] = dmax(hold, payOff(m_s[m][n]))
      t ++ [(false, m + 1, n), (false, m + 1, n + 1), (true, m, n), (false, m, n)]) t) t
  -- return m_v[0][0]
  t ++ [(false, 0, 0)]

end BinomialTree

/-! ## Fixed-point enclosures for the lattice recurrences

A real number `x` is enclosed by a pair of naturals `(lo, hi)` when
`lo ≤ x * SC ≤ hi`.  The functions below run the recurrences of `BinomialTree::value`
on such pairs, rounding every product outwards. -/

namespace Enclosure

/-- The scale of the fixed-point enclosures: `10^12`. -/
def SC : Nat := 1000000000000

/-- A pair `(lo, hi)` of numerators over `SC`. -/
abbrev I := Nat × Nat

/-- The pair `i` encloses the real `x`. -/
def Brk (i : I) (x : ℝ) : Prop := (i.1 : ℝ) ≤ x * (SC : ℝ) ∧ x * (SC : ℝ) ≤ (i.2 : ℝ)

/-- Product of two enclosures of non-negative numbers, rounded outwards. -/
def mulI (a b : I) : I := (a.1 * b.1 / SC, (a.2 * b.2 + (SC - 1)) / SC)

/-- Sum of two enclosures. -/
def addI (a b : I) : I := (a.1 + b.1, a.2 + b.2)

/-- Enclosure of `1 - x` from an enclosure of `x ≤ 1`. -/
def oneSubI (a : I) : I := (SC - a.2, SC - a.1)

/-- Enclosure of the larger of two numbers. -/
def maxI (a b : I) : I := (max a.1 b.1, max a.2 b.2)

/-- Enclosure of the payoff, `max (x - K) 0` for a call and `max (K - x) 0` for a
put (subtraction of naturals stops at 0). -/
def payI (K : Nat) (a : I) (call : Bool) : I :=
  if call then (a.1 - K * SC, a.2 - K * SC) else (K * SC - a.2, K * SC - a.1)

/-- Enclosure of one node of the backward induction:
`dmax(((1 - p) v0 + p v1) discount, payOff(K, a, call))`. -/
def nodeI (K : Nat) (p disc : I) (call : Bool) (a v0 v1 : I) : I :=
  maxI (mulI (addI (mulI (oneSubI p) v0) (mulI p v1)) disc) (payI K a call)

/-- Enclosures of level `m + 1` of the asset tree from those of level `m`:
`m_s[m+1][0] = d * m_s[m][0]` and `m_s[m+1][n+1] = u * m_s[m][n]`. -/
def assetNext (u d : I) (row : List I) : List I :=
  mulI d (row.getD 0 (0, 0)) :: row.map (mulI u)

/-- Enclosures of levels `k, k - 1, ..., 0` of the asset tree, the last level
first. -/
def assetRows (u d S : I) : Nat → List (List I)
  | 0 => [[S]]
  | k + 1 =>
    match assetRows u d S k with
    | [] => []
    | r :: rs => assetNext u d r :: r :: rs

/-- Enclosures of a level of the value tree from those of the level below it (`v`)
and the asset enclosures of the level itself (`arow`). -/
def valueNext (K : Nat) (p disc : I) (call : Bool) (v arow : List I) : List I :=
  (List.range arow.length).map (fun n =>
    nodeI K p disc call (arow.getD n (0, 0)) (v.getD n (0, 0)) (v.getD (n + 1) (0, 0)))

/-- Enclosure of the root of the value tree, from the asset enclosures of all levels
(last level first). -/
def valueRoot (K : Nat) (p disc : I) (call : Bool) (rows : List (List I)) : I :=
  match rows with
  | [] => (0, 0)
  | r :: rs =>
    ((rs.foldl (valueNext K p disc call) (r.map (fun a => payI K a call))).getD 0 (0, 0))

/-- A list of pairs encloses level `m` of the asset tree `asset`. -/
def RowOK (asset : Nat → Nat → ℝ) (m : Nat) (r : List I) : Prop :=
  r.length = m + 1 ∧ ∀ n, n ≤ m → Brk (r.getD n (0, 0)) (asset m n)

/-- A list of lists encloses levels `m - 1, ..., 0` of the asset tree `asset`. -/
def RowsOK (asset : Nat → Nat → ℝ) : Nat → List (List I) → Prop
  | 0, rs => rs = []
  | m + 1, rs => ∃ r rest, rs = r :: rest ∧ RowOK asset m r ∧ RowsOK asset m rest

/-- Enclosure of `u = exp(vol sqrt dt)` for Hull's example 17.1 on 50 steps. -/
def hullU : I := (1037191207700, 1037191207800)

/-- Enclosure of `d = exp(-vol sqrt dt)` for Hull's example 17.1 on 50 steps. -/
def hullD : I := (964142380300, 964142380500)

/-- Enclosure of `p = (a - d)/(u - d)` for Hull's example 17.1 on 50 steps. -/
def hullP : I := (502285495000, 502285510000)

/-- Enclosure of the one-step discount factor for Hull's example 17.1 on 50 steps. -/
def hullDisc : I := (999166947100, 999166947300)

/-- Enclosure of the root of the 51-level value tree of Hull's example 17.1 priced
as a call. -/
def hullRoot : I :=
  valueRoot 50 hullP hullDisc true (assetRows hullU hullD (50 * SC, 50 * SC) 50)

/-- Enclosure of `u` for Hull's example 17.1 on 5 steps. -/
def hull5U : I := (1122406086000, 1122406087000)

/-- Enclosure of `d` for Hull's example 17.1 on 5 steps. -/
def hull5D : I := (890943136000, 890943138000)

/-- Enclosure of `p` for Hull's example 17.1 on 5 steps. -/
def hull5P : I := (507319575000, 507319595000)

/-- Enclosure of the one-step discount factor for Hull's example 17.1 on 5 steps. -/
def hull5Disc : I := (991700630000, 991700632000)

/-- Enclosure of the root of the 6-level value tree of Hull's example 17.1 priced as
a put. -/
def hull5Root : I :=
  valueRoot 50 hull5P hull5Disc false (assetRows hull5U hull5D (50 * SC, 50 * SC) 5)

end Enclosure

/-! ## The remaining sensitivities of the analytic models and the cells the lattice
sensitivities read -/

namespace BlackScholes

variable {α : Type} [LinearOrderedField α] (L : Libm α)

/-- `BlackScholes::theta`. -/
def theta (strike assetPrice vol rate T yield : α) (call : Bool) : α :=
  let tmp := vol * L.sqrt T
  let d1 := (L.log (assetPrice / strike) + (rate - yield + ((vol * vol) / 2.0)) * T) / tmp
  let d2 := d1 - tmp
  let term := (assetPrice * DN L d1 * vol * L.exp (-yield * T)) / (2.0 * L.sqrt T)
  if call then
    -term + (yield * assetPrice * N L d1 * L.exp (-yield * T))
      - (rate * strike * L.exp (-rate * T) * N L d2)
  else
    -term - (yield * assetPrice * N L (-d1) * L.exp (-yield * T))
      + (rate * strike * L.exp (-rate * T) * N L (-d2))

/-- `BlackScholes::delta`. -/
def delta (strike assetPrice vol rate T yield : α) (call : Bool) : α :=
  let d1 := (L.log (assetPrice / strike) + (rate - yield + ((vol * vol) / 2.0)) * T) /
    (vol * L.sqrt T)
  if call then L.exp (-yield * T) * N L d1
  else L.exp (-yield * T) * (N L d1 - 1)

/-- `BlackScholes::gamma`. -/
def gamma (strike assetPrice vol rate T yield : α) : α :=
  let term := vol * L.sqrt T
  let d1 := (L.log (assetPrice / strike) + (rate - yield + ((vol * vol) / 2.0)) * T) / term
  (DN L d1 * L.exp (-yield * T)) / (assetPrice * term)

/-- `BlackScholes::rho`. -/
def rho (strike assetPrice vol rate T yield : α) (call : Bool) : α :=
  let term := vol * L.sqrt T
  let d1 := (L.log (assetPrice / strike) + (rate - yield + ((vol * vol) / 2.0)) * T) / term
  let d2 := d1 - term
  if call then strike * T * L.exp (-rate * T) * N L d2
  else -strike * T * L.exp (-rate * T) * N L (-d2)

end BlackScholes

namespace Black

variable {α : Type} [LinearOrderedField α] (L : Libm α)

/-- `Black::theta`. -/
def theta (strike forwardPrice vol rate T : α) (call : Bool) : α :=
  let tmp := vol * L.sqrt T
  let d1 := (L.log (forwardPrice / strike) + (((vol * vol) / 2.0)) * T) / tmp
  let d2 := d1 - tmp
  let term := (forwardPrice * L.exp (-rate * T) * DN L d1 * vol) / (2.0 * L.sqrt T)
  if call then
    -term + (rate * forwardPrice * L.exp (-rate * T) * N L d1)
      - (rate * strike * L.exp (-rate * T) * N L d2)
  else
    -term - (rate * forwardPrice * L.exp (-rate * T) * N L (-d1))
      + (rate * strike * L.exp (-rate * T) * N L (-d2))

/-- `Black::delta`. -/
def delta (strike forwardPrice vol rate T : α) (call : Bool) : α :=
  let d1 := (L.log (forwardPrice / strike) + (((vol * vol) / 2.0)) * T) / (vol * L.sqrt T)
  if call then L.exp (-rate * T) * N L d1
  else L.exp (-rate * T) * (N L d1 - 1)

/-- `Black::gamma`. -/
def gamma (strike forwardPrice vol rate T : α) : α :=
  let term := vol * L.sqrt T
  let d1 := (L.log (forwardPrice / strike) + (((vol * vol) / 2.0)) * T) / term
  L.exp (-rate * T) * (DN L d1 / (forwardPrice * term))

end Black

namespace BinomialTree

/-- The cells of the value tree `BinomialTree::delta` reads after its call of `value`
(`m_v[1][1]` and `m_v[1][0]`), as row and column index. -/
def delta.reads : List (Nat × Nat) := [(1, 1), (1, 0)]

/-- The cells of the value tree `BinomialTree::gamma` reads after its call of `value`
(`m_v[2][2]`, `m_v[2][1]`, then `m_v[2][1]`, `m_v[2][0]`). -/
def gamma.reads : List (Nat × Nat) := [(2, 2), (2, 1), (2, 1), (2, 0)]

/-- The cells of the value tree `BinomialTree::theta` reads after its call of `value`
(`m_v[2][1]` and `m_v[0][0]`). -/
def theta.reads : List (Nat × Nat) := [(2, 1), (0, 0)]

end BinomialTree

/-! ## States of the lattice model reachable through its public interface -/

namespace AMatrix.Matrix

variable {α : Type}

/-- Every cell above the diagonal of the stored table holds `0`. -/
def UpperZero [Zero α] (m : AMatrix.Matrix α) : Prop :=
  ∀ i j : Nat, i < j → m.get i j = 0

end AMatrix.Matrix

namespace BinomialTree

variable {α : Type} [LinearOrderedField α]

/-- The states a `BinomialTree` object can be in: `m_stepNumber`, `m_s` and `m_v`
are private, so a state arises from the constructor by calls of the public member
functions only, that is `timeSteps(n)` with `n` an `unsigned int` (when the call
returns), `value`, `delta`, `gamma`, `theta`, `rho` and `vega`. -/
inductive Reachable (L : Libm α) : BinomialTree α → Prop
  | byConstructor : Reachable L BinomialTree.new
  | byTimeSteps (bt bt' : BinomialTree α) (n : Nat) : Reachable L bt → n < 4294967296 →
      bt.timeStepsSet n = some bt' → Reachable L bt'
  | byValue (bt : BinomialTree α) (K S vol r T q : α) (call : Bool) : Reachable L bt →
      Reachable L (BinomialTree.value L bt K S vol r T q call).2
  | byDelta (bt : BinomialTree α) (K S vol r T q : α) (call : Bool) : Reachable L bt →
      Reachable L (BinomialTree.delta L bt K S vol r T q call).2
  | byGamma (bt : BinomialTree α) (K S vol r T q : α) : Reachable L bt →
      Reachable L (BinomialTree.gamma L bt K S vol r T q).2
  | byTheta (bt : BinomialTree α) (K S vol r T q : α) (call : Bool) : Reachable L bt →
      Reachable L (BinomialTree.theta L bt K S vol r T q call).2
  | byRho (bt : BinomialTree α) (K S vol r T q : α) (call : Bool) : Reachable L bt →
      Reachable L (BinomialTree.rho L bt K S vol r T q call).2
  | byVega (bt : BinomialTree α) (K S vol r T q : α) : Reachable L bt →
      Reachable L (BinomialTree.vega L bt K S vol r T q).2

end BinomialTree

/-! ## Binomial sums in fixed point

For a call on an asset without yield the lattice never exercises early, so its
price is a discounted binomial sum.  The sum is bounded below and above by exact
natural-number arithmetic on fixed-point bounds (scale `SC`) of `p`, `1 - p`, `u`,
`d` and the discount factor. -/

namespace Enclosure

end Enclosure
/-! ## Lemmas on the analytic models -/

section NearZeroLemmas

variable {α : Type} [LinearOrderedField α]

theorem nearZero_iff_abs_lt (p : α) :
    nearZero p NEAR_ZERO = true ↔ |p| < 1e-10 := by
  simp only [nearZero, NEAR_ZERO, Bool.and_eq_true, decide_eq_true_eq, abs_lt, gt_iff_lt]

theorem nearZero_eq_false_iff (p : α) :
    nearZero p NEAR_ZERO = false ↔ ¬ |p| < 1e-10 := by
  rw [← nearZero_iff_abs_lt]; simp

end NearZeroLemmas

namespace BlackScholes

variable {α : Type} [LinearOrderedField α] (L : Libm α)

theorem N_add_N_neg (x : α) (hx : x ≠ 0) : N L x + N L (-x) = 1 := by
  rcases lt_or_gt_of_ne hx with h | h
  · have h' : ¬ (-x < 0) := by simp; exact le_of_lt h
    simp only [N, h, h', if_true, if_false, abs_neg]
    ring
  · have h' : (-x < 0) := by simpa using h
    have h'' : ¬ (x < 0) := not_lt.mpr (le_of_lt h)
    simp only [N, h'', h', if_true, if_false, abs_neg]
    ring

theorem value_eq_d (K S vol r T q : α) (call : Bool) :
    value L K S vol r T q call =
      if call then S * L.exp (-q * T) * N L (d1 L K S vol r T q)
          - K * L.exp (-r * T) * N L (d2 L K S vol r T q)
      else K * L.exp (-r * T) * N L (-(d2 L K S vol r T q))
          - S * L.exp (-q * T) * N L (-(d1 L K S vol r T q)) := by
  have e : (vol * vol) / 2.0 = vol ^ 2 / 2 := by norm_num [sq]
  simp only [value, d1, d2, e]

/-- The loop of `impliedVol` run from `v` with `n + 1` in the counter returns
the `k`-th Newton iterate from `v`, when no earlier iterate meets the threshold
and either the `k`-th does or the counter is used up (`k = n`). -/
theorem loop_eq_iterate (K S mp r T q : α) (n : Nat) :
    ∀ (k : Nat) (v : α), k ≤ n →
      (∀ j, j < k → ¬ |value L K S ((newtonStep L K S mp r T q)^[j] v) r T q true - mp| < 1e-10) →
      (k < n → |value L K S ((newtonStep L K S mp r T q)^[k] v) r T q true - mp| < 1e-10) →
      impliedVol.loop L K S mp r T q (L.sqrt T) (L.log (S / K)) (L.exp (-q * T)) (n + 1) v
        = (newtonStep L K S mp r T q)^[k] v := by
  induction n with
  | zero =>
    intro k v hk _ _
    have : k = 0 := by omega
    subst this
    simp [impliedVol.loop]
  | succ n ih =>
    intro k v hk hfirst hconv
    rw [impliedVol.loop]
    simp only [Nat.succ_ne_zero, if_false]
    cases k with
    | zero =>
      have h0 := hconv (Nat.succ_pos n)
      simp only [Function.iterate_zero, id_eq] at h0 ⊢
      have : nearZero (impliedVol.p1 L K S mp r T q v) NEAR_ZERO = true :=
        (nearZero_iff_abs_lt _).2 h0
      simp [this]
    | succ k =>
      have h0 := hfirst 0 (Nat.succ_pos k)
      simp only [Function.iterate_zero, id_eq] at h0
      have : nearZero (impliedVol.p1 L K S mp r T q v) NEAR_ZERO = false :=
        (nearZero_eq_false_iff _).2 h0
      simp only [this, Bool.false_eq_true, if_false]
      have step : v - impliedVol.p1 L K S mp r T q v /
          impliedVol.p2 L S r T q (L.sqrt T) (L.log (S / K)) (L.exp (-q * T)) v
          = newtonStep L K S mp r T q v := rfl
      rw [step, Function.iterate_succ_apply]
      apply ih k _ (by omega)
      · intro j hj
        have := hfirst (j + 1) (by omega)
        rwa [Function.iterate_succ_apply] at this
      · intro hk'
        have := hconv (by omega)
        rwa [Function.iterate_succ_apply] at this

end BlackScholes

namespace Black

variable {α : Type} [LinearOrderedField α] (L : Libm α)

theorem fwd_N_add_N_neg (x : α) (hx : x ≠ 0) : N L x + N L (-x) = 1 := by
  rcases lt_or_gt_of_ne hx with h | h
  · have h' : ¬ (-x < 0) := by simp; exact le_of_lt h
    simp only [N, h, h', if_true, if_false, abs_neg]
    ring
  · have h' : (-x < 0) := by simpa using h
    have h'' : ¬ (x < 0) := not_lt.mpr (le_of_lt h)
    simp only [N, h'', h', if_true, if_false, abs_neg]
    ring

theorem fwd_value_eq_d (K F vol r T : α) (call : Bool) :
    value L K F vol r T call =
      if call then L.exp (-r * T) * (F * N L (d1 L K F vol T) - K * N L (d2 L K F vol T))
      else L.exp (-r * T) * (K * N L (-(d2 L K F vol T)) - F * N L (-(d1 L K F vol T))) := by
  have e : (vol * vol) / 2.0 = vol ^ 2 / 2 := by norm_num [sq]
  simp only [value, d1, d2, e]

/-- The loop of `Black::impliedVol` run from `v` with `n + 1` in the counter
returns the `k`-th Newton iterate from `v`, when no earlier iterate meets the
threshold and either the `k`-th does or the counter is used up (`k = n`). -/
theorem fwd_loop_eq_iterate (K F mp r T : α) (n : Nat) :
    ∀ (k : Nat) (v : α), k ≤ n →
      (∀ j, j < k → ¬ |value L K F ((newtonStep L K F mp r T)^[j] v) r T true - mp| < 1e-10) →
      (k < n → |value L K F ((newtonStep L K F mp r T)^[k] v) r T true - mp| < 1e-10) →
      impliedVol.loop L K F mp r T (L.sqrt T) (L.log (F / K)) (n + 1) v
        = (newtonStep L K F mp r T)^[k] v := by
  induction n with
  | zero =>
    intro k v hk _ _
    have : k = 0 := by omega
    subst this
    simp [impliedVol.loop]
  | succ n ih =>
    intro k v hk hfirst hconv
    rw [impliedVol.loop]
    simp only [Nat.succ_ne_zero, if_false]
    cases k with
    | zero =>
      have h0 := hconv (Nat.succ_pos n)
      simp only [Function.iterate_zero, id_eq] at h0 ⊢
      have : nearZero (impliedVol.p1 L K F mp r T v) NEAR_ZERO = true :=
        (nearZero_iff_abs_lt _).2 h0
      simp [this]
    | succ k =>
      have h0 := hfirst 0 (Nat.succ_pos k)
      simp only [Function.iterate_zero, id_eq] at h0
      have : nearZero (impliedVol.p1 L K F mp r T v) NEAR_ZERO = false :=
        (nearZero_eq_false_iff _).2 h0
      simp only [this, Bool.false_eq_true, if_false]
      have step : v - impliedVol.p1 L K F mp r T v /
          impliedVol.p2 L F r T (L.sqrt T) (L.log (F / K)) v
          = newtonStep L K F mp r T v := rfl
      rw [step, Function.iterate_succ_apply]
      apply ih k _ (by omega)
      · intro j hj
        have := hfirst (j + 1) (by omega)
        rwa [Function.iterate_succ_apply] at this
      · intro hk'
        have := hconv (by omega)
        rwa [Function.iterate_succ_apply] at this

end Black

/-! ## Real-number facts about the approximate normal distribution -/

section RealBounds

theorem Libm.real_exp (x : ℝ) : Libm.real.exp x = Real.exp x := rfl
theorem Libm.real_sqrt (x : ℝ) : Libm.real.sqrt x = Real.sqrt x := rfl
theorem Libm.real_log (x : ℝ) : Libm.real.log x = Real.log x := rfl
theorem Libm.real_pi : Libm.real.M_PI = Real.pi := rfl

/-- The polynomial of the approximation stays within `[-6, 6]` on `[0, 1]`. -/
theorem poly_bound (k : ℝ) (h0 : 0 ≤ k) (h1 : k ≤ 1) :
    |0.31938153 * k + -0.356563782 * k * k + 1.781477937 * k ^ 3 + -1.821255978 * k ^ 4
      + 1.330274429 * k ^ 5| ≤ 6 := by
  have h2 : 0 ≤ k * k := mul_nonneg h0 h0
  have h2' : k * k ≤ 1 := by nlinarith
  have h3 : 0 ≤ k ^ 3 := by positivity
  have h3' : k ^ 3 ≤ 1 := pow_le_one₀ h0 h1
  have h4 : 0 ≤ k ^ 4 := by positivity
  have h4' : k ^ 4 ≤ 1 := pow_le_one₀ h0 h1
  have h5 : 0 ≤ k ^ 5 := by positivity
  have h5' : k ^ 5 ≤ 1 := pow_le_one₀ h0 h1
  rw [abs_le]
  constructor <;> linarith

/-- The shape shared by `BlackScholes.N` and `Black.N`, with any value `s ≥ 1`
in place of `sqrt (2 Pi)`, is bounded by 7 in absolute value. -/
theorem approx_abs_le (s : ℝ) (hs : 1 ≤ s) (x : ℝ) :
    |(if x < 0 then
        1 - (1 - 1 / s * Real.exp (-|x| * |x| / 2) *
          (0.31938153 * (1 / (1 + 0.2316419 * |x|))
          + -0.356563782 * (1 / (1 + 0.2316419 * |x|)) * (1 / (1 + 0.2316419 * |x|))
          + 1.781477937 * (1 / (1 + 0.2316419 * |x|)) ^ 3
          + -1.821255978 * (1 / (1 + 0.2316419 * |x|)) ^ 4
          + 1.330274429 * (1 / (1 + 0.2316419 * |x|)) ^ 5))
      else
        1 - 1 / s * Real.exp (-|x| * |x| / 2) *
          (0.31938153 * (1 / (1 + 0.2316419 * |x|))
          + -0.356563782 * (1 / (1 + 0.2316419 * |x|)) * (1 / (1 + 0.2316419 * |x|))
          + 1.781477937 * (1 / (1 + 0.2316419 * |x|)) ^ 3
          + -1.821255978 * (1 / (1 + 0.2316419 * |x|)) ^ 4
          + 1.330274429 * (1 / (1 + 0.2316419 * |x|)) ^ 5))| ≤ 7 := by
  have hl : 0 ≤ |x| := abs_nonneg x
  have hden : (1:ℝ) ≤ 1 + 0.2316419 * |x| := by
    have : 0 ≤ 0.2316419 * |x| := by positivity
    linarith
  have hk0 : 0 ≤ 1 / (1 + 0.2316419 * |x|) := by
    apply div_nonneg <;> linarith
  have hk1 : 1 / (1 + 0.2316419 * |x|) ≤ 1 := by
    rw [div_le_one (by linarith)]; exact hden
  have hp := poly_bound _ hk0 hk1
  have hc0 : 0 ≤ 1 / s := by
    apply div_nonneg <;> linarith
  have hc1 : 1 / s ≤ 1 := by
    rw [div_le_one (by linarith)]; exact hs
  have he0 : 0 ≤ Real.exp (-|x| * |x| / 2) := (Real.exp_pos _).le
  have he1 : Real.exp (-|x| * |x| / 2) ≤ 1 := by
    rw [Real.exp_le_one_iff]
    have : 0 ≤ |x| * |x| := mul_nonneg hl hl
    linarith
  have hce0 : 0 ≤ 1 / s * Real.exp (-|x| * |x| / 2) := mul_nonneg hc0 he0
  have hce1 : 1 / s * Real.exp (-|x| * |x| / 2) ≤ 1 := by
    calc _ ≤ 1 * 1 := mul_le_mul hc1 he1 he0 (by norm_num)
      _ = 1 := by norm_num
  rw [abs_le] at hp
  obtain ⟨hp1, hp2⟩ := hp
  generalize 1 / s * Real.exp (-|x| * |x| / 2) = c at hce0 hce1 ⊢
  generalize (0.31938153 * (1 / (1 + 0.2316419 * |x|))
      + -0.356563782 * (1 / (1 + 0.2316419 * |x|)) * (1 / (1 + 0.2316419 * |x|))
      + 1.781477937 * (1 / (1 + 0.2316419 * |x|)) ^ 3
      + -1.821255978 * (1 / (1 + 0.2316419 * |x|)) ^ 4
      + 1.330274429 * (1 / (1 + 0.2316419 * |x|)) ^ 5) = P at hp1 hp2 ⊢
  have hcp1 : c * P ≤ 6 := by nlinarith
  have hcp2 : -6 ≤ c * P := by nlinarith
  split_ifs <;> rw [abs_le] <;> constructor <;> linarith

/-- The approximate normal distribution of the Spot model is bounded by 7 in
absolute value at every real argument. -/
theorem BlackScholes.abs_N_le (x : ℝ) : |BlackScholes.N Libm.real x| ≤ 7 := by
  have e1 : (1.0 : ℝ) = 1 := by norm_num
  have hs : (1:ℝ) ≤ Real.sqrt (2 * Real.pi) := by
    rw [Real.one_le_sqrt]; linarith [Real.pi_gt_three]
  simp only [BlackScholes.N, Libm.real_exp, Libm.real_sqrt, Libm.real_pi, e1]
  exact approx_abs_le _ hs x

/-- The approximate normal distribution of the Forward model is bounded by 7
in absolute value at every real argument. -/
theorem Black.fwd_abs_N_le (x : ℝ) : |Black.N Libm.real x| ≤ 7 := by
  have e1 : (1.0 : ℝ) = 1 := by norm_num
  have hs : (1:ℝ) ≤ Real.sqrt (2 * 3.141592653589793238462643) := by
    rw [Real.one_le_sqrt]; norm_num
  simp only [Black.N, Libm.real_exp, Libm.real_sqrt, e1]
  exact approx_abs_le _ hs x

/-- The density `DN` of the Spot model is positive at every real argument. -/
theorem BlackScholes.DN_pos (x : ℝ) : 0 < BlackScholes.DN Libm.real x := by
  have hs : (0:ℝ) < Real.sqrt (2.0 * 3.141592653589793238462643) :=
    Real.sqrt_pos.2 (by norm_num)
  simp only [BlackScholes.DN, Libm.real_exp, Libm.real_sqrt]
  exact mul_pos (div_pos (by norm_num) hs) (Real.exp_pos _)

/-- The density `DN` of the Forward model is positive at every real argument. -/
theorem Black.fwd_DN_pos (x : ℝ) : 0 < Black.DN Libm.real x := by
  have hs : (0:ℝ) < Real.sqrt (2.0 * 3.141592653589793238462643) :=
    Real.sqrt_pos.2 (by norm_num)
  simp only [Black.DN, Libm.real_exp, Libm.real_sqrt]
  exact mul_pos (div_pos (by norm_num) hs) (Real.exp_pos _)

/-- At strike 1, spot 1, rate 0, maturity 1, yield 0 the Spot-model call price is
at most 14 in absolute value, whatever the volatility. -/
theorem BlackScholes.abs_value_unit_le (vol : ℝ) :
    |BlackScholes.value Libm.real 1 1 vol 0 1 0 true| ≤ 14 := by
  rw [BlackScholes.value_eq_d]
  simp only [if_true, Libm.real_exp, neg_zero, zero_mul, Real.exp_zero, mul_one, one_mul]
  have h1 := BlackScholes.abs_N_le (BlackScholes.d1 Libm.real 1 1 vol 0 1 0)
  have h2 := BlackScholes.abs_N_le (BlackScholes.d2 Libm.real 1 1 vol 0 1 0)
  rw [abs_le] at h1 h2 ⊢
  constructor <;> linarith [h1.1, h1.2, h2.1, h2.2]

/-- At strike 1, forward 1, rate 0, maturity 1 the Forward-model call price is at
most 14 in absolute value, whatever the volatility. -/
theorem Black.fwd_abs_value_unit_le (vol : ℝ) :
    |Black.value Libm.real 1 1 vol 0 1 true| ≤ 14 := by
  rw [Black.fwd_value_eq_d]
  simp only [if_true, Libm.real_exp, neg_zero, zero_mul, Real.exp_zero, mul_one, one_mul]
  have h1 := Black.fwd_abs_N_le (Black.d1 Libm.real 1 1 vol 1)
  have h2 := Black.fwd_abs_N_le (Black.d2 Libm.real 1 1 vol 1)
  rw [abs_le] at h1 h2 ⊢
  constructor <;> linarith [h1.1, h1.2, h2.1, h2.2]

/-- A market price of 100 is never within `1e-10` of the Spot-model call price at
strike 1, spot 1, rate 0, maturity 1, yield 0. -/
theorem BlackScholes.unit_never_near (vol : ℝ) :
    ¬ |BlackScholes.value Libm.real 1 1 vol 0 1 0 true - 100| < 1e-10 := by
  have h := BlackScholes.abs_value_unit_le vol
  rw [abs_le] at h
  rw [abs_lt]
  intro hc
  norm_num at hc
  linarith [h.2, hc.1]

/-- A market price of 100 is never within `1e-10` of the Forward-model call price
at strike 1, forward 1, rate 0, maturity 1. -/
theorem Black.fwd_unit_never_near (vol : ℝ) :
    ¬ |Black.value Libm.real 1 1 vol 0 1 true - 100| < 1e-10 := by
  have h := Black.fwd_abs_value_unit_le vol
  rw [abs_le] at h
  rw [abs_lt]
  intro hc
  norm_num at hc
  linarith [h.2, hc.1]

/-- The Spot-model vega at spot 1, maturity 1, yield 0 is not zero. -/
theorem BlackScholes.vega_unit_ne_zero (K vol r : ℝ) :
    BlackScholes.vega Libm.real K 1 vol r 1 0 ≠ 0 := by
  have h := BlackScholes.DN_pos
    ((Real.log (1 / K) + (r - 0 + ((vol * vol) / 2.0)) * 1) / (vol * Real.sqrt 1))
  simp only [BlackScholes.vega, Libm.real_exp, Libm.real_sqrt, Libm.real_log]
  simp only [Real.sqrt_one, neg_zero, zero_mul, Real.exp_zero, mul_one, one_mul] at h ⊢
  exact ne_of_gt h

/-- The Forward-model vega at forward 1, rate 0, maturity 1 is not zero. -/
theorem Black.fwd_vega_unit_ne_zero (K vol : ℝ) :
    Black.vega Libm.real K 1 vol 0 1 ≠ 0 := by
  have h := Black.fwd_DN_pos
    ((Real.log (1 / K) + (((vol * vol) / 2.0)) * 1) / (vol * Real.sqrt 1))
  simp only [Black.vega, Libm.real_exp, Libm.real_sqrt, Libm.real_log]
  simp only [Real.sqrt_one, neg_zero, zero_mul, Real.exp_zero, mul_one, one_mul] at h ⊢
  exact ne_of_gt h

end RealBounds

/-! ## Claims on the analytic models -/

section AnalyticClaims

variable {α : Type} [LinearOrderedField α] (L : Libm α)

/-- C5: `BlackScholes.value` returns `S e^(-qT) N(d1) - K e^(-rT) N(d2)` for a call
and `K e^(-rT) N(-d2) - S e^(-qT) N(-d1)` for a put, with
`d1 = (ln(S/K) + (r - q + vol^2/2) T) / (vol sqrt T)` and `d2 = d1 - vol sqrt T`
(for all arguments, in particular for `K, S, vol, T > 0`). -/
theorem BlackScholes.value_eq_spec_formula (K S vol r T q : α) (call : Bool) :
    BlackScholes.value L K S vol r T q call = BlackScholes.specValue L K S vol r T q call := by
  have e : (vol * vol) / 2.0 = vol ^ 2 / 2 := by norm_num [sq]
  simp only [BlackScholes.value, BlackScholes.specValue, e, neg_mul]

/-- C9: the derivative used by the Newton step is the model's own vega.  In
`BlackScholes.impliedVol` the loop is entered with the counter at 100, `vol = 0.5`
and `sqrtT`, `logTerm`, `divTerm` set up from the arguments; each pass that is made
(counter at least 2 before the test) and does not stop on `p1 = value(vol) - marketPrice`
continues from `vol - p1 / BlackScholes.vega(K,S,vol,r,T,q)`, because the `p2` computed
inline equals `BlackScholes.vega(K,S,vol,r,T,q)`; likewise `Black.impliedVol` continues
from `vol - p1 / Black.vega(K,F,vol,r,T)`. -/
theorem impliedVol_p2_eq_vega :
    (∀ K S marketPrice vol r T q : α,
      BlackScholes.impliedVol.p2 L S r T q (L.sqrt T) (L.log (S / K)) (L.exp (-q * T)) vol
        = BlackScholes.vega L K S vol r T q ∧
      BlackScholes.impliedVol L K S marketPrice r T q
        = BlackScholes.impliedVol.loop L K S marketPrice r T q (L.sqrt T) (L.log (S / K))
            (L.exp (-q * T)) 100 0.5 ∧
      ∀ n : Nat,
        BlackScholes.impliedVol.loop L K S marketPrice r T q (L.sqrt T) (L.log (S / K))
            (L.exp (-q * T)) (n + 2) vol
          = if nearZero (BlackScholes.value L K S vol r T q true - marketPrice) NEAR_ZERO
            then vol
            else BlackScholes.impliedVol.loop L K S marketPrice r T q (L.sqrt T)
              (L.log (S / K)) (L.exp (-q * T)) (n + 1)
              (vol - (BlackScholes.value L K S vol r T q true - marketPrice)
                / BlackScholes.vega L K S vol r T q)) ∧
    (∀ K F marketPrice vol r T : α,
      Black.impliedVol.p2 L F r T (L.sqrt T) (L.log (F / K)) vol
        = Black.vega L K F vol r T ∧
      Black.impliedVol L K F marketPrice r T
        = Black.impliedVol.loop L K F marketPrice r T (L.sqrt T) (L.log (F / K)) 100 0.5 ∧
      ∀ n : Nat,
        Black.impliedVol.loop L K F marketPrice r T (L.sqrt T) (L.log (F / K)) (n + 2) vol
          = if nearZero (Black.value L K F vol r T true - marketPrice) NEAR_ZERO then vol
            else Black.impliedVol.loop L K F marketPrice r T (L.sqrt T) (L.log (F / K))
              (n + 1)
              (vol - (Black.value L K F vol r T true - marketPrice)
                / Black.vega L K F vol r T)) := by
  constructor
  · intro K S marketPrice vol r T q
    refine ⟨rfl, rfl, fun n => ?_⟩
    rw [BlackScholes.impliedVol.loop]
    simp only [Nat.succ_ne_zero, if_false]
    rfl
  · intro K F marketPrice vol r T
    refine ⟨rfl, rfl, fun n => ?_⟩
    rw [Black.impliedVol.loop]
    simp only [Nat.succ_ne_zero, if_false]
    rfl

/-- C7: with `s_0 = 0.5` and `s_(k+1) = s_k - (value(s_k) - marketPrice)/vega(s_k)`,
if `s_k` is the first iterate with `|value(s_k) - marketPrice| < 1e-10` and `k < 100`,
then `BlackScholes.impliedVol` returns `s_k`; in particular it returns `0.5` when
`k = 0`. -/
theorem BlackScholes.impliedVol_returns_first_converged (K S marketPrice r T q : α) (k : Nat)
    (hk : k < 100)
    (hconv : |BlackScholes.value L K S (BlackScholes.newtonSeq L K S marketPrice r T q k)
        r T q true - marketPrice| < 1e-10)
    (hfirst : ∀ j, j < k →
      ¬ |BlackScholes.value L K S (BlackScholes.newtonSeq L K S marketPrice r T q j)
        r T q true - marketPrice| < 1e-10) :
    BlackScholes.impliedVol L K S marketPrice r T q
        = BlackScholes.newtonSeq L K S marketPrice r T q k ∧
      (k = 0 → BlackScholes.impliedVol L K S marketPrice r T q = 0.5) := by
  have main : BlackScholes.impliedVol L K S marketPrice r T q
      = BlackScholes.newtonSeq L K S marketPrice r T q k :=
    BlackScholes.loop_eq_iterate L K S marketPrice r T q 99 k 0.5 (by omega) hfirst
      (fun _ => hconv)
  refine ⟨main, ?_⟩
  intro h0
  rw [main, h0]
  rfl

/-- When none of the iterates `s_0, ..., s_98` meets the threshold,
`BlackScholes.impliedVol` returns `s_99`: the value after 99 updates. -/
theorem BlackScholes.impliedVol_eq_newtonSeq_99 (K S marketPrice r T q : α)
    (hnone : ∀ j, j < 99 →
      ¬ |BlackScholes.value L K S (BlackScholes.newtonSeq L K S marketPrice r T q j)
        r T q true - marketPrice| < 1e-10) :
    BlackScholes.impliedVol L K S marketPrice r T q
      = BlackScholes.newtonSeq L K S marketPrice r T q 99 :=
  BlackScholes.loop_eq_iterate L K S marketPrice r T q 99 99 0.5 (le_refl _) hnone
    (fun h => absurd h (lt_irrefl _))

/-- When none of the iterates `s_0, ..., s_98` meets the threshold,
`Black.impliedVol` returns `s_99`: the value after 99 updates. -/
theorem Black.fwd_impliedVol_eq_newtonSeq_99 (K F marketPrice r T : α)
    (hnone : ∀ j, j < 99 →
      ¬ |Black.value L K F (Black.newtonSeq L K F marketPrice r T j) r T true
        - marketPrice| < 1e-10) :
    Black.impliedVol L K F marketPrice r T = Black.newtonSeq L K F marketPrice r T 99 :=
  Black.fwd_loop_eq_iterate L K F marketPrice r T 99 99 0.5 (le_refl _) hnone
    (fun h => absurd h (lt_irrefl _))

/-- C6 (amended): if some Newton iterate `s_k` with `k < 100` satisfies
`|value(s_k) - marketPrice| < 1e-10`, then the volatility returned by `impliedVol`
satisfies `|value(vol) - marketPrice| < 1e-10` (Spot model and Forward model). -/
theorem impliedVol_solves_if_converged :
    (∀ K S marketPrice r T q : α,
      (∃ k, k < 100 ∧
        |BlackScholes.value L K S (BlackScholes.newtonSeq L K S marketPrice r T q k)
          r T q true - marketPrice| < 1e-10) →
      |BlackScholes.value L K S (BlackScholes.impliedVol L K S marketPrice r T q)
          r T q true - marketPrice| < 1e-10) ∧
    (∀ K F marketPrice r T : α,
      (∃ k, k < 100 ∧
        |Black.value L K F (Black.newtonSeq L K F marketPrice r T k) r T true
          - marketPrice| < 1e-10) →
      |Black.value L K F (Black.impliedVol L K F marketPrice r T) r T true
          - marketPrice| < 1e-10) := by
  classical
  constructor
  · intro K S mp r T q h
    have hlt := (Nat.find_spec h).1
    have hc := (Nat.find_spec h).2
    have hmin : ∀ j, j < Nat.find h →
        ¬ |BlackScholes.value L K S (BlackScholes.newtonSeq L K S mp r T q j) r T q true
          - mp| < 1e-10 := by
      intro j hj hcontra
      exact Nat.find_min h hj ⟨by omega, hcontra⟩
    have e : BlackScholes.impliedVol L K S mp r T q
        = BlackScholes.newtonSeq L K S mp r T q (Nat.find h) :=
      BlackScholes.loop_eq_iterate L K S mp r T q 99 (Nat.find h) 0.5 (by omega) hmin
        (fun _ => hc)
    rw [e]
    exact hc
  · intro K F mp r T h
    have hlt := (Nat.find_spec h).1
    have hc := (Nat.find_spec h).2
    have hmin : ∀ j, j < Nat.find h →
        ¬ |Black.value L K F (Black.newtonSeq L K F mp r T j) r T true - mp| < 1e-10 := by
      intro j hj hcontra
      exact Nat.find_min h hj ⟨by omega, hcontra⟩
    have e : Black.impliedVol L K F mp r T = Black.newtonSeq L K F mp r T (Nat.find h) :=
      Black.fwd_loop_eq_iterate L K F mp r T 99 (Nat.find h) 0.5 (by omega) hmin (fun _ => hc)
    rw [e]
    exact hc

/-- C4 (amended): for `K > 0`, `F > 0`, `vol > 0`, `T > 0` and every `r` with
`d1 ≠ 0` and `d2 ≠ 0`, the Forward-model call price minus the put price equals
`(F - K) e^(-rT)`. -/
theorem Black.fwd_put_call_parity_of_ne_zero (K F vol r T : α)
    (_hK : 0 < K) (_hF : 0 < F) (_hvol : 0 < vol) (_hT : 0 < T)
    (h1 : Black.d1 L K F vol T ≠ 0) (h2 : Black.d2 L K F vol T ≠ 0) :
    Black.value L K F vol r T true - Black.value L K F vol r T false
      = (F - K) * L.exp (-r * T) := by
  rw [Black.fwd_value_eq_d, Black.fwd_value_eq_d]
  simp only [if_true, Bool.false_eq_true, if_false]
  have e1 := Black.fwd_N_add_N_neg L _ h1
  have e2 := Black.fwd_N_add_N_neg L _ h2
  linear_combination (F * L.exp (-r * T)) * e1 - (K * L.exp (-r * T)) * e2

end AnalyticClaims

/-! ## The analytic claims at concrete real inputs -/

section AnalyticConcrete

/-- C6 (as stated) fails: at strike 1, spot 1, market price 100, rate 0, maturity 1,
yield 0 the volatility returned by `BlackScholes.impliedVol` does not price the call
within `1e-10` of the market price. -/
theorem BlackScholes.impliedVol_not_always_solving :
    ¬ |BlackScholes.value Libm.real 1 1 (BlackScholes.impliedVol Libm.real 1 1 100 0 1 0)
        0 1 0 true - 100| < 1e-10 :=
  BlackScholes.unit_never_near _

/-- C8: at strike 1, underlying 1, market price 100, rate 0, maturity 1 (yield 0) no
Newton iterate meets the threshold, and `impliedVol` returns the iterate after 99
updates, which differs from the iterate after 100 updates (both models). -/
theorem impliedVol_stops_after_99_updates :
    ((∀ j, ¬ |BlackScholes.value Libm.real 1 1
          (BlackScholes.newtonSeq Libm.real 1 1 100 0 1 0 j) 0 1 0 true - 100| < 1e-10) ∧
      BlackScholes.impliedVol Libm.real 1 1 100 0 1 0
        = BlackScholes.newtonSeq Libm.real 1 1 100 0 1 0 99 ∧
      BlackScholes.impliedVol Libm.real 1 1 100 0 1 0
        ≠ BlackScholes.newtonSeq Libm.real 1 1 100 0 1 0 100) ∧
    ((∀ j, ¬ |Black.value Libm.real 1 1
          (Black.newtonSeq Libm.real 1 1 100 0 1 j) 0 1 true - 100| < 1e-10) ∧
      Black.impliedVol Libm.real 1 1 100 0 1 = Black.newtonSeq Libm.real 1 1 100 0 1 99 ∧
      Black.impliedVol Libm.real 1 1 100 0 1 ≠ Black.newtonSeq Libm.real 1 1 100 0 1 100) := by
  constructor
  · have hnone : ∀ j, ¬ |BlackScholes.value Libm.real 1 1
        (BlackScholes.newtonSeq Libm.real 1 1 100 0 1 0 j) 0 1 0 true - 100| < 1e-10 :=
      fun j => BlackScholes.unit_never_near _
    have h99 := BlackScholes.impliedVol_eq_newtonSeq_99 Libm.real 1 1 100 0 1 0
      (fun j _ => hnone j)
    refine ⟨hnone, h99, ?_⟩
    rw [h99]
    intro hcontra
    have hstep : BlackScholes.newtonSeq Libm.real 1 1 100 0 1 0 100
        = BlackScholes.newtonStep Libm.real 1 1 100 0 1 0
            (BlackScholes.newtonSeq Libm.real 1 1 100 0 1 0 99) :=
      Function.iterate_succ_apply' _ 99 _
    rw [hstep, BlackScholes.newtonStep] at hcontra
    have hdiv : (BlackScholes.value Libm.real 1 1
        (BlackScholes.newtonSeq Libm.real 1 1 100 0 1 0 99) 0 1 0 true - 100)
        / BlackScholes.vega Libm.real 1 1
          (BlackScholes.newtonSeq Libm.real 1 1 100 0 1 0 99) 0 1 0 = 0 := by linarith
    rcases div_eq_zero_iff.1 hdiv with h | h
    · exact hnone 99 (by rw [h]; norm_num)
    · exact BlackScholes.vega_unit_ne_zero _ _ _ h
  · have hnone : ∀ j, ¬ |Black.value Libm.real 1 1
        (Black.newtonSeq Libm.real 1 1 100 0 1 j) 0 1 true - 100| < 1e-10 :=
      fun j => Black.fwd_unit_never_near _
    have h99 := Black.fwd_impliedVol_eq_newtonSeq_99 Libm.real 1 1 100 0 1 (fun j _ => hnone j)
    refine ⟨hnone, h99, ?_⟩
    rw [h99]
    intro hcontra
    have hstep : Black.newtonSeq Libm.real 1 1 100 0 1 100
        = Black.newtonStep Libm.real 1 1 100 0 1 (Black.newtonSeq Libm.real 1 1 100 0 1 99) :=
      Function.iterate_succ_apply' _ 99 _
    rw [hstep, Black.newtonStep] at hcontra
    have hdiv : (Black.value Libm.real 1 1 (Black.newtonSeq Libm.real 1 1 100 0 1 99) 0 1 true
        - 100) / Black.vega Libm.real 1 1 (Black.newtonSeq Libm.real 1 1 100 0 1 99) 0 1 = 0 := by
      linarith
    rcases div_eq_zero_iff.1 hdiv with h | h
    · exact hnone 99 (by rw [h]; norm_num)
    · exact Black.fwd_vega_unit_ne_zero _ _ h

/-- Witness for C7: with the market price equal to the call price at volatility 0.5
the first iterate already meets the threshold, and 0.5 is returned. -/
theorem BlackScholes.impliedVol_returns_first_converged_witness :
    |BlackScholes.value Libm.real 1 1 (BlackScholes.newtonSeq Libm.real 1 1
        (BlackScholes.value Libm.real 1 1 0.5 0 1 0 true) 0 1 0 0) 0 1 0 true
      - BlackScholes.value Libm.real 1 1 0.5 0 1 0 true| < 1e-10 ∧
    (BlackScholes.impliedVol Libm.real 1 1 (BlackScholes.value Libm.real 1 1 0.5 0 1 0 true) 0 1 0
        = BlackScholes.newtonSeq Libm.real 1 1
            (BlackScholes.value Libm.real 1 1 0.5 0 1 0 true) 0 1 0 0 ∧
      ((0 : Nat) = 0 → BlackScholes.impliedVol Libm.real 1 1
        (BlackScholes.value Libm.real 1 1 0.5 0 1 0 true) 0 1 0 = 0.5)) :=
  have h : |BlackScholes.value Libm.real 1 1 (BlackScholes.newtonSeq Libm.real 1 1
        (BlackScholes.value Libm.real 1 1 0.5 0 1 0 true) 0 1 0 0) 0 1 0 true
      - BlackScholes.value Libm.real 1 1 0.5 0 1 0 true| < 1e-10 := by
    simp [BlackScholes.newtonSeq]; norm_num
  ⟨h, BlackScholes.impliedVol_returns_first_converged Libm.real 1 1
    (BlackScholes.value Libm.real 1 1 0.5 0 1 0 true) 0 1 0 0 (by norm_num) h
    (fun j hj => absurd hj (Nat.not_lt_zero j))⟩

/-- Witness for C6 (amended): with the market price equal to the call price at
volatility 0.5, iterate 0 meets the threshold and the returned volatility prices the
call within `1e-10` of the market price (both models). -/
theorem impliedVol_solves_if_converged_witness :
    |BlackScholes.value Libm.real 1 1 (BlackScholes.impliedVol Libm.real 1 1
        (BlackScholes.value Libm.real 1 1 0.5 0 1 0 true) 0 1 0) 0 1 0 true
      - BlackScholes.value Libm.real 1 1 0.5 0 1 0 true| < 1e-10 ∧
    |Black.value Libm.real 1 1 (Black.impliedVol Libm.real 1 1
        (Black.value Libm.real 1 1 0.5 0 1 true) 0 1) 0 1 true
      - Black.value Libm.real 1 1 0.5 0 1 true| < 1e-10 :=
  ⟨(impliedVol_solves_if_converged Libm.real).1 1 1
      (BlackScholes.value Libm.real 1 1 0.5 0 1 0 true) 0 1 0
      ⟨0, by norm_num, by simp [BlackScholes.newtonSeq]; norm_num⟩,
    (impliedVol_solves_if_converged Libm.real).2 1 1
      (Black.value Libm.real 1 1 0.5 0 1 true) 0 1
      ⟨0, by norm_num, by simp [Black.newtonSeq]; norm_num⟩⟩

end AnalyticConcrete

section ParityConcrete

theorem Black.fwd_N_real_zero :
    Black.N Libm.real 0 = 1 - 1.253314136 / Real.sqrt (2 * 3.141592653589793238462643) := by
  simp only [Black.N, Libm.real_exp, Libm.real_sqrt, abs_zero, lt_irrefl,
    if_false, mul_zero, neg_zero, zero_div, Real.exp_zero, add_zero]
  generalize Real.sqrt (2 * 3.141592653589793238462643) = s
  norm_num
  ring

/-- At 0 the Forward model's approximate normal distribution is not one half. -/
theorem Black.fwd_two_N_zero_sub_one_ne : 2 * Black.N Libm.real 0 - 1 ≠ 0 := by
  rw [Black.fwd_N_real_zero]
  intro h
  have hpos : (0:ℝ) < Real.sqrt (2 * 3.141592653589793238462643) :=
    Real.sqrt_pos.2 (by norm_num)
  have h3 := Real.mul_self_sqrt (show (0:ℝ) ≤ 2 * 3.141592653589793238462643 by norm_num)
  generalize Real.sqrt (2 * 3.141592653589793238462643) = s at h hpos h3
  have h1 : 1.253314136 / s = 1 / 2 := by linarith
  rw [div_eq_iff hpos.ne'] at h1
  have h2 : s = 2.506628272 := by linarith
  rw [h2] at h3
  norm_num at h3

theorem Black.fwd_d1_cex : Black.d1 Libm.real 1 (Real.exp (-1 / 2)) 1 1 = 0 := by
  simp only [Black.d1, Libm.real_log, Libm.real_sqrt]
  norm_num

theorem Black.fwd_d2_cex : Black.d2 Libm.real 1 (Real.exp (-1 / 2)) 1 1 = -1 := by
  simp only [Black.d2, Black.fwd_d1_cex, Libm.real_sqrt]
  norm_num

/-- C4 (as stated) fails: at `K = 1`, `F = exp(-1/2)`, `vol = 1`, `r = 0`, `T = 1`
(where `d1 = 0`) the call price minus the put price is not `(F - K) e^(-rT)`. -/
theorem Black.fwd_put_call_parity_fails :
    Black.value Libm.real 1 (Real.exp (-1 / 2)) 1 0 1 true
        - Black.value Libm.real 1 (Real.exp (-1 / 2)) 1 0 1 false
      ≠ (Real.exp (-1 / 2) - 1) * Real.exp (-(0 * 1)) := by
  rw [Black.fwd_value_eq_d, Black.fwd_value_eq_d]
  simp only [if_true, Bool.false_eq_true, if_false, Black.fwd_d1_cex, Black.fwd_d2_cex,
    Libm.real_exp, neg_zero, neg_neg, zero_mul, mul_zero, Real.exp_zero, one_mul, mul_one]
  have e2 := Black.fwd_N_add_N_neg Libm.real (-1 : ℝ) (by norm_num)
  rw [neg_neg] at e2
  intro h
  have h3 : Real.exp (-1 / 2) * (2 * Black.N Libm.real 0 - 1) = 0 := by
    linear_combination h + e2
  rcases mul_eq_zero.1 h3 with h4 | h4
  · exact absurd h4 (Real.exp_pos _).ne'
  · exact Black.fwd_two_N_zero_sub_one_ne h4

/-- Witness for C4 (amended): at `K = F = 1`, `vol = 1`, `r = 0`, `T = 1` both
`d1 = 1/2` and `d2 = -1/2` are non-zero and parity is exact. -/
theorem Black.fwd_put_call_parity_of_ne_zero_witness :
    (0 : ℝ) < 1 ∧
    Black.d1 Libm.real 1 1 1 1 ≠ 0 ∧ Black.d2 Libm.real 1 1 1 1 ≠ 0 ∧
    Black.value Libm.real 1 1 1 0 1 true - Black.value Libm.real 1 1 1 0 1 false
      = (1 - 1) * Libm.real.exp (-0 * 1) :=
  have h1 : Black.d1 Libm.real 1 1 1 1 ≠ 0 := by
    simp only [Black.d1, Libm.real_log, Libm.real_sqrt]; norm_num
  have h2 : Black.d2 Libm.real 1 1 1 1 ≠ 0 := by
    simp only [Black.d2, Black.d1, Libm.real_log, Libm.real_sqrt]; norm_num
  ⟨one_pos, h1, h2,
    Black.fwd_put_call_parity_of_ne_zero Libm.real 1 1 1 0 1 one_pos one_pos one_pos one_pos
      h1 h2⟩

end ParityConcrete

/-! ## Lemmas on the grid and the loops -/

namespace AMatrix.Matrix

variable {α : Type}

theorem isGrid_set (m : Matrix α) (r c i j : Nat) (x : α) (h : m.IsGrid r c) :
    (m.set i j x).IsGrid r c := by
  obtain ⟨h1, h2⟩ := h
  refine ⟨by simp [set, h1], ?_⟩
  intro row hrow
  simp only [set] at hrow
  by_cases hi : i < m.m_rawData.length
  · rcases List.mem_or_eq_of_mem_set hrow with hmem | heq
    · exact h2 row hmem
    · subst heq
      rw [List.length_set, List.getD_eq_getElem _ _ hi]
      exact h2 _ (List.getElem_mem hi)
  · rw [List.set_eq_of_length_le (not_lt.mp hi)] at hrow
    exact h2 row hrow

theorem isGrid_fill (r c : Nat) (x : α) : (fill (r : Int) (c : Int) x).IsGrid r c := by
  constructor
  · simp [fill]
  · intro row hrow
    simp only [fill, Int.toNat_ofNat] at hrow
    rw [(List.mem_replicate.1 hrow).2]
    simp

variable [Zero α]

theorem get_set_of_ne (m : Matrix α) (i j i' j' : Nat) (x : α) (h : i ≠ i' ∨ j ≠ j') :
    (m.set i j x).get i' j' = m.get i' j' := by
  simp only [get, set, List.getD_eq_getElem?_getD]
  by_cases hi : i = i'
  · subst hi
    have hj : j ≠ j' := by
      rcases h with h | h
      · exact absurd rfl h
      · exact h
    by_cases hlen : i < m.m_rawData.length
    · simp [List.getElem?_set, hlen, hj]
    · rw [List.set_eq_of_length_le (not_lt.mp hlen)]
  · simp [List.getElem?_set, hi]

theorem get_set_self (m : Matrix α) (r c i j : Nat) (x : α) (h : m.IsGrid r c)
    (hi : i < r) (hj : j < c) : (m.set i j x).get i j = x := by
  obtain ⟨h1, h2⟩ := h
  have hlen : i < m.m_rawData.length := by omega
  have hrow : (m.m_rawData[i]).length = c := h2 _ (List.getElem_mem hlen)
  simp only [get, set, List.getD_eq_getElem?_getD]
  simp [List.getElem?_set, hlen, hrow, hj]

end AMatrix.Matrix

section Loops

variable {σ : Type}

theorem forUp_self (lo : Nat) (body : Nat → σ → σ) (s : σ) : forUp lo lo body s = s := by
  simp [forUp]

theorem forUp_succ (lo hi : Nat) (h : lo ≤ hi) (body : Nat → σ → σ) (s : σ) :
    forUp lo (hi + 1) body s = body hi (forUp lo hi body s) := by
  have e : hi + 1 - lo = (hi - lo) + 1 := by omega
  have e2 : lo + (hi - lo) = hi := by omega
  simp only [forUp, e, List.range'_1_concat, List.foldl_append, List.foldl_cons, List.foldl_nil, e2]

/-- Invariant rule for the ascending loop. -/
theorem forUp_invariant (P : Nat → σ → Prop) (lo hi : Nat) (h : lo ≤ hi)
    (body : Nat → σ → σ) (s : σ) (h0 : P lo s)
    (hstep : ∀ i t, lo ≤ i → i < hi → P i t → P (i + 1) (body i t)) :
    P hi (forUp lo hi body s) := by
  induction hi with
  | zero =>
    have : lo = 0 := by omega
    subst this
    rw [forUp_self]; exact h0
  | succ hi ih =>
    by_cases hlo : lo = hi + 1
    · subst hlo
      rw [forUp_self]; exact h0
    · have hle : lo ≤ hi := by omega
      rw [forUp_succ lo hi hle]
      apply hstep hi _ hle (by omega)
      exact ih hle (fun i t h1 h2 hp => hstep i t h1 (by omega) hp)

/-- Invariant rule for the descending loop that runs at `hi, ..., 1`: `Q i` holds
when the indices above `i` are done. -/
theorem forDown_invariant (Q : Nat → σ → Prop) (hi : Nat) (body : Nat → σ → σ) (s : σ)
    (h0 : Q hi s) (hstep : ∀ i t, i < hi → Q (i + 1) t → Q i (body (i + 1) t)) :
    Q 0 (forDown hi body s) := by
  induction hi generalizing s with
  | zero => exact h0
  | succ hi ih =>
    rw [forDown]
    apply ih
    · exact hstep hi s (by omega) h0
    · intro i t hlt hq
      exact hstep i t (by omega) hq

/-- Invariant rule for the descending loop that runs at `hi - 1, ..., 0`: `Q i`
holds when the indices from `i` up are done. -/
theorem forDownTo0_invariant (Q : Nat → σ → Prop) (hi : Nat) (body : Nat → σ → σ) (s : σ)
    (h0 : Q hi s) (hstep : ∀ i t, i < hi → Q (i + 1) t → Q i (body i t)) :
    Q 0 (forDownTo0 hi body s) := by
  induction hi generalizing s with
  | zero => exact h0
  | succ hi ih =>
    rw [forDownTo0]
    apply ih
    · exact hstep hi s (by omega) h0
    · intro i t hlt hq
      exact hstep i t (by omega) hq

end Loops

namespace BinomialTree

variable {α : Type} [LinearOrderedField α]

open AMatrix.Matrix in
/-- After the forward pass on an `n x n` grid (`n ≥ 1`) the grid is still `n x n`
and every node `[m][j]` with `j ≤ m < n` holds the value of the recurrence. -/
theorem value.assetPass_spec (N : Int) (n : Nat) (hn : N.toNat = n) (hpos : 1 ≤ n)
    (u d S : α) (s : AMatrix.Matrix α) (hs : s.IsGrid n n) :
    (value.assetPass N u d S s).IsGrid n n ∧
    ∀ m j, m < n → j ≤ m →
      (value.assetPass N u d S s).get m j = value.assetNode u d S m j := by
  simp only [value.assetPass, hn]
  have key := forUp_invariant
    (fun M (t : AMatrix.Matrix α) => t.IsGrid n n ∧
      ∀ m j, m < M → j ≤ m → t.get m j = value.assetNode u d S m j)
    1 n hpos
    (fun m m_s =>
      (forDown (m + 1) (fun n m_s => m_s.set m n (u * m_s.get (m - 1) (n - 1))) m_s).set m 0
        (d * (forDown (m + 1)
          (fun n m_s => m_s.set m n (u * m_s.get (m - 1) (n - 1))) m_s).get (m - 1) 0))
    (s.set 0 0 S) ?_ ?_
  · exact ⟨key.1, fun m j hm hj => key.2 m j hm hj⟩
  · refine ⟨isGrid_set _ _ _ _ _ _ hs, ?_⟩
    intro m j hm hj
    have hm0 : m = 0 := by omega
    have hj0 : j = 0 := by omega
    subst hm0; subst hj0
    rw [get_set_self _ n n 0 0 S hs (by omega) (by omega)]
    rfl
  · intro m t hm1 hmn ⟨hgrid, hrows⟩
    -- the inner descending loop
    have inner := forDown_invariant
      (fun k (t' : AMatrix.Matrix α) => t'.IsGrid n n ∧
        (∀ m' j', m' < m → t'.get m' j' = t.get m' j') ∧
        (∀ j', k < j' → j' ≤ m → t'.get m j' = u * t.get (m - 1) (j' - 1)))
      (m + 1) (fun n m_s => m_s.set m n (u * m_s.get (m - 1) (n - 1))) t
      ⟨hgrid, fun _ _ _ => rfl, fun j' h1 h2 => by omega⟩ ?_
    · obtain ⟨hg', hframe, hrow⟩ := inner
      refine ⟨isGrid_set _ _ _ _ _ _ hg', ?_⟩
      intro m' j' hm' hj'
      by_cases hmm : m' = m
      · subst hmm
        cases j' with
        | zero =>
          rw [get_set_self _ n n m' 0 _ hg' hmn (by omega)]
          rw [hframe (m' - 1) 0 (by omega), hrows (m' - 1) 0 (by omega) (by omega)]
          obtain ⟨m0, rfl⟩ : ∃ m0, m' = m0 + 1 := ⟨m' - 1, by omega⟩
          simp [value.assetNode]
        | succ j0 =>
          rw [get_set_of_ne _ _ _ _ _ _ (Or.inr (by omega))]
          rw [hrow (j0 + 1) (by omega) hj']
          obtain ⟨m0, rfl⟩ : ∃ m0, m' = m0 + 1 := ⟨m' - 1, by omega⟩
          simp only [Nat.add_sub_cancel]
          rw [hrows m0 j0 (by omega) (by omega)]
          simp [value.assetNode]
      · rw [get_set_of_ne _ _ _ _ _ _ (Or.inl (by omega))]
        rw [hframe m' j' (by omega)]
        exact hrows m' j' (by omega) hj'
    · intro i t' hi ⟨hg', hframe, hrow⟩
      refine ⟨isGrid_set _ _ _ _ _ _ hg', ?_, ?_⟩
      · intro m' j' hm'
        rw [get_set_of_ne _ _ _ _ _ _ (Or.inl (by omega))]
        exact hframe m' j' hm'
      · intro j' h1 h2
        by_cases hj : j' = i + 1
        · subst hj
          rw [get_set_self _ n n m (i + 1) _ hg' hmn (by omega)]
          simp only [Nat.add_sub_cancel]
          rw [hframe (m - 1) i (by omega)]
        · rw [get_set_of_ne _ _ _ _ _ _ (Or.inr (by omega))]
          exact hrow j' (by omega) h2

end BinomialTree

namespace BinomialTree

variable {α : Type} [LinearOrderedField α]

open AMatrix.Matrix in
/-- After the terminal loop on an `n x n` value grid (`n ≥ 1`) the grid is still
`n x n` and every cell `[n-1][j]`, `j < n`, holds the payoff at asset node
`[n-1][j]`. -/
theorem value.terminalPass_spec (N : Int) (n : Nat) (hn : N.toNat = n) (hpos : 1 ≤ n)
    (K : α) (call : Bool) (s v : AMatrix.Matrix α) (hv : v.IsGrid n n) :
    (value.terminalPass N K call s v).IsGrid n n ∧
    ∀ j, j < n →
      (value.terminalPass N K call s v).get (n - 1) j = payOff K (s.get (n - 1) j) call := by
  have hn1 : (N - 1).toNat = n - 1 := by omega
  simp only [value.terminalPass, hn, hn1]
  have key := forUp_invariant
    (fun J (t : AMatrix.Matrix α) => t.IsGrid n n ∧
      ∀ j, j < J → t.get (n - 1) j = payOff K (s.get (n - 1) j) call)
    0 n (Nat.zero_le n)
    (fun j m_v => m_v.set (n - 1) j (payOff K (s.get (n - 1) j) call)) v
    ⟨hv, fun j hj => absurd hj (Nat.not_lt_zero j)⟩ ?_
  · exact key
  · intro i t _ hi ⟨hg, hdone⟩
    refine ⟨isGrid_set _ _ _ _ _ _ hg, ?_⟩
    intro j hj
    by_cases hji : j = i
    · subst hji
      rw [get_set_self _ n n (n - 1) j _ hg (by omega) hi]
    · rw [get_set_of_ne _ _ _ _ _ _ (Or.inr (fun h => hji h.symm))]
      exact hdone j (by omega)

open AMatrix.Matrix in
/-- After the backward induction on an `n x n` value grid whose last row holds the
terminal payoffs, every cell `[m][j]` with `j ≤ m < n` holds the value of the
recurrence `n - 1 - m` levels above the last level. -/
theorem value.backwardPass_spec (N : Int) (n : Nat) (hn : N.toNat = n) (hpos : 1 ≤ n)
    (K p discount : α) (call : Bool) (asset : Nat → Nat → α) (s v : AMatrix.Matrix α)
    (hs : ∀ m j, m < n → j ≤ m → s.get m j = asset m j)
    (hv : v.IsGrid n n)
    (hterm : ∀ j, j < n → v.get (n - 1) j = payOff K (s.get (n - 1) j) call) :
    (value.backwardPass N K p discount call s v).IsGrid n n ∧
    ∀ m j, m < n → j ≤ m →
      (value.backwardPass N K p discount call s v).get m j
        = value.valueNode K p discount call asset (n - 1 - m) m j := by
  have hn1 : (N - 1).toNat = n - 1 := by omega
  simp only [value.backwardPass, hn1]
  have key := forDownTo0_invariant
    (fun M (t : AMatrix.Matrix α) => t.IsGrid n n ∧
      ∀ m j, M ≤ m → m < n → j ≤ m →
        t.get m j = value.valueNode K p discount call asset (n - 1 - m) m j)
    (n - 1)
    (fun m m_v => forUp 0 (m + 1) (fun n m_v =>
      m_v.set m n (dmax ((((1 - p) * m_v.get (m + 1) n) + (p * m_v.get (m + 1) (n + 1)))
        * discount) (payOff K (s.get m n) call))) m_v) v ?_ ?_
  · exact ⟨key.1, fun m j hm hj => key.2 m j (Nat.zero_le m) hm hj⟩
  · refine ⟨hv, ?_⟩
    intro m j hM hm hj
    have hmeq : m = n - 1 := by omega
    subst hmeq
    rw [hterm j (by omega), hs (n - 1) j (by omega) hj]
    simp [value.valueNode]
  · intro m t hm ⟨hg, hdone⟩
    have inner := forUp_invariant
      (fun J (t' : AMatrix.Matrix α) => t'.IsGrid n n ∧
        (∀ m' j', m < m' → t'.get m' j' = t.get m' j') ∧
        (∀ j, j < J →
          t'.get m j = value.valueNode K p discount call asset (n - 1 - m) m j))
      0 (m + 1) (Nat.zero_le _)
      (fun n m_v =>
        m_v.set m n (dmax ((((1 - p) * m_v.get (m + 1) n) + (p * m_v.get (m + 1) (n + 1)))
          * discount) (payOff K (s.get m n) call))) t
      ⟨hg, fun _ _ _ => rfl, fun j hj => absurd hj (Nat.not_lt_zero j)⟩ ?_
    · obtain ⟨hg', hframe, hrow⟩ := inner
      refine ⟨hg', ?_⟩
      intro m' j' hM hm' hj'
      by_cases hmm : m' = m
      · subst hmm
        exact hrow j' (by omega)
      · rw [hframe m' j' (by omega)]
        exact hdone m' j' (by omega) hm' hj'
    · intro i t' _ hi ⟨hg', hframe, hrow⟩
      refine ⟨isGrid_set _ _ _ _ _ _ hg', ?_, ?_⟩
      · intro m' j' hm'
        rw [get_set_of_ne _ _ _ _ _ _ (Or.inl (by omega))]
        exact hframe m' j' hm'
      · intro j hj
        by_cases hji : j = i
        · subst hji
          rw [get_set_self _ n n m j _ hg' (by omega) (by omega)]
          rw [hframe (m + 1) j (by omega), hframe (m + 1) (j + 1) (by omega)]
          rw [hdone (m + 1) j (by omega) (by omega) (by omega)]
          rw [hdone (m + 1) (j + 1) (by omega) (by omega) (by omega)]
          rw [hs m j (by omega) (by omega)]
          have e : n - 1 - m = (n - 1 - (m + 1)) + 1 := by omega
          rw [e, value.valueNode]
        · rw [get_set_of_ne _ _ _ _ _ _ (Or.inr (fun h => hji h.symm))]
          exact hrow j (by omega)

variable (L : Libm α)

/-- On a well-formed model with at least one level the price returned by
`BinomialTree.value` is the value of the code's recurrences at the root, and both
grids keep their shape. -/
theorem value_eq_valueNode (bt : BinomialTree α) (hwf : bt.WF) (hN : 1 ≤ bt.m_stepNumber)
    (K S vol r T q : α) (call : Bool) :
    (value L bt K S vol r T q call).1
      = value.valueNode K
          ((L.exp ((r - q) * (T / (((bt.m_stepNumber - 1 : Int) : α))))
              - L.exp (-vol * L.sqrt (T / (((bt.m_stepNumber - 1 : Int) : α)))))
            / (L.exp (vol * L.sqrt (T / (((bt.m_stepNumber - 1 : Int) : α))))
              - L.exp (-vol * L.sqrt (T / (((bt.m_stepNumber - 1 : Int) : α))))))
          (L.exp (-r * (T / (((bt.m_stepNumber - 1 : Int) : α))))) call
          (value.assetNode (L.exp (vol * L.sqrt (T / (((bt.m_stepNumber - 1 : Int) : α)))))
            (L.exp (-vol * L.sqrt (T / (((bt.m_stepNumber - 1 : Int) : α))))) S)
          (bt.m_stepNumber.toNat - 1) 0 0 := by
  obtain ⟨hs, hv⟩ := hwf
  have hpos : 1 ≤ bt.m_stepNumber.toNat := by omega
  simp only [value]
  have ha := value.assetPass_spec bt.m_stepNumber _ rfl hpos
    (L.exp (vol * L.sqrt (T / (((bt.m_stepNumber - 1 : Int) : α)))))
    (L.exp (-vol * L.sqrt (T / (((bt.m_stepNumber - 1 : Int) : α))))) S bt.m_s hs
  have ht := value.terminalPass_spec bt.m_stepNumber _ rfl hpos K call
    (value.assetPass bt.m_stepNumber
      (L.exp (vol * L.sqrt (T / (((bt.m_stepNumber - 1 : Int) : α)))))
      (L.exp (-vol * L.sqrt (T / (((bt.m_stepNumber - 1 : Int) : α))))) S bt.m_s) bt.m_v hv
  have hb := value.backwardPass_spec bt.m_stepNumber _ rfl hpos K
    ((L.exp ((r - q) * (T / (((bt.m_stepNumber - 1 : Int) : α))))
        - L.exp (-vol * L.sqrt (T / (((bt.m_stepNumber - 1 : Int) : α)))))
      / (L.exp (vol * L.sqrt (T / (((bt.m_stepNumber - 1 : Int) : α))))
        - L.exp (-vol * L.sqrt (T / (((bt.m_stepNumber - 1 : Int) : α))))))
    (L.exp (-r * (T / (((bt.m_stepNumber - 1 : Int) : α))))) call _ _ _ ha.2 ht.1 ht.2
  have := hb.2 0 0 (by omega) (le_refl 0)
  rw [Nat.sub_zero] at this
  exact this

end BinomialTree

namespace BinomialTree

variable {α : Type} [LinearOrderedField α] (L : Libm α)

theorem dmax_eq_max (x y : α) : dmax x y = max x y := by
  simp only [dmax, max_def, gt_iff_lt]
  by_cases h : y < x
  · simp [h, not_le.mpr h]
  · simp [h, not_lt.mp h]

theorem payOff_eq_specPayoff (K x : α) (call : Bool) : payOff K x call = specPayoff K call x := by
  have e : (0.0 : α) = 0 := by norm_num
  simp only [payOff, specPayoff, dmax_eq_max, e]

/-- The forward recurrence in closed form: node `[m][j]`, `j ≤ m`, is
`S u^j d^(m-j)`. -/
theorem value.assetNode_closed (u d S : α) :
    ∀ m j, j ≤ m → value.assetNode u d S m j = S * u ^ j * d ^ (m - j) := by
  intro m
  induction m with
  | zero =>
    intro j hj
    have : j = 0 := by omega
    subst this
    simp [value.assetNode]
  | succ m ih =>
    intro j hj
    cases j with
    | zero =>
      rw [value.assetNode, ih 0 (Nat.zero_le m)]
      simp only [pow_zero, mul_one, Nat.sub_zero, pow_succ]
      ring
    | succ j =>
      rw [value.assetNode, ih j (by omega)]
      have e : m + 1 - (j + 1) = m - j := by omega
      rw [e, pow_succ]
      ring

/-- The code's value recurrence agrees with `V` of the specification. -/
theorem value.valueNode_eq_specV (N : Nat) (K S u d p disc : α) (call : Bool) :
    ∀ k m j, m + k + 1 = N → j ≤ m →
      value.valueNode K p disc call (value.assetNode u d S) k m j
        = specV N K S u d p disc call m j := by
  intro k
  induction k with
  | zero =>
    intro m j hm hj
    rw [specV]
    have hlt : ¬ (m + 1 < N) := by omega
    simp only [hlt, if_false, value.valueNode, payOff_eq_specPayoff]
    rw [value.assetNode_closed u d S m j hj]
  | succ k ih =>
    intro m j hm hj
    rw [specV]
    have hlt : m + 1 < N := by omega
    simp only [hlt, if_true, value.valueNode, payOff_eq_specPayoff, dmax_eq_max]
    rw [ih (m + 1) j (by omega) (by omega), ih (m + 1) (j + 1) (by omega) (by omega)]
    rw [value.assetNode_closed u d S m j hj]
    congr 1
    ring

open AMatrix.Matrix in
/-- `BinomialTree.value` keeps the step count and the shape of both grids. -/
theorem value_WF (bt : BinomialTree α) (hwf : bt.WF) (hN : 1 ≤ bt.m_stepNumber)
    (K S vol r T q : α) (call : Bool) :
    (value L bt K S vol r T q call).2.m_stepNumber = bt.m_stepNumber ∧
    (value L bt K S vol r T q call).2.WF := by
  obtain ⟨hs, hv⟩ := hwf
  have hpos : 1 ≤ bt.m_stepNumber.toNat := by omega
  simp only [value, WF]
  have ha := value.assetPass_spec bt.m_stepNumber _ rfl hpos
    (L.exp (vol * L.sqrt (T / (((bt.m_stepNumber - 1 : Int) : α)))))
    (L.exp (-vol * L.sqrt (T / (((bt.m_stepNumber - 1 : Int) : α))))) S bt.m_s hs
  have ht := value.terminalPass_spec bt.m_stepNumber _ rfl hpos K call
    (value.assetPass bt.m_stepNumber
      (L.exp (vol * L.sqrt (T / (((bt.m_stepNumber - 1 : Int) : α)))))
      (L.exp (-vol * L.sqrt (T / (((bt.m_stepNumber - 1 : Int) : α))))) S bt.m_s) bt.m_v hv
  have hb := value.backwardPass_spec bt.m_stepNumber _ rfl hpos K
    ((L.exp ((r - q) * (T / (((bt.m_stepNumber - 1 : Int) : α))))
        - L.exp (-vol * L.sqrt (T / (((bt.m_stepNumber - 1 : Int) : α)))))
      / (L.exp (vol * L.sqrt (T / (((bt.m_stepNumber - 1 : Int) : α))))
        - L.exp (-vol * L.sqrt (T / (((bt.m_stepNumber - 1 : Int) : α))))))
    (L.exp (-r * (T / (((bt.m_stepNumber - 1 : Int) : α))))) call _ _ _ ha.2 ht.1 ht.2
  exact ⟨trivial, ha.1, hb.1⟩

/-- The default model `BinomialTree()` satisfies the lattice state invariant. -/
theorem new_WF : (new : BinomialTree α).WF :=
  ⟨AMatrix.Matrix.isGrid_fill 51 51 0, AMatrix.Matrix.isGrid_fill 51 51 0⟩

end BinomialTree

/-! ## Claims on the lattice model -/

section LatticeClaims

variable {α : Type} [LinearOrderedField α] (L : Libm α)

/-- C1: for every step count `N ≥ 2` (both grids `N x N`) and all arguments,
`BinomialTree.value` returns `V(0,0)` of the specification, with `dt = T/(N-1)`,
`u = exp(vol sqrt dt)`, `d = exp(-vol sqrt dt)`, `p = (exp((r-q) dt) - d)/(u - d)`,
`V(N-1, n) = payoff(S u^n d^(N-1-n))` and
`V(m, n) = max(exp(-r dt) ((1-p) V(m+1, n) + p V(m+1, n+1)), payoff(S u^n d^(m-n)))`. -/
theorem BinomialTree.value_eq_specValue (bt : BinomialTree α) (N : Nat) (hN : 2 ≤ N)
    (hstep : bt.m_stepNumber = (N : Int)) (hwf : bt.WF) (K S vol r T q : α) (call : Bool) :
    (BinomialTree.value L bt K S vol r T q call).1
      = BinomialTree.specValue L N K S vol r T q call := by
  rw [BinomialTree.value_eq_valueNode L bt hwf (by omega)]
  have hcast : (((bt.m_stepNumber - 1 : Int) : α)) = (N : α) - 1 := by
    rw [hstep]; push_cast; ring
  have hnat : bt.m_stepNumber.toNat - 1 = N - 1 := by omega
  rw [hcast, hnat]
  simp only [BinomialTree.specValue]
  exact BinomialTree.value.valueNode_eq_specV N K S _ _ _ _ call (N - 1) 0 0 (by omega)
    (le_refl 0)

/-- C2: after `BinomialTree.value` with step count `N ≥ 2` (both grids `N x N`),
`assetTree[m][n] = S u^n d^(m-n)` for all `n ≤ m ≤ N - 1`, with
`u = exp(vol sqrt dt)`, `d = exp(-vol sqrt dt)`, `dt = T/(N-1)`. -/
theorem BinomialTree.value_assetTree (bt : BinomialTree α) (N : Nat) (hN : 2 ≤ N)
    (hstep : bt.m_stepNumber = (N : Int)) (hwf : bt.WF) (K S vol r T q : α) (call : Bool)
    (m n : Nat) (hnm : n ≤ m) (hm : m ≤ N - 1) :
    (BinomialTree.value L bt K S vol r T q call).2.m_s.get m n
      = S * (L.exp (vol * L.sqrt (T / ((N : α) - 1)))) ^ n
          * (L.exp (-vol * L.sqrt (T / ((N : α) - 1)))) ^ (m - n) := by
  have hcast : (((bt.m_stepNumber - 1 : Int) : α)) = (N : α) - 1 := by
    rw [hstep]; push_cast; ring
  have hpos : 1 ≤ bt.m_stepNumber.toNat := by omega
  have ha := BinomialTree.value.assetPass_spec bt.m_stepNumber _ rfl hpos
    (L.exp (vol * L.sqrt (T / (((bt.m_stepNumber - 1 : Int) : α)))))
    (L.exp (-vol * L.sqrt (T / (((bt.m_stepNumber - 1 : Int) : α))))) S bt.m_s hwf.1
  have h := ha.2 m n (by omega) hnm
  rw [BinomialTree.value.assetNode_closed _ _ _ m n hnm, hcast] at h
  simpa only [BinomialTree.value, hcast] using h

/-- C10: for a step count `N ≥ 2`, two models whose grids are `N x N` return the
same price for identical arguments whatever the grids held before, and calling
`value` again on the model left by a call returns the same price. -/
theorem BinomialTree.value_independent_of_prior_grids (bt1 bt2 : BinomialTree α) (N : Nat)
    (hN : 2 ≤ N) (hstep1 : bt1.m_stepNumber = (N : Int)) (hstep2 : bt2.m_stepNumber = (N : Int))
    (hwf1 : bt1.WF) (hwf2 : bt2.WF) (K S vol r T q : α) (call : Bool) :
    (BinomialTree.value L bt1 K S vol r T q call).1
        = (BinomialTree.value L bt2 K S vol r T q call).1 ∧
    (BinomialTree.value L (BinomialTree.value L bt1 K S vol r T q call).2 K S vol r T q call).1
        = (BinomialTree.value L bt1 K S vol r T q call).1 := by
  have h1 : 1 ≤ bt1.m_stepNumber := by omega
  have h2 : 1 ≤ bt2.m_stepNumber := by omega
  have hw := BinomialTree.value_WF L bt1 hwf1 h1 K S vol r T q call
  refine ⟨?_, ?_⟩
  · rw [BinomialTree.value_eq_valueNode L bt1 hwf1 h1,
      BinomialTree.value_eq_valueNode L bt2 hwf2 h2, hstep1, hstep2]
  · rw [BinomialTree.value_eq_valueNode L _ hw.2 (by rw [hw.1]; exact h1),
      BinomialTree.value_eq_valueNode L bt1 hwf1 h1, hw.1]

end LatticeClaims

section LatticeWitnesses

/-- Witness for C1: the default model (51 levels, two `51 x 51` grids) at the
arguments of Hull's example 17.1. -/
theorem BinomialTree.value_eq_specValue_witness :
    2 ≤ 51 ∧ (BinomialTree.new : BinomialTree ℝ).m_stepNumber = ((51 : Nat) : Int) ∧
    (BinomialTree.new : BinomialTree ℝ).WF ∧
    (BinomialTree.value Libm.real BinomialTree.new 50 50 0.4 0.1 0.4167 0 true).1
      = BinomialTree.specValue Libm.real 51 50 50 0.4 0.1 0.4167 0 true :=
  ⟨by norm_num, rfl, BinomialTree.new_WF,
    BinomialTree.value_eq_specValue Libm.real BinomialTree.new 51 (by norm_num) rfl
      BinomialTree.new_WF 50 50 0.4 0.1 0.4167 0 true⟩

/-- Witness for C2: node `[50][20]` of the default model after a call at the
arguments of Hull's example 17.1. -/
theorem BinomialTree.value_assetTree_witness :
    2 ≤ 51 ∧ (BinomialTree.new : BinomialTree ℝ).m_stepNumber = ((51 : Nat) : Int) ∧
    (BinomialTree.new : BinomialTree ℝ).WF ∧ 20 ≤ 50 ∧ 50 ≤ 51 - 1 ∧
    (BinomialTree.value Libm.real BinomialTree.new 50 50 0.4 0.1 0.4167 0 true).2.m_s.get 50 20
      = 50 * (Libm.real.exp (0.4 * Libm.real.sqrt (0.4167 / (((51 : Nat) : ℝ) - 1)))) ^ 20
          * (Libm.real.exp (-0.4 * Libm.real.sqrt (0.4167 / (((51 : Nat) : ℝ) - 1))))
              ^ (50 - 20) :=
  ⟨by norm_num, rfl, BinomialTree.new_WF, by norm_num, by norm_num,
    BinomialTree.value_assetTree Libm.real BinomialTree.new 51 (by norm_num) rfl
      BinomialTree.new_WF 50 50 0.4 0.1 0.4167 0 true 50 20 (by norm_num) (by norm_num)⟩

/-- Witness for C10: the default model and a model whose `51 x 51` grids hold
7 and 9 in every cell return the same price. -/
theorem BinomialTree.value_independent_of_prior_grids_witness :
    2 ≤ 51 ∧ (BinomialTree.new : BinomialTree ℝ).m_stepNumber = ((51 : Nat) : Int) ∧
    (BinomialTree.mk 51 (AMatrix.Matrix.fill 51 51 7) (AMatrix.Matrix.fill 51 51 9)
      : BinomialTree ℝ).m_stepNumber = ((51 : Nat) : Int) ∧
    (BinomialTree.new : BinomialTree ℝ).WF ∧
    (BinomialTree.mk 51 (AMatrix.Matrix.fill 51 51 7) (AMatrix.Matrix.fill 51 51 9)
      : BinomialTree ℝ).WF ∧
    ((BinomialTree.value Libm.real BinomialTree.new 50 50 0.4 0.1 0.4167 0 true).1
        = (BinomialTree.value Libm.real
            (BinomialTree.mk 51 (AMatrix.Matrix.fill 51 51 7) (AMatrix.Matrix.fill 51 51 9))
            50 50 0.4 0.1 0.4167 0 true).1 ∧
      (BinomialTree.value Libm.real
          (BinomialTree.value Libm.real BinomialTree.new 50 50 0.4 0.1 0.4167 0 true).2
          50 50 0.4 0.1 0.4167 0 true).1
        = (BinomialTree.value Libm.real BinomialTree.new 50 50 0.4 0.1 0.4167 0 true).1) :=
  have hwf2 : (BinomialTree.mk 51 (AMatrix.Matrix.fill 51 51 7) (AMatrix.Matrix.fill 51 51 9)
      : BinomialTree ℝ).WF :=
    ⟨AMatrix.Matrix.isGrid_fill 51 51 7, AMatrix.Matrix.isGrid_fill 51 51 9⟩
  ⟨by norm_num, rfl, rfl, BinomialTree.new_WF, hwf2,
    BinomialTree.value_independent_of_prior_grids Libm.real BinomialTree.new
      (BinomialTree.mk 51 (AMatrix.Matrix.fill 51 51 7) (AMatrix.Matrix.fill 51 51 9))
      51 (by norm_num) rfl rfl BinomialTree.new_WF hwf2 50 50 0.4 0.1 0.4167 0 true⟩

end LatticeWitnesses

/-! ## Lemmas on `resize` -/

namespace AMatrix

variable {α : Type}

theorem length_vectorResize {β : Type} (l : List β) (n : Nat) (v : β) :
    (vectorResize l n v).length = n := by
  simp only [vectorResize, List.length_append, List.length_take, List.length_replicate]
  omega

theorem getElem?_vectorResize {β : Type} (l : List β) (n : Nat) (v : β) (i : Nat) :
    (vectorResize l n v)[i]? = if i < n then some (l.getD i v) else none := by
  simp only [vectorResize, List.getElem?_append, List.length_take, List.getElem?_take,
    List.getElem?_replicate, List.getD_eq_getElem?_getD]
  by_cases h1 : i < n
  · by_cases h2 : i < l.length
    · have h3 : i < min n l.length := by omega
      simp [h1, h2, h3]
    · have h3 : ¬ i < min n l.length := by omega
      have h4 : i - min n l.length < n - l.length := by omega
      simp [h1, h3, h4, List.getElem?_eq_none (not_lt.mp h2)]
  · have h3 : ¬ i < min n l.length := by omega
    have h4 : ¬ i - min n l.length < n - l.length := by omega
    simp [h1, h3, h4]

theorem vectorResize_of_length_eq {β : Type} (l : List β) (n : Nat) (v : β)
    (h : l.length = n) : vectorResize l n v = l := by
  simp [vectorResize, ← h]

namespace Matrix

/-- On a well-formed grid, a resize to new non-negative dimensions yields the
rows resized to `c` cells, then the row list resized to `r` rows. -/
theorem resize_of_wellFormed (m : Matrix α) (hm : m.WellFormed) (r c : Int) (v : α)
    (hr : 0 ≤ r) (hc : 0 ≤ c) (hne : ¬ (r = m.m_rows ∧ c = m.m_cols)) :
    m.resize r c v = some ⟨r, c,
      vectorResize (m.m_rawData.map (fun row => vectorResize row c.toNat v)) r.toNat
        (List.replicate c.toNat v)⟩ := by
  have hneg : ¬ (r < 0 ∨ c < 0) := by omega
  simp only [resize, hne, hneg, if_false]
  by_cases hcc : c = m.m_cols
  · have hmap : m.m_rawData.map (fun row => vectorResize row c.toNat v) = m.m_rawData := by
      conv_rhs => rw [← List.map_id m.m_rawData]
      apply List.map_congr_left
      intro row hrow
      have := hm.2.2 row hrow
      exact vectorResize_of_length_eq row _ v (by omega)
    simp [hcc, hmap] 
    rw [← hcc, hmap]
  · simp [hcc]

end Matrix

end AMatrix

namespace AMatrix.Matrix

variable {α : Type} [Zero α]

theorem get_eq_getElem? (m : Matrix α) (i j : Nat) :
    m.get i j = ((m.m_rawData[i]?).getD [])[j]?.getD 0 := by
  simp [get, List.getD_eq_getElem?_getD]

/-- What `resize` does to a well-formed grid, for non-negative new dimensions. -/
theorem resize_spec (g : Matrix α) (hg : g.WellFormed) (r c : Int) (hr : 0 ≤ r) (hc : 0 ≤ c)
    (v : α) :
    ∃ g', g.resize r c v = some g' ∧ g'.m_rows = r ∧ g'.m_cols = c ∧ g'.WellFormed ∧
      (∀ i j : Nat, (i : Int) < r → (j : Int) < c →
        g'.get i j = if (i : Int) < g.m_rows ∧ (j : Int) < g.m_cols then g.get i j else v) ∧
      ((r = g.m_rows ∧ c = g.m_cols) → g' = g) := by
  by_cases hsame : r = g.m_rows ∧ c = g.m_cols
  · refine ⟨g, by simp [resize, hsame], hsame.1.symm, hsame.2.symm, hg, ?_, fun _ => rfl⟩
    intro i j hi hj
    rw [hsame.1] at hi
    rw [hsame.2] at hj
    simp [hi, hj]
  · refine ⟨_, resize_of_wellFormed g hg r c v hr hc hsame, rfl, rfl, ?_, ?_, ?_⟩
    · refine ⟨?_, hc, ?_⟩
      · simp only [length_vectorResize]; omega
      · intro row hrow
        obtain ⟨i, hi⟩ := List.mem_iff_getElem?.1 hrow
        rw [getElem?_vectorResize] at hi
        split_ifs at hi with hlt
        · simp only [Option.some.injEq] at hi
          subst hi
          rw [List.getD_eq_getElem?_getD, List.getElem?_map]
          cases hrow0 : g.m_rawData[i]? with
          | none => simp; omega
          | some row0 => simp [length_vectorResize]; omega
    · intro i j hi hj
      have hi' : i < r.toNat := by omega
      have hj' : j < c.toNat := by omega
      rw [get_eq_getElem?, get_eq_getElem?]
      simp only [getElem?_vectorResize, hi', if_true, Option.getD_some,
        List.getD_eq_getElem?_getD, List.getElem?_map]
      cases hrow0 : g.m_rawData[i]? with
      | none =>
        have hlen : g.m_rawData.length ≤ i := List.getElem?_eq_none_iff.1 hrow0
        have hnot : ¬ ((i : Int) < g.m_rows) := by
          have := hg.1; omega
        simp [hnot, List.getElem?_replicate, hj']
      | some row0 =>
        have hmem : row0 ∈ g.m_rawData := List.getElem?_mem hrow0
        have hlen0 := hg.2.2 row0 hmem
        have hilt : i < g.m_rawData.length := by
          by_contra hcon
          rw [List.getElem?_eq_none (not_lt.mp hcon)] at hrow0
          exact Option.noConfusion hrow0
        have hrows : (i : Int) < g.m_rows := by
          have := hg.1; omega
        simp only [Option.map_some', Option.getD_some, getElem?_vectorResize, hj', if_true,
          hrows, true_and, List.getD_eq_getElem?_getD]
        by_cases hjc : (j : Int) < g.m_cols
        · have : j < row0.length := by omega
          simp [hjc, List.getElem?_eq_getElem this]
        · have : row0.length ≤ j := by omega
          simp [hjc, List.getElem?_eq_none this]
    · intro h; exact absurd h hsame

end AMatrix.Matrix

namespace AMatrix

variable {α : Type}

theorem vectorResize_vectorResize {β : Type} (l : List β) (n n' : Nat) (v w : β)
    (h : l.length = n) (hn : n ≤ n') : vectorResize (vectorResize l n' v) n w = l := by
  apply List.ext_getElem?
  intro i
  rw [getElem?_vectorResize]
  by_cases hi : i < n
  · have hi' : i < n' := by omega
    have hl : i < l.length := by omega
    simp [hi, List.getD_eq_getElem?_getD, getElem?_vectorResize, hi',
      List.getElem?_eq_getElem hl]
  · simp [hi, List.getElem?_eq_none (by omega : l.length ≤ i)]

namespace Matrix

/-- Resizing a well-formed grid to dimensions at least as large and then back to
its own dimensions gives the grid back. -/
theorem resize_resize (g : Matrix α) (hg : g.WellFormed) (r' c' : Int)
    (hr : g.m_rows ≤ r') (hc : g.m_cols ≤ c') (v w : α) :
    ∃ g1, g.resize r' c' v = some g1 ∧ g1.resize g.m_rows g.m_cols w = some g := by
  have hR : 0 ≤ g.m_rows := by have := hg.1; omega
  have hC : 0 ≤ g.m_cols := hg.2.1
  by_cases hsame : r' = g.m_rows ∧ c' = g.m_cols
  · exact ⟨g, by simp [resize, hsame], by simp [resize]⟩
  · refine ⟨_, resize_of_wellFormed g hg r' c' v (by omega) (by omega) hsame, ?_⟩
    have hne : ¬ (g.m_rows = r' ∧ g.m_cols = c') := fun h => hsame ⟨h.1.symm, h.2.symm⟩
    have hneg : ¬ (g.m_rows < 0 ∨ g.m_cols < 0) := by omega
    simp only [resize, hne, hneg, if_false]
    have hrows : vectorResize
        ((if g.m_cols ≠ c' then
            (vectorResize (g.m_rawData.map (fun row => vectorResize row c'.toNat v)) r'.toNat
              (List.replicate c'.toNat v)).map (fun row => vectorResize row g.m_cols.toNat w)
          else
            vectorResize (g.m_rawData.map (fun row => vectorResize row c'.toNat v)) r'.toNat
              (List.replicate c'.toNat v)))
        g.m_rows.toNat (List.replicate g.m_cols.toNat w) = g.m_rawData := by
      apply List.ext_getElem?
      intro i
      rw [getElem?_vectorResize]
      by_cases hi : i < g.m_rows.toNat
      · have hil : i < g.m_rawData.length := by have := hg.1; omega
        have hi' : i < r'.toNat := by omega
        have hlen : (g.m_rawData[i]).length = g.m_cols.toNat := by
          have := hg.2.2 _ (List.getElem_mem hil); omega
        simp only [hi, if_true, List.getElem?_eq_getElem hil, Option.some.injEq,
          List.getD_eq_getElem?_getD]
        by_cases hcc : g.m_cols = c'
        · simp only [hcc, ne_eq, not_true_eq_false, if_false, getElem?_vectorResize, hi',
            if_true, Option.getD_some, List.getD_eq_getElem?_getD, List.getElem?_map,
            List.getElem?_eq_getElem hil, Option.map_some']
          exact vectorResize_of_length_eq _ _ _ (by rw [← hcc]; exact hlen)
        · simp only [hcc, ne_eq, not_false_eq_true, if_true, List.getElem?_map,
            getElem?_vectorResize, hi', Option.map_some', Option.getD_some,
            List.getD_eq_getElem?_getD, List.getElem?_eq_getElem hil]
          exact vectorResize_vectorResize _ _ _ v w hlen (by omega)
      · have hil : g.m_rawData.length ≤ i := by have := hg.1; omega
        simp [hi, List.getElem?_eq_none hil]
    rw [hrows]

end Matrix

end AMatrix

/-! ## The lattice state invariant -/

section Preserve

variable {σ : Type}

theorem forUp_preserve (P : σ → Prop) (lo hi : Nat) (body : Nat → σ → σ) (s : σ)
    (h0 : P s) (hstep : ∀ i t, P t → P (body i t)) : P (forUp lo hi body s) := by
  unfold forUp
  generalize List.range' lo (hi - lo) = l
  induction l generalizing s with
  | nil => exact h0
  | cons a l ih => exact ih (body a s) (hstep a s h0)

theorem forDown_preserve (P : σ → Prop) (hi : Nat) (body : Nat → σ → σ) (s : σ)
    (h0 : P s) (hstep : ∀ i t, P t → P (body i t)) : P (forDown hi body s) := by
  induction hi generalizing s with
  | zero => exact h0
  | succ hi ih => exact ih (body (hi + 1) s) (hstep _ s h0)

theorem forDownTo0_preserve (P : σ → Prop) (hi : Nat) (body : Nat → σ → σ) (s : σ)
    (h0 : P s) (hstep : ∀ i t, P t → P (body i t)) : P (forDownTo0 hi body s) := by
  induction hi generalizing s with
  | zero => exact h0
  | succ hi ih => exact ih (body hi s) (hstep _ s h0)

end Preserve

namespace AMatrix.Matrix

variable {α : Type}

/-- A store keeps the stored shape and the recorded dimensions. -/
theorem keeps_set (m : Matrix α) (r c : Nat) (a b : Int) (i j : Nat) (x : α)
    (h : m.IsGrid r c ∧ m.m_rows = a ∧ m.m_cols = b) :
    (m.set i j x).IsGrid r c ∧ (m.set i j x).m_rows = a ∧ (m.set i j x).m_cols = b :=
  ⟨isGrid_set m r c i j x h.1, h.2.1, h.2.2⟩

theorem wellFormed_iff (m : Matrix α) :
    m.WellFormed ↔ 0 ≤ m.m_rows ∧ 0 ≤ m.m_cols ∧ m.IsGrid m.m_rows.toNat m.m_cols.toNat := by
  constructor
  · rintro ⟨h1, h2, h3⟩
    refine ⟨by omega, h2, by omega, ?_⟩
    intro row hrow
    have := h3 row hrow
    omega
  · rintro ⟨h1, h2, h3, h4⟩
    refine ⟨by omega, h2, ?_⟩
    intro row hrow
    have := h4 row hrow
    omega

end AMatrix.Matrix

namespace BinomialTree

variable {α : Type} [LinearOrderedField α] (L : Libm α)

theorem value.assetPass_keeps (N : Int) (u d S : α) (s : AMatrix.Matrix α) (r c : Nat)
    (a b : Int) (h : s.IsGrid r c ∧ s.m_rows = a ∧ s.m_cols = b) :
    (value.assetPass N u d S s).IsGrid r c ∧ (value.assetPass N u d S s).m_rows = a ∧
      (value.assetPass N u d S s).m_cols = b := by
  simp only [value.assetPass]
  refine forUp_preserve (fun (t : AMatrix.Matrix α) => t.IsGrid r c ∧ t.m_rows = a ∧ t.m_cols = b) _ _ _ _ ?_ ?_
  · exact AMatrix.Matrix.keeps_set _ _ _ _ _ _ _ _ h
  · intro m t ht
    apply AMatrix.Matrix.keeps_set
    refine forDown_preserve (fun (t : AMatrix.Matrix α) => t.IsGrid r c ∧ t.m_rows = a ∧ t.m_cols = b) _ _ _ ht ?_
    intro n t' ht'
    exact AMatrix.Matrix.keeps_set _ _ _ _ _ _ _ _ ht'

theorem value.terminalPass_keeps (N : Int) (K : α) (call : Bool) (s v : AMatrix.Matrix α)
    (r c : Nat) (a b : Int) (h : v.IsGrid r c ∧ v.m_rows = a ∧ v.m_cols = b) :
    (value.terminalPass N K call s v).IsGrid r c ∧ (value.terminalPass N K call s v).m_rows = a ∧
      (value.terminalPass N K call s v).m_cols = b := by
  simp only [value.terminalPass]
  refine forUp_preserve (fun (t : AMatrix.Matrix α) => t.IsGrid r c ∧ t.m_rows = a ∧ t.m_cols = b) _ _ _ _ h ?_
  intro n t ht
  exact AMatrix.Matrix.keeps_set _ _ _ _ _ _ _ _ ht

theorem value.backwardPass_keeps (N : Int) (K p disc : α) (call : Bool)
    (s v : AMatrix.Matrix α) (r c : Nat) (a b : Int)
    (h : v.IsGrid r c ∧ v.m_rows = a ∧ v.m_cols = b) :
    (value.backwardPass N K p disc call s v).IsGrid r c ∧
      (value.backwardPass N K p disc call s v).m_rows = a ∧
      (value.backwardPass N K p disc call s v).m_cols = b := by
  simp only [value.backwardPass]
  refine forDownTo0_preserve (fun (t : AMatrix.Matrix α) => t.IsGrid r c ∧ t.m_rows = a ∧ t.m_cols = b) _ _ _ h ?_
  intro m t ht
  refine forUp_preserve (fun (t : AMatrix.Matrix α) => t.IsGrid r c ∧ t.m_rows = a ∧ t.m_cols = b) _ _ _ _ ht ?_
  intro n t' ht'
  exact AMatrix.Matrix.keeps_set _ _ _ _ _ _ _ _ ht'

/-- `BinomialTree.value` keeps the invariant and the step count, whatever the
step count is. -/
theorem value_Inv (bt : BinomialTree α) (h : bt.Inv) (K S vol r T q : α) (call : Bool) :
    (value L bt K S vol r T q call).2.Inv ∧
      (value L bt K S vol r T q call).2.m_stepNumber = bt.m_stepNumber := by
  obtain ⟨hs, hv, hsr, hsc, hvr, hvc⟩ := h
  rw [AMatrix.Matrix.wellFormed_iff] at hs hv
  have ks := value.assetPass_keeps bt.m_stepNumber
    (L.exp (vol * L.sqrt (T / (((bt.m_stepNumber - 1 : Int) : α)))))
    (L.exp (-vol * L.sqrt (T / (((bt.m_stepNumber - 1 : Int) : α))))) S bt.m_s _ _ _ _
    ⟨hs.2.2, rfl, rfl⟩
  have kt := value.terminalPass_keeps bt.m_stepNumber K call
    (value.assetPass bt.m_stepNumber
      (L.exp (vol * L.sqrt (T / (((bt.m_stepNumber - 1 : Int) : α)))))
      (L.exp (-vol * L.sqrt (T / (((bt.m_stepNumber - 1 : Int) : α))))) S bt.m_s)
    bt.m_v _ _ _ _ ⟨hv.2.2, rfl, rfl⟩
  have kb := value.backwardPass_keeps bt.m_stepNumber K
    ((L.exp ((r - q) * (T / (((bt.m_stepNumber - 1 : Int) : α))))
        - L.exp (-vol * L.sqrt (T / (((bt.m_stepNumber - 1 : Int) : α)))))
      / (L.exp (vol * L.sqrt (T / (((bt.m_stepNumber - 1 : Int) : α))))
        - L.exp (-vol * L.sqrt (T / (((bt.m_stepNumber - 1 : Int) : α))))))
    (L.exp (-r * (T / (((bt.m_stepNumber - 1 : Int) : α))))) call
    (value.assetPass bt.m_stepNumber
      (L.exp (vol * L.sqrt (T / (((bt.m_stepNumber - 1 : Int) : α)))))
      (L.exp (-vol * L.sqrt (T / (((bt.m_stepNumber - 1 : Int) : α))))) S bt.m_s)
    _ _ _ _ _ kt
  refine ⟨⟨?_, ?_, ?_, ?_, ?_, ?_⟩, rfl⟩
  · rw [AMatrix.Matrix.wellFormed_iff]
    simp only [value]
    rw [ks.2.1, ks.2.2]
    exact ⟨hs.1, hs.2.1, ks.1⟩
  · rw [AMatrix.Matrix.wellFormed_iff]
    simp only [value]
    rw [kb.2.1, kb.2.2]
    exact ⟨hv.1, hv.2.1, kb.1⟩
  · simp only [value]; rw [ks.2.1]; exact hsr
  · simp only [value]; rw [ks.2.2]; exact hsc
  · simp only [value]; rw [kb.2.1]; exact hvr
  · simp only [value]; rw [kb.2.2]; exact hvc

/-- The default model `BinomialTree()` satisfies the invariant. -/
theorem new_Inv : (new : BinomialTree α).Inv := by
  have hw : (AMatrix.Matrix.fill 51 51 (0 : α)).WellFormed := by
    rw [AMatrix.Matrix.wellFormed_iff]
    exact ⟨by simp [AMatrix.Matrix.fill], by simp [AMatrix.Matrix.fill],
      AMatrix.Matrix.isGrid_fill 51 51 0⟩
  exact ⟨hw, hw, rfl, rfl, rfl, rfl⟩

end BinomialTree

namespace BinomialTree

/-- The invariant with the recorded dimensions gives the `N x N` shape of both
grids. -/
theorem Inv.toWF {α : Type} (bt : BinomialTree α) (h : bt.Inv) : bt.WF := by
  obtain ⟨hs, hv, hsr, hsc, hvr, hvc⟩ := h
  rw [AMatrix.Matrix.wellFormed_iff] at hs hv
  constructor
  · have := hs.2.2; rwa [hsr, hsc] at this
  · have := hv.2.2; rwa [hvr, hvc] at this

end BinomialTree

namespace BinomialTree

variable {α : Type} [LinearOrderedField α] (L : Libm α)

/-- What the setter `timeSteps(n)` does to a model that satisfies the invariant,
when `n + 1` fits in an `int`: the step count becomes `n + 1`, both grids become
`(n+1) x (n+1)`, a cell keeps its content when both its indices were in range
before the call and is `0.0` otherwise. -/
theorem timeStepsSet_spec (bt : BinomialTree α) (h : bt.Inv) (n : Nat)
    (hn : n + 1 < 2147483648) :
    ∃ bt', bt.timeStepsSet n = some bt' ∧ bt'.Inv ∧ bt'.m_stepNumber = (n : Int) + 1 ∧
      bt'.timeSteps = (n : Int) ∧
      ∀ i j : Nat, i < n + 1 → j < n + 1 →
        bt'.m_s.get i j
          = (if (i : Int) < bt.m_stepNumber ∧ (j : Int) < bt.m_stepNumber then bt.m_s.get i j
              else 0.0) ∧
        bt'.m_v.get i j
          = (if (i : Int) < bt.m_stepNumber ∧ (j : Int) < bt.m_stepNumber then bt.m_v.get i j
              else 0.0) := by
  obtain ⟨hs, hv, hsr, hsc, hvr, hvc⟩ := h
  have hw : (n + 1) % 4294967296 = n + 1 := Nat.mod_eq_of_lt (by omega)
  have hpos : (0 : Int) ≤ ((n + 1 : Nat) : Int) := by omega
  obtain ⟨s', hs1, hs2, hs3, hs4, hs5, _⟩ :=
    AMatrix.Matrix.resize_spec bt.m_s hs ((n + 1 : Nat) : Int) ((n + 1 : Nat) : Int) hpos hpos
      (0.0 : α)
  obtain ⟨v', hv1, hv2, hv3, hv4, hv5, _⟩ :=
    AMatrix.Matrix.resize_spec bt.m_v hv ((n + 1 : Nat) : Int) ((n + 1 : Nat) : Int) hpos hpos
      (0.0 : α)
  refine ⟨⟨((n + 1 : Nat) : Int), s', v'⟩, ?_, ⟨hs4, hv4, hs2, hs3, hv2, hv3⟩, ?_, ?_, ?_⟩
  · simp only [timeStepsSet, hw, hn, if_true, hs1, hv1]
  · push_cast; ring
  · simp only [timeSteps]; push_cast; ring
  · intro i j hi hj
    have hi' : (i : Int) < ((n + 1 : Nat) : Int) := by omega
    have hj' : (j : Int) < ((n + 1 : Nat) : Int) := by omega
    constructor
    · rw [hs5 i j hi' hj', hsr, hsc]
    · rw [hv5 i j hi' hj', hvr, hvc]

/-- What the setter `timeSteps(n)` has done when it returns from a model that
satisfies the invariant: the step count is `(n + 1) mod 2^32` and is below `2^31`,
the invariant holds again, a cell keeps its content when both its indices were in
range before the call and is `0.0` otherwise. -/
theorem timeStepsSet_of_some (bt : BinomialTree α) (h : bt.Inv) (n : Nat)
    (bt' : BinomialTree α) (hres : bt.timeStepsSet n = some bt') :
    bt'.m_stepNumber = (((n + 1) % 4294967296 : Nat) : Int) ∧
    (n + 1) % 4294967296 < 2147483648 ∧ bt'.Inv ∧
    ∀ i j : Nat, (i : Int) < bt'.m_stepNumber → (j : Int) < bt'.m_stepNumber →
      bt'.m_s.get i j
        = (if (i : Int) < bt.m_stepNumber ∧ (j : Int) < bt.m_stepNumber then bt.m_s.get i j
            else 0.0) ∧
      bt'.m_v.get i j
        = (if (i : Int) < bt.m_stepNumber ∧ (j : Int) < bt.m_stepNumber then bt.m_v.get i j
            else 0.0) := by
  obtain ⟨hs, hv, hsr, hsc, hvr, hvc⟩ := h
  have hwlt : (n + 1) % 4294967296 < 4294967296 := Nat.mod_lt _ (by norm_num)
  by_cases hw : (n + 1) % 4294967296 < 2147483648
  · have hpos : (0 : Int) ≤ (((n + 1) % 4294967296 : Nat) : Int) := by omega
    obtain ⟨s', hs1, hs2, hs3, hs4, hs5, _⟩ :=
      AMatrix.Matrix.resize_spec bt.m_s hs _ _ hpos hpos (0.0 : α)
    obtain ⟨v', hv1, hv2, hv3, hv4, hv5, _⟩ :=
      AMatrix.Matrix.resize_spec bt.m_v hv _ _ hpos hpos (0.0 : α)
    simp only [timeStepsSet, hw, if_true, hs1, hv1, Option.some.injEq] at hres
    subst hres
    refine ⟨rfl, hw, ⟨hs4, hv4, hs2, hs3, hv2, hv3⟩, ?_⟩
    intro i j hi hj
    constructor
    · rw [hs5 i j hi hj, hsr, hsc]
    · rw [hv5 i j hi hj, hvr, hvc]
  · exfalso
    have hrows : 0 ≤ bt.m_s.m_rows := by have := hs.1; omega
    have hnone : bt.m_s.resize ((((n + 1) % 4294967296 : Nat) : Int) - 4294967296)
        ((((n + 1) % 4294967296 : Nat) : Int) - 4294967296) 0.0 = none := by
      unfold AMatrix.Matrix.resize
      rw [if_neg (by omega), if_pos (by omega)]
    simp only [timeStepsSet, hw, if_false, hnone] at hres
    exact absurd hres (by simp)

/-- The setter called with the current number of steps leaves the model as it is
(both resizes return at once). -/
theorem timeStepsSet_same (bt : BinomialTree α) (h : bt.Inv) (n : Nat)
    (hn : n + 1 < 2147483648) (hstep : bt.m_stepNumber = (n : Int) + 1) :
    bt.timeStepsSet n = some bt := by
  obtain ⟨hs, hv, hsr, hsc, hvr, hvc⟩ := h
  have hw : (n + 1) % 4294967296 = n + 1 := Nat.mod_eq_of_lt (by omega)
  have e : ((n + 1 : Nat) : Int) = bt.m_stepNumber := by rw [hstep]; push_cast; ring
  simp only [timeStepsSet, hw, hn, if_true, AMatrix.Matrix.resize, e, hsr, hsc, hvr, hvc,
    and_self]

end BinomialTree

namespace AMatrix.Matrix

variable {α : Type} [Zero α]

theorem get_fill (r c : Nat) (x : α) (i j : Nat) (hi : i < r) (hj : j < c) :
    (fill (r : Int) (c : Int) x).get i j = x := by
  simp [fill, get, List.getD_eq_getElem?_getD, List.getElem?_replicate, hi, hj]

end AMatrix.Matrix

namespace BinomialTree

variable {α : Type} [LinearOrderedField α]

open AMatrix.Matrix in
/-- The forward pass never stores into a cell `[m][j]` with `j > m + 1`. -/
theorem value.assetPass_frame (N : Int) (u d S : α) (s : AMatrix.Matrix α) :
    ∀ m j, m + 1 < j → (value.assetPass N u d S s).get m j = s.get m j := by
  simp only [value.assetPass]
  refine forUp_preserve
    (fun (t : AMatrix.Matrix α) => ∀ m j, m + 1 < j → t.get m j = s.get m j) _ _ _ _ ?_ ?_
  · intro m j hj
    exact get_set_of_ne _ _ _ _ _ _ (Or.inr (by omega))
  · intro m t ht m' j' hj'
    rw [get_set_of_ne _ _ _ _ _ _ (Or.inr (by omega))]
    have inner := forDown_invariant
      (fun (_ : Nat) (t' : AMatrix.Matrix α) => ∀ m j, m + 1 < j → t'.get m j = s.get m j)
      (m + 1) (fun n m_s => m_s.set m n (u * m_s.get (m - 1) (n - 1))) t ht ?_
    · exact inner m' j' hj'
    · intro i t' hi ht' m'' j'' hj''
      rw [get_set_of_ne _ _ _ _ _ _ (by omega)]
      exact ht' m'' j'' hj''

variable (L : Libm α)

/-- On a well-formed model with at least one level, after `BinomialTree.value`
every node `[m][j]` with `j ≤ m < N` of the asset grid and of the value grid holds
the value of the code's recurrences. -/
theorem value_cells (bt : BinomialTree α) (hwf : bt.WF)
    (K S vol r T q : α) (call : Bool) (m j : Nat) (hm : m < bt.m_stepNumber.toNat)
    (hj : j ≤ m) :
    (value L bt K S vol r T q call).2.m_s.get m j
      = value.assetNode (L.exp (vol * L.sqrt (T / (((bt.m_stepNumber - 1 : Int) : α)))))
          (L.exp (-vol * L.sqrt (T / (((bt.m_stepNumber - 1 : Int) : α))))) S m j ∧
    (value L bt K S vol r T q call).2.m_v.get m j
      = value.valueNode K
          ((L.exp ((r - q) * (T / (((bt.m_stepNumber - 1 : Int) : α))))
              - L.exp (-vol * L.sqrt (T / (((bt.m_stepNumber - 1 : Int) : α)))))
            / (L.exp (vol * L.sqrt (T / (((bt.m_stepNumber - 1 : Int) : α))))
              - L.exp (-vol * L.sqrt (T / (((bt.m_stepNumber - 1 : Int) : α))))))
          (L.exp (-r * (T / (((bt.m_stepNumber - 1 : Int) : α))))) call
          (value.assetNode (L.exp (vol * L.sqrt (T / (((bt.m_stepNumber - 1 : Int) : α)))))
            (L.exp (-vol * L.sqrt (T / (((bt.m_stepNumber - 1 : Int) : α))))) S)
          (bt.m_stepNumber.toNat - 1 - m) m j := by
  obtain ⟨hs, hv⟩ := hwf
  have hpos : 1 ≤ bt.m_stepNumber.toNat := by omega
  simp only [value]
  have ha := value.assetPass_spec bt.m_stepNumber _ rfl hpos
    (L.exp (vol * L.sqrt (T / (((bt.m_stepNumber - 1 : Int) : α)))))
    (L.exp (-vol * L.sqrt (T / (((bt.m_stepNumber - 1 : Int) : α))))) S bt.m_s hs
  have ht := value.terminalPass_spec bt.m_stepNumber _ rfl hpos K call
    (value.assetPass bt.m_stepNumber
      (L.exp (vol * L.sqrt (T / (((bt.m_stepNumber - 1 : Int) : α)))))
      (L.exp (-vol * L.sqrt (T / (((bt.m_stepNumber - 1 : Int) : α))))) S bt.m_s) bt.m_v hv
  have hb := value.backwardPass_spec bt.m_stepNumber _ rfl hpos K
    ((L.exp ((r - q) * (T / (((bt.m_stepNumber - 1 : Int) : α))))
        - L.exp (-vol * L.sqrt (T / (((bt.m_stepNumber - 1 : Int) : α)))))
      / (L.exp (vol * L.sqrt (T / (((bt.m_stepNumber - 1 : Int) : α))))
        - L.exp (-vol * L.sqrt (T / (((bt.m_stepNumber - 1 : Int) : α))))))
    (L.exp (-r * (T / (((bt.m_stepNumber - 1 : Int) : α))))) call _ _ _ ha.2 ht.1 ht.2
  exact ⟨ha.2 m j hm hj, hb.2 m j hm hj⟩

end BinomialTree

/-! ## Lemmas on `transpose`, `operator==` and `column` -/

namespace AMatrix

variable {α : Type}

theorem Matrix.isGrid_fill_toNat (r c : Int) (x : α) :
    (Matrix.fill r c x).IsGrid r.toNat c.toNat := by
  constructor
  · simp [Matrix.fill]
  · intro row hrow
    simp only [Matrix.fill] at hrow
    rw [(List.mem_replicate.1 hrow).2]
    simp

theorem Matrix.eq_of_fields (m1 m2 : Matrix α) (h1 : m1.m_rows = m2.m_rows)
    (h2 : m1.m_cols = m2.m_cols) (h3 : m1.m_rawData = m2.m_rawData) : m1 = m2 := by
  cases m1
  cases m2
  simp only at h1 h2 h3
  rw [h1, h2, h3]

variable [Zero α]

/-- Two grids of the same shape with the same cells store the same table. -/
theorem Matrix.rawData_eq_of_get (m1 m2 : Matrix α) (r c : Nat) (h1 : m1.IsGrid r c)
    (h2 : m2.IsGrid r c) (h : ∀ i j, i < r → j < c → m1.get i j = m2.get i j) :
    m1.m_rawData = m2.m_rawData := by
  apply List.ext_getElem (by rw [h1.1, h2.1])
  intro i hi1 hi2
  have hr1 : (m1.m_rawData[i]).length = c := h1.2 _ (List.getElem_mem hi1)
  have hr2 : (m2.m_rawData[i]).length = c := h2.2 _ (List.getElem_mem hi2)
  apply List.ext_getElem (by rw [hr1, hr2])
  intro j hj1 hj2
  have := h i j (by rw [← h1.1]; exact hi1) (by rw [← hr1]; exact hj1)
  simpa [Matrix.get, List.getD_eq_getElem?_getD, List.getElem?_eq_getElem hi1,
    List.getElem?_eq_getElem hi2, List.getElem?_eq_getElem hj1,
    List.getElem?_eq_getElem hj2] using this

open Matrix in
/-- The grid returned by `transpose`: swapped recorded dimensions, the matching
stored shape, and `result[i][j] = m[j][i]` inside it. -/
theorem transpose_spec (g : Matrix α) :
    (transpose g).m_rows = g.m_cols ∧ (transpose g).m_cols = g.m_rows ∧
    (transpose g).IsGrid g.m_cols.toNat g.m_rows.toNat ∧
    ∀ i j, i < g.m_cols.toNat → j < g.m_rows.toNat → (transpose g).get i j = g.get j i := by
  simp only [transpose]
  have hfill : (fill g.m_cols g.m_rows (0 : α)).m_rows = g.m_cols := rfl
  rw [hfill]
  have key := forUp_invariant
    (fun I (t : Matrix α) => t.IsGrid g.m_cols.toNat g.m_rows.toNat ∧ t.m_rows = g.m_cols ∧
      t.m_cols = g.m_rows ∧
      ∀ i j, i < I → j < g.m_rows.toNat → t.get i j = g.get j i)
    0 g.m_cols.toNat (Nat.zero_le _)
    (fun i retVal =>
      forUp 0 retVal.m_cols.toNat (fun j retVal => retVal.set i j (g.get j i)) retVal)
    (fill g.m_cols g.m_rows (0 : α))
    ⟨isGrid_fill_toNat _ _ _, rfl, rfl, fun i j hi _ => absurd hi (Nat.not_lt_zero i)⟩ ?_
  · exact ⟨key.2.1, key.2.2.1, key.1, key.2.2.2⟩
  · intro i t _ hi ⟨hg, hr, hc, hdone⟩
    simp only [hc]
    have inner := forUp_invariant
      (fun J (t' : Matrix α) => t'.IsGrid g.m_cols.toNat g.m_rows.toNat ∧
        t'.m_rows = g.m_cols ∧ t'.m_cols = g.m_rows ∧
        (∀ i' j', i' < i → j' < g.m_rows.toNat → t'.get i' j' = g.get j' i') ∧
        (∀ j', j' < J → t'.get i j' = g.get j' i))
      0 g.m_rows.toNat (Nat.zero_le _)
      (fun j retVal => retVal.set i j (g.get j i)) t
      ⟨hg, hr, hc, hdone, fun j hj => absurd hj (Nat.not_lt_zero j)⟩ ?_
    · obtain ⟨hg', hr', hc', hprev, hrow⟩ := inner
      refine ⟨hg', hr', hc', ?_⟩
      intro i' j' hi' hj'
      by_cases hii : i' = i
      · subst hii; exact hrow j' hj'
      · exact hprev i' j' (by omega) hj'
    · intro j t' _ hj ⟨hg', hr', hc', hprev, hrow⟩
      refine ⟨isGrid_set _ _ _ _ _ _ hg', hr', hc', ?_, ?_⟩
      · intro i' j' hi' hj'
        rw [get_set_of_ne _ _ _ _ _ _ (Or.inl (by omega))]
        exact hprev i' j' hi' hj'
      · intro j' hj'
        by_cases hjj : j' = j
        · subst hjj
          exact get_set_self _ _ _ _ _ _ hg' hi hj
        · rw [get_set_of_ne _ _ _ _ _ _ (Or.inr (fun h => hjj h.symm))]
          exact hrow j' (by omega)

/-- Transposing a well-formed grid twice gives the grid back. -/
theorem transpose_transpose (g : Matrix α) (hg : g.WellFormed) :
    transpose (transpose g) = g := by
  obtain ⟨t1, t2, t3, t4⟩ := transpose_spec g
  obtain ⟨u1, u2, u3, u4⟩ := transpose_spec (transpose g)
  rw [t1, t2] at u3 u4
  rw [t1] at u2
  rw [t2] at u1
  have hgrid := ((Matrix.wellFormed_iff g).1 hg).2.2
  have hraw : (transpose (transpose g)).m_rawData = g.m_rawData := by
    apply Matrix.rawData_eq_of_get _ _ _ _ u3 hgrid
    intro i j hi hj
    rw [u4 i j hi hj, t4 j i hj hi]
  exact Matrix.eq_of_fields _ _ u1 u2 hraw

end AMatrix

namespace AMatrix.Matrix

variable {α : Type} [Zero α]

/-- The getter `column` returns the cells of the column, top to bottom. -/
theorem column_eq_map (m : Matrix α) (colIdx : Nat) :
    m.column colIdx = (List.range m.m_rows.toNat).map (fun j => m.get j colIdx) := by
  simp only [column]
  have key := forUp_invariant
    (fun J (l : List α) => l.length = m.m_rows.toNat ∧
      ∀ j, j < J → l[j]? = some (m.get j colIdx))
    0 m.m_rows.toNat (Nat.zero_le _)
    (fun j retVal => retVal.set j (m.get j colIdx))
    (List.replicate m.m_rows.toNat 0)
    ⟨by simp, fun j hj => absurd hj (Nat.not_lt_zero j)⟩ ?_
  · apply List.ext_getElem?
    intro j
    by_cases hj : j < m.m_rows.toNat
    · rw [key.2 j hj]
      simp [List.getElem?_map, List.getElem?_range hj]
    · rw [List.getElem?_eq_none (by rw [key.1]; omega)]
      rw [List.getElem?_eq_none (by simp; omega)]
  · intro i l _ hi ⟨hlen, hdone⟩
    refine ⟨by simp [hlen], ?_⟩
    intro j hj
    by_cases hji : j = i
    · subst hji
      simp [List.getElem?_set, hlen, hi]
    · rw [List.getElem?_set_ne (fun h => hji h.symm)]
      exact hdone j (by omega)

/-- What the setter `column` does on a grid that stores `r` rows of `c` cells and
records `r` rows: column `colIdx` receives `col`, every other column is kept, and
so are the shape and the recorded dimensions. -/
theorem columnSet_spec (m : Matrix α) (r c : Nat) (hm : m.IsGrid r c)
    (hrows : m.m_rows = (r : Int)) (colIdx : Nat) (hidx : colIdx < c) (col : List α) :
    (m.columnSet colIdx col).IsGrid r c ∧ (m.columnSet colIdx col).m_rows = m.m_rows ∧
    (m.columnSet colIdx col).m_cols = m.m_cols ∧
    (∀ j, j < r → (m.columnSet colIdx col).get j colIdx = col.getD j 0) ∧
    (∀ a b, b ≠ colIdx → (m.columnSet colIdx col).get a b = m.get a b) := by
  simp only [columnSet]
  have hr : m.m_rows.toNat = r := by omega
  rw [hr]
  have key := forUp_invariant
    (fun J (t : Matrix α) => t.IsGrid r c ∧ t.m_rows = m.m_rows ∧ t.m_cols = m.m_cols ∧
      (∀ j, j < J → t.get j colIdx = col.getD j 0) ∧
      (∀ a b, b ≠ colIdx → t.get a b = m.get a b))
    0 r (Nat.zero_le _)
    (fun j m => m.set j colIdx (col.getD j 0)) m
    ⟨hm, rfl, rfl, fun j hj => absurd hj (Nat.not_lt_zero j), fun _ _ _ => rfl⟩ ?_
  · exact key
  · intro i t _ hi ⟨hg, h1, h2, hdone, hframe⟩
    refine ⟨isGrid_set _ _ _ _ _ _ hg, h1, h2, ?_, ?_⟩
    · intro j hj
      by_cases hji : j = i
      · subst hji
        exact get_set_self _ _ _ _ _ _ hg hi hidx
      · rw [get_set_of_ne _ _ _ _ _ _ (Or.inl (fun h => hji h.symm))]
        exact hdone j (by omega)
    · intro a b hb
      rw [get_set_of_ne _ _ _ _ _ _ (Or.inr (fun h => hb h.symm))]
      exact hframe a b hb

end AMatrix.Matrix

/-! ## Reachable states of the lattice model -/

namespace AMatrix.Matrix

variable {α : Type} [Zero α]

theorem get_of_not_lt (m : Matrix α) (r c i j : Nat) (h : m.IsGrid r c) (hij : r ≤ i ∨ c ≤ j) :
    m.get i j = 0 := by
  obtain ⟨h1, h2⟩ := h
  rw [get_eq_getElem?]
  by_cases hi : i < m.m_rawData.length
  · have hj : c ≤ j := by
      rcases hij with h | h
      · omega
      · exact h
    have hrow : (m.m_rawData[i]).length = c := h2 _ (List.getElem_mem hi)
    rw [List.getElem?_eq_getElem hi]
    simp only [Option.getD_some]
    rw [List.getElem?_eq_none (by omega)]
    rfl
  · simp [List.getElem?_eq_none (show m.m_rawData.length ≤ i by omega)]

theorem get_set_eq_or (m : Matrix α) (i j i' j' : Nat) (x : α) :
    (m.set i j x).get i' j' = m.get i' j' ∨
      ((m.set i j x).get i' j' = x ∧ i = i' ∧ j = j') := by
  by_cases h : i = i' ∧ j = j'
  · obtain ⟨rfl, rfl⟩ := h
    by_cases hi : i < m.m_rawData.length
    · by_cases hj : j < (m.m_rawData[i]).length
      · right
        refine ⟨?_, rfl, rfl⟩
        simp only [get, set, List.getD_eq_getElem?_getD]
        simp [List.getElem?_set, hi, hj]
      · left
        simp only [get, set, List.getD_eq_getElem?_getD]
        simp [List.getElem?_set, hi, hj, List.getElem?_eq_none (not_lt.1 hj)]
    · left
      simp only [get, set, List.getD_eq_getElem?_getD]
      simp [List.getElem?_set, hi, List.getElem?_eq_none (not_lt.1 hi)]
  · left
    exact get_set_of_ne m i j i' j' x (by omega)

theorem upperZero_set (m : Matrix α) (i j : Nat) (x : α) (hz : m.UpperZero)
    (h : j ≤ i ∨ x = 0) : (m.set i j x).UpperZero := by
  intro i' j' hlt
  rcases get_set_eq_or m i j i' j' x with h1 | ⟨h1, rfl, rfl⟩
  · rw [h1]; exact hz _ _ hlt
  · rw [h1]
    rcases h with h | h
    · omega
    · exact h

theorem upperZero_fill (r c : Nat) : (fill (r : Int) (c : Int) (0 : α)).UpperZero := by
  intro i j _
  by_cases h : i < r ∧ j < c
  · exact get_fill r c 0 i j h.1 h.2
  · exact get_of_not_lt _ r c i j (isGrid_fill r c 0) (by omega)

end AMatrix.Matrix

namespace BinomialTree

variable {α : Type} [LinearOrderedField α] (L : Libm α)

open AMatrix.Matrix in
/-- The forward pass stores `0` in the cells above the diagonal it touches: cell
`[m][m+1]` receives `u` times cell `[m-1][m]`. -/
theorem value.assetPass_upperZero (N : Int) (u d S : α) (s : AMatrix.Matrix α)
    (hz : s.UpperZero) : (value.assetPass N u d S s).UpperZero := by
  simp only [value.assetPass]
  by_cases hN : 1 ≤ N.toNat
  · refine forUp_invariant (fun _ (t : AMatrix.Matrix α) => t.UpperZero) 1 N.toNat hN _ _
      (upperZero_set _ _ _ _ hz (Or.inl (le_refl 0))) ?_
    intro m t hm1 _ ht
    apply upperZero_set _ _ _ _ ?_ (Or.inl (Nat.zero_le _))
    refine forDown_preserve (fun (t : AMatrix.Matrix α) => t.UpperZero) _ _ _ ht ?_
    intro n t' ht'
    apply upperZero_set _ _ _ _ ht'
    by_cases hn : n ≤ m
    · exact Or.inl hn
    · right
      have h0 : t'.get (m - 1) (n - 1) = 0 := ht' _ _ (by omega)
      rw [h0, mul_zero]
  · have e : N.toNat - 1 = 0 := by omega
    simp only [forUp, e, List.range'_zero, List.foldl_nil]
    exact upperZero_set _ _ _ _ hz (Or.inl (le_refl 0))

open AMatrix.Matrix in
theorem value.terminalPass_upperZero (N : Int) (K : α) (call : Bool) (s v : AMatrix.Matrix α)
    (hz : v.UpperZero) : (value.terminalPass N K call s v).UpperZero := by
  simp only [value.terminalPass]
  refine forUp_invariant (fun _ (t : AMatrix.Matrix α) => t.UpperZero) 0 N.toNat
    (Nat.zero_le _) _ _ hz ?_
  intro n t _ hn ht
  exact upperZero_set _ _ _ _ ht (Or.inl (by omega))

open AMatrix.Matrix in
theorem value.backwardPass_upperZero (N : Int) (K p disc : α) (call : Bool)
    (s v : AMatrix.Matrix α) (hz : v.UpperZero) :
    (value.backwardPass N K p disc call s v).UpperZero := by
  simp only [value.backwardPass]
  refine forDownTo0_preserve (fun (t : AMatrix.Matrix α) => t.UpperZero) _ _ _ hz ?_
  intro m t ht
  refine forUp_invariant (fun _ (t : AMatrix.Matrix α) => t.UpperZero) 0 (m + 1)
    (Nat.zero_le _) _ _ ht ?_
  intro n t' _ hn ht'
  exact upperZero_set _ _ _ _ ht' (Or.inl (by omega))

/-- `BinomialTree.value` leaves `0` above the diagonal of both grids when it finds
`0` there. -/
theorem value_upperZero (bt : BinomialTree α) (hs : bt.m_s.UpperZero) (hv : bt.m_v.UpperZero)
    (K S vol r T q : α) (call : Bool) :
    (value L bt K S vol r T q call).2.m_s.UpperZero ∧
      (value L bt K S vol r T q call).2.m_v.UpperZero := by
  simp only [value]
  exact ⟨value.assetPass_upperZero _ _ _ _ _ hs,
    value.backwardPass_upperZero _ _ _ _ _ _ _ (value.terminalPass_upperZero _ _ _ _ _ hv)⟩

/-- Every reachable state satisfies the invariant and holds `0` above the diagonal
of both grids. -/
theorem Reachable.inv_upperZero (bt : BinomialTree α) (h : Reachable L bt) :
    bt.Inv ∧ bt.m_s.UpperZero ∧ bt.m_v.UpperZero := by
  induction h with
  | byConstructor =>
    exact ⟨new_Inv, AMatrix.Matrix.upperZero_fill 51 51, AMatrix.Matrix.upperZero_fill 51 51⟩
  | byTimeSteps bt bt' n _ _ hres ih =>
    obtain ⟨hinv, hs, hv⟩ := ih
    obtain ⟨_, _, hinv', hcells⟩ := timeStepsSet_of_some bt hinv n bt' hres
    have hwf := Inv.toWF bt' hinv'
    have e : (0.0 : α) = 0 := by norm_num
    refine ⟨hinv', ?_, ?_⟩
    · intro i j hij
      by_cases hin : (i : Int) < bt'.m_stepNumber ∧ (j : Int) < bt'.m_stepNumber
      · rw [(hcells i j hin.1 hin.2).1]
        split_ifs
        · exact hs i j hij
        · exact e
      · exact AMatrix.Matrix.get_of_not_lt _ _ _ i j hwf.1 (by omega)
    · intro i j hij
      by_cases hin : (i : Int) < bt'.m_stepNumber ∧ (j : Int) < bt'.m_stepNumber
      · rw [(hcells i j hin.1 hin.2).2]
        split_ifs
        · exact hv i j hij
        · exact e
      · exact AMatrix.Matrix.get_of_not_lt _ _ _ i j hwf.2 (by omega)
  | byValue bt K S vol r T q call _ ih =>
    obtain ⟨hinv, hs, hv⟩ := ih
    exact ⟨(value_Inv L bt hinv K S vol r T q call).1, value_upperZero L bt hs hv K S vol r T q call⟩
  | byDelta bt K S vol r T q call _ ih =>
    obtain ⟨hinv, hs, hv⟩ := ih
    exact ⟨(value_Inv L bt hinv K S vol r T q call).1, value_upperZero L bt hs hv K S vol r T q call⟩
  | byGamma bt K S vol r T q _ ih =>
    obtain ⟨hinv, hs, hv⟩ := ih
    exact ⟨(value_Inv L bt hinv K S vol r T q true).1, value_upperZero L bt hs hv K S vol r T q true⟩
  | byTheta bt K S vol r T q call _ ih =>
    obtain ⟨hinv, hs, hv⟩ := ih
    exact ⟨(value_Inv L bt hinv K S vol r T q call).1, value_upperZero L bt hs hv K S vol r T q call⟩
  | byRho bt K S vol r T q call _ ih =>
    obtain ⟨hinv, hs, hv⟩ := ih
    have h1 := value_Inv L bt hinv K S vol r T q call
    have z1 := value_upperZero L bt hs hv K S vol r T q call
    exact ⟨(value_Inv L _ h1.1 K S vol (r + 0.00001) T q call).1,
      value_upperZero L _ z1.1 z1.2 K S vol (r + 0.00001) T q call⟩
  | byVega bt K S vol r T q _ ih =>
    obtain ⟨hinv, hs, hv⟩ := ih
    have h1 := value_Inv L bt hinv K S vol r T q true
    have z1 := value_upperZero L bt hs hv K S vol r T q true
    exact ⟨(value_Inv L _ h1.1 K S (vol + 0.00001) r T q true).1,
      value_upperZero L _ z1.1 z1.2 K S (vol + 0.00001) r T q true⟩

/-- After `BinomialTree.value` on a reachable state with step count `N`, every cell
of both grids is a function of the arguments: the lattice value on and below the
diagonal, `0` above it. -/
theorem value_all_cells (bt : BinomialTree α) (h : Reachable L bt) (N : Nat)
    (hstep : bt.m_stepNumber = (N : Int)) (K S vol r T q : α) (call : Bool) (m n : Nat)
    (hm : m < N) :
    (value L bt K S vol r T q call).2.m_s.get m n
      = (if n ≤ m then
          value.assetNode (L.exp (vol * L.sqrt (T / ((N : α) - 1))))
            (L.exp (-vol * L.sqrt (T / ((N : α) - 1)))) S m n
        else 0) ∧
    (value L bt K S vol r T q call).2.m_v.get m n
      = (if n ≤ m then
          value.valueNode K
            ((L.exp ((r - q) * (T / ((N : α) - 1))) - L.exp (-vol * L.sqrt (T / ((N : α) - 1))))
              / (L.exp (vol * L.sqrt (T / ((N : α) - 1)))
                - L.exp (-vol * L.sqrt (T / ((N : α) - 1)))))
            (L.exp (-r * (T / ((N : α) - 1)))) call
            (value.assetNode (L.exp (vol * L.sqrt (T / ((N : α) - 1))))
              (L.exp (-vol * L.sqrt (T / ((N : α) - 1)))) S) (N - 1 - m) m n
        else 0) := by
  obtain ⟨hinv, hs, hv⟩ := Reachable.inv_upperZero L bt h
  by_cases hnm : n ≤ m
  · have hc := value_cells L bt (Inv.toWF bt hinv) K S vol r T q call m n (by omega) hnm
    have hcast : (((bt.m_stepNumber - 1 : Int)) : α) = (N : α) - 1 := by
      rw [hstep]; push_cast; ring
    have hnat : bt.m_stepNumber.toNat = N := by omega
    rw [hcast, hnat] at hc
    simp only [hnm, if_true]
    exact hc
  · have z := value_upperZero L bt hs hv K S vol r T q call
    simp only [hnm, if_false]
    exact ⟨z.1 m n (by omega), z.2 m n (by omega)⟩

end BinomialTree


/-! ## Claims on the lattice state -/

section LatticeStateClaims

variable {α : Type} [LinearOrderedField α] (L : Libm α)

/-- For a step count `N ≥ 2`, two runs of `BinomialTree.value` with identical
arguments from any two prior contents of the `N x N` grids end with the same cell
`[m][n]` of the asset grid and of the value grid for every `n ≤ m ≤ N - 1`. -/
theorem BinomialTree.value_grids_agree_on_lattice (bt1 bt2 : BinomialTree α) (N : Nat)
    (hN : 2 ≤ N) (hstep1 : bt1.m_stepNumber = (N : Int)) (hstep2 : bt2.m_stepNumber = (N : Int))
    (hwf1 : bt1.WF) (hwf2 : bt2.WF) (K S vol r T q : α) (call : Bool) (m n : Nat)
    (hnm : n ≤ m) (hm : m ≤ N - 1) :
    (BinomialTree.value L bt1 K S vol r T q call).2.m_s.get m n
        = (BinomialTree.value L bt2 K S vol r T q call).2.m_s.get m n ∧
    (BinomialTree.value L bt1 K S vol r T q call).2.m_v.get m n
        = (BinomialTree.value L bt2 K S vol r T q call).2.m_v.get m n := by
  have h1 := BinomialTree.value_cells L bt1 hwf1 K S vol r T q call m n (by omega) hnm
  have h2 := BinomialTree.value_cells L bt2 hwf2 K S vol r T q call m n (by omega) hnm
  rw [h1.1, h1.2, h2.1, h2.2, hstep1, hstep2]
  exact ⟨rfl, rfl⟩

/-- C11: for every step count `N ≥ 2`, two runs of `BinomialTree.value` with
identical arguments from two states of the model with step count `N`, each reached
through the public interface (so with whatever grid contents earlier calls left),
end with identical grids; every cell `[m][n]` of the asset grid and of the value
grid is determined by the arguments alone: the lattice node for `n ≤ m`, and `0`
for `n > m`. -/
theorem BinomialTree.value_overwrites_grids (bt1 bt2 : BinomialTree α) (N : Nat)
    (_hN : 2 ≤ N) (h1 : BinomialTree.Reachable L bt1) (h2 : BinomialTree.Reachable L bt2)
    (hstep1 : bt1.m_stepNumber = (N : Int)) (hstep2 : bt2.m_stepNumber = (N : Int))
    (K S vol r T q : α) (call : Bool) :
    (BinomialTree.value L bt1 K S vol r T q call).2.m_s
        = (BinomialTree.value L bt2 K S vol r T q call).2.m_s ∧
    (BinomialTree.value L bt1 K S vol r T q call).2.m_v
        = (BinomialTree.value L bt2 K S vol r T q call).2.m_v ∧
    ∀ m n : Nat, m < N → n < N →
      (BinomialTree.value L bt1 K S vol r T q call).2.m_s.get m n
        = (if n ≤ m then
            BinomialTree.value.assetNode (L.exp (vol * L.sqrt (T / ((N : α) - 1))))
              (L.exp (-vol * L.sqrt (T / ((N : α) - 1)))) S m n
          else 0) ∧
      (BinomialTree.value L bt1 K S vol r T q call).2.m_v.get m n
        = (if n ≤ m then
            BinomialTree.value.valueNode K
              ((L.exp ((r - q) * (T / ((N : α) - 1)))
                  - L.exp (-vol * L.sqrt (T / ((N : α) - 1))))
                / (L.exp (vol * L.sqrt (T / ((N : α) - 1)))
                  - L.exp (-vol * L.sqrt (T / ((N : α) - 1)))))
              (L.exp (-r * (T / ((N : α) - 1)))) call
              (BinomialTree.value.assetNode (L.exp (vol * L.sqrt (T / ((N : α) - 1))))
                (L.exp (-vol * L.sqrt (T / ((N : α) - 1)))) S) (N - 1 - m) m n
          else 0) := by
  have i1 := (BinomialTree.Reachable.inv_upperZero L _
    (BinomialTree.Reachable.byValue bt1 K S vol r T q call h1)).1
  have i2 := (BinomialTree.Reachable.inv_upperZero L _
    (BinomialTree.Reachable.byValue bt2 K S vol r T q call h2)).1
  have s1 := (BinomialTree.value_Inv L bt1 (BinomialTree.Reachable.inv_upperZero L bt1 h1).1
    K S vol r T q call).2
  have s2 := (BinomialTree.value_Inv L bt2 (BinomialTree.Reachable.inv_upperZero L bt2 h2).1
    K S vol r T q call).2
  have w1 := BinomialTree.Inv.toWF _ i1
  have w2 := BinomialTree.Inv.toWF _ i2
  have n1 : (BinomialTree.value L bt1 K S vol r T q call).2.m_stepNumber.toNat = N := by omega
  have n2 : (BinomialTree.value L bt2 K S vol r T q call).2.m_stepNumber.toNat = N := by omega
  unfold BinomialTree.WF at w1 w2
  rw [n1] at w1
  rw [n2] at w2
  have c1 := fun m n hm =>
    BinomialTree.value_all_cells L bt1 h1 N hstep1 K S vol r T q call m n hm
  have c2 := fun m n hm =>
    BinomialTree.value_all_cells L bt2 h2 N hstep2 K S vol r T q call m n hm
  obtain ⟨_, _, r1, k1, r1', k1'⟩ := i1
  obtain ⟨_, _, r2, k2, r2', k2'⟩ := i2
  refine ⟨?_, ?_, fun m n hm _ => c1 m n hm⟩
  · apply AMatrix.Matrix.eq_of_fields
    · rw [r1, r2, s1, s2, hstep1, hstep2]
    · rw [k1, k2, s1, s2, hstep1, hstep2]
    · apply AMatrix.Matrix.rawData_eq_of_get _ _ N N w1.1 w2.1
      intro i j hi _
      rw [(c1 i j hi).1, (c2 i j hi).1]
  · apply AMatrix.Matrix.eq_of_fields
    · rw [r1', r2', s1, s2, hstep1, hstep2]
    · rw [k1', k2', s1, s2, hstep1, hstep2]
    · apply AMatrix.Matrix.rawData_eq_of_get _ _ N N w1.2 w2.2
      intro i j hi _
      rw [(c1 i j hi).2, (c2 i j hi).2]

/-- C12 (amended): the lattice state invariant (both grids well formed with
`m_stepNumber` recorded rows and columns, hence `N x N`) holds after construction
with `N = 51`; whenever a call `timeSteps(n)` with `n + 1 < 2^32` returns from a
state that satisfies it, it holds again with `N = n + 1` and the getter returns `n`;
and `value` and every Greek keep it and the step count. -/
theorem BinomialTree.state_invariant :
    ((BinomialTree.new : BinomialTree α).Inv ∧
      (BinomialTree.new : BinomialTree α).m_stepNumber = 51) ∧
    (∀ (bt bt' : BinomialTree α) (n : Nat), bt.Inv → n < 4294967295 →
      bt.timeStepsSet n = some bt' →
      bt'.Inv ∧ bt'.m_stepNumber = (n : Int) + 1 ∧ bt'.timeSteps = (n : Int) ∧
        bt'.m_s.IsGrid (n + 1) (n + 1) ∧ bt'.m_v.IsGrid (n + 1) (n + 1)) ∧
    (∀ (bt : BinomialTree α) (K S vol r T q : α) (call : Bool), bt.Inv →
      ((BinomialTree.value L bt K S vol r T q call).2.Inv ∧
        (BinomialTree.value L bt K S vol r T q call).2.m_stepNumber = bt.m_stepNumber) ∧
      ((BinomialTree.delta L bt K S vol r T q call).2.Inv ∧
        (BinomialTree.delta L bt K S vol r T q call).2.m_stepNumber = bt.m_stepNumber) ∧
      ((BinomialTree.gamma L bt K S vol r T q).2.Inv ∧
        (BinomialTree.gamma L bt K S vol r T q).2.m_stepNumber = bt.m_stepNumber) ∧
      ((BinomialTree.theta L bt K S vol r T q call).2.Inv ∧
        (BinomialTree.theta L bt K S vol r T q call).2.m_stepNumber = bt.m_stepNumber) ∧
      ((BinomialTree.rho L bt K S vol r T q call).2.Inv ∧
        (BinomialTree.rho L bt K S vol r T q call).2.m_stepNumber = bt.m_stepNumber) ∧
      ((BinomialTree.vega L bt K S vol r T q).2.Inv ∧
        (BinomialTree.vega L bt K S vol r T q).2.m_stepNumber = bt.m_stepNumber)) ∧
    (∀ (bt : BinomialTree α), bt.Inv →
      bt.m_s.IsGrid bt.m_stepNumber.toNat bt.m_stepNumber.toNat ∧
      bt.m_v.IsGrid bt.m_stepNumber.toNat bt.m_stepNumber.toNat) := by
  refine ⟨⟨BinomialTree.new_Inv, rfl⟩, ?_, ?_, fun bt h => BinomialTree.Inv.toWF bt h⟩
  · intro bt bt' n h hn hres
    obtain ⟨h1, _, h3, _⟩ := BinomialTree.timeStepsSet_of_some bt h n bt' hres
    have hw : (n + 1) % 4294967296 = n + 1 := Nat.mod_eq_of_lt (by omega)
    rw [hw] at h1
    have hstep : bt'.m_stepNumber = (n : Int) + 1 := by rw [h1]; push_cast; ring
    have hwf := BinomialTree.Inv.toWF bt' h3
    have hnat : bt'.m_stepNumber.toNat = n + 1 := by omega
    unfold BinomialTree.WF at hwf
    rw [hnat] at hwf
    refine ⟨h3, hstep, ?_, hwf.1, hwf.2⟩
    simp only [BinomialTree.timeSteps, hstep]; ring
  · intro bt K S vol r T q call h
    have hv := BinomialTree.value_Inv L bt h K S vol r T q call
    have hvt := BinomialTree.value_Inv L bt h K S vol r T q true
    refine ⟨hv, hv, hvt, hv, ?_, ?_⟩
    · have h2 := BinomialTree.value_Inv L _ hv.1 K S vol (r + 0.00001) T q call
      exact ⟨h2.1, h2.2.trans hv.2⟩
    · have h2 := BinomialTree.value_Inv L _ hvt.1 K S (vol + 0.00001) r T q true
      exact ⟨h2.1, h2.2.trans hvt.2⟩

/-- C13 (amended): whenever a call `timeSteps(n)` returns from a state that
satisfies the invariant with step count `N0`, every cell `[i][j]` of each grid
(with `i`, `j` below the new step count) holds its previous content when `i < N0`
and `j < N0`, and `0.0` otherwise. -/
theorem BinomialTree.timeStepsSet_keeps_old_cells (bt bt' : BinomialTree α) (h : bt.Inv)
    (n : Nat) (hres : bt.timeStepsSet n = some bt') :
    ∀ i j : Nat, (i : Int) < bt'.m_stepNumber → (j : Int) < bt'.m_stepNumber →
      bt'.m_s.get i j
        = (if (i : Int) < bt.m_stepNumber ∧ (j : Int) < bt.m_stepNumber then bt.m_s.get i j
            else 0.0) ∧
      bt'.m_v.get i j
        = (if (i : Int) < bt.m_stepNumber ∧ (j : Int) < bt.m_stepNumber then bt.m_v.get i j
            else 0.0) :=
  (BinomialTree.timeStepsSet_of_some bt h n bt' hres).2.2.2

/-- C14: for a step count `N ≥ 3` (both grids `N x N`), `BinomialTree.gamma` returns
`(delta1 - delta2)/h` with `h = 0.5 (S u^2 - S d^2)`,
`delta1 = (v[2][2] - v[2][1])/(S u^2 - S)`, `delta2 = (v[2][1] - v[2][0])/(S - S d^2)`,
where `v` is the value grid left by `value(K,S,vol,r,T,q, call)`, whose cells
`v[2][0..2]` are the level-2 values of the lattice. -/
theorem BinomialTree.gamma_eq_specGamma (bt : BinomialTree α) (N : Nat) (hN : 3 ≤ N)
    (hstep : bt.m_stepNumber = (N : Int)) (hwf : bt.WF) (K S vol r T q : α) :
    (BinomialTree.gamma L bt K S vol r T q).1
      = BinomialTree.specGamma S (L.exp (vol * L.sqrt (T / ((N : α) - 1))))
          (L.exp (-vol * L.sqrt (T / ((N : α) - 1))))
          (BinomialTree.value L bt K S vol r T q true).2.m_v ∧
    ∀ k, k ≤ 2 →
      (BinomialTree.value L bt K S vol r T q true).2.m_v.get 2 k
        = BinomialTree.specV N K S (L.exp (vol * L.sqrt (T / ((N : α) - 1))))
            (L.exp (-vol * L.sqrt (T / ((N : α) - 1))))
            ((L.exp ((r - q) * (T / ((N : α) - 1)))
                - L.exp (-vol * L.sqrt (T / ((N : α) - 1))))
              / (L.exp (vol * L.sqrt (T / ((N : α) - 1)))
                - L.exp (-vol * L.sqrt (T / ((N : α) - 1)))))
            (L.exp (-r * (T / ((N : α) - 1)))) true 2 k := by
  have hcast : (((bt.m_stepNumber - 1 : Int) : α)) = (N : α) - 1 := by
    rw [hstep]; push_cast; ring
  constructor
  · have hstep' : (BinomialTree.value L bt K S vol r T q true).2.m_stepNumber
        = bt.m_stepNumber := rfl
    simp only [BinomialTree.gamma, BinomialTree.specGamma, hstep', hcast]
    congr 1
    · ring
    · ring
  · intro k hk
    have h := (BinomialTree.value_cells L bt hwf K S vol r T q true 2 k (by omega) hk).2
    rw [h, hcast]
    have hk' : bt.m_stepNumber.toNat - 1 - 2 = N - 3 := by omega
    rw [hk']
    exact BinomialTree.value.valueNode_eq_specV N K S _ _ _ _ true (N - 3) 2 k (by omega) hk

/-- C15: for a step count `N ≥ 2` (both grids `N x N`), `BinomialTree.rho` returns
`((value(r) - value(r + 1e-5)) / 1e-5) / 100`, both prices computed for the
requested option kind. -/
theorem BinomialTree.rho_eq_difference (bt : BinomialTree α) (N : Nat) (hN : 2 ≤ N)
    (hstep : bt.m_stepNumber = (N : Int)) (hwf : bt.WF) (K S vol r T q : α) (call : Bool) :
    (BinomialTree.rho L bt K S vol r T q call).1
      = (((BinomialTree.value L bt K S vol r T q call).1
          - (BinomialTree.value L bt K S vol (r + 1e-5) T q call).1) / 1e-5) / 100 := by
  have h1 : 1 ≤ bt.m_stepNumber := by omega
  have hw := BinomialTree.value_WF L bt hwf h1 K S vol r T q call
  have e1 : (0.00001 : α) = 1e-5 := by norm_num
  have e2 : (100.0 : α) = 100 := by norm_num
  simp only [BinomialTree.rho, e1, e2]
  rw [BinomialTree.value_eq_valueNode L _ hw.2 (by rw [hw.1]; exact h1),
    BinomialTree.value_eq_valueNode L bt hwf h1 K S vol (r + 1e-5) T q call, hw.1]

end LatticeStateClaims

section LatticeStateConcrete

/-- Witness for C11: the default model and the model left by a call of `value`
with other arguments, both with step count 51. -/
theorem BinomialTree.value_overwrites_grids_witness :
    2 ≤ 51 ∧ BinomialTree.Reachable Libm.real (BinomialTree.new : BinomialTree ℝ) ∧
    BinomialTree.Reachable Libm.real
      (BinomialTree.value Libm.real BinomialTree.new 40 42 0.2 0.05 0.5 0.01 false).2 ∧
    (BinomialTree.new : BinomialTree ℝ).m_stepNumber = ((51 : Nat) : Int) ∧
    (BinomialTree.value Libm.real BinomialTree.new 40 42 0.2 0.05 0.5 0.01 false).2.m_stepNumber
      = ((51 : Nat) : Int) ∧
    (BinomialTree.value Libm.real BinomialTree.new 50 50 0.4 0.1 0.4167 0 true).2.m_s
      = (BinomialTree.value Libm.real
          (BinomialTree.value Libm.real BinomialTree.new 40 42 0.2 0.05 0.5 0.01 false).2
          50 50 0.4 0.1 0.4167 0 true).2.m_s ∧
    (BinomialTree.value Libm.real BinomialTree.new 50 50 0.4 0.1 0.4167 0 true).2.m_v
      = (BinomialTree.value Libm.real
          (BinomialTree.value Libm.real BinomialTree.new 40 42 0.2 0.05 0.5 0.01 false).2
          50 50 0.4 0.1 0.4167 0 true).2.m_v :=
  have hw := BinomialTree.value_overwrites_grids Libm.real BinomialTree.new
    (BinomialTree.value Libm.real BinomialTree.new 40 42 0.2 0.05 0.5 0.01 false).2 51
    (by norm_num) BinomialTree.Reachable.byConstructor
    (BinomialTree.Reachable.byValue _ 40 42 0.2 0.05 0.5 0.01 false
      BinomialTree.Reachable.byConstructor) rfl rfl 50 50 0.4 0.1 0.4167 0 true
  ⟨by norm_num, BinomialTree.Reachable.byConstructor,
    BinomialTree.Reachable.byValue _ 40 42 0.2 0.05 0.5 0.01 false
      BinomialTree.Reachable.byConstructor, rfl, rfl, hw.1, hw.2.1⟩

/-- On the default model `timeSteps(1)` returns the model with step count 2 and two
`2 x 2` grids of `0`. -/
theorem BinomialTree.timeStepsSet_new_one :
    (BinomialTree.new : BinomialTree ℝ).timeStepsSet 1
      = some ⟨2, ⟨2, 2, [[0, 0], [0, 0]]⟩, ⟨2, 2, [[0, 0], [0, 0]]⟩⟩ := by
  simp [BinomialTree.timeStepsSet, BinomialTree.new, AMatrix.Matrix.resize,
    AMatrix.Matrix.fill, AMatrix.vectorResize]

/-- C12 (as stated) fails: on the default model `timeSteps(4294967295)` computes
`4294967295 + 1 = 0` in unsigned arithmetic, sets the step count to 0, empties both
grids, and the getter then returns `-1`, not `4294967295`. -/
theorem BinomialTree.timeStepsSet_wraps :
    (BinomialTree.new : BinomialTree ℝ).timeStepsSet 4294967295
        = some ⟨0, ⟨0, 0, []⟩, ⟨0, 0, []⟩⟩ ∧
    (BinomialTree.mk 0 (AMatrix.Matrix.mk 0 0 []) (AMatrix.Matrix.mk 0 0 [])
      : BinomialTree ℝ).timeSteps = -1 := by
  constructor
  · simp [BinomialTree.timeStepsSet, BinomialTree.new, AMatrix.Matrix.resize,
      AMatrix.Matrix.fill, AMatrix.vectorResize]
  · simp [BinomialTree.timeSteps]

/-- Witness for C12 (amended): on the default model `timeSteps(1)` returns the
model with step count 2 and two `2 x 2` grids of `0`, and `value` keeps the
invariant. -/
theorem BinomialTree.state_invariant_witness :
    (BinomialTree.new : BinomialTree ℝ).Inv ∧ 1 < 4294967295 ∧
    (BinomialTree.new : BinomialTree ℝ).timeStepsSet 1
      = some ⟨2, ⟨2, 2, [[0, 0], [0, 0]]⟩, ⟨2, 2, [[0, 0], [0, 0]]⟩⟩ ∧
    ((BinomialTree.mk 2 ⟨2, 2, [[0, 0], [0, 0]]⟩ ⟨2, 2, [[0, 0], [0, 0]]⟩
        : BinomialTree ℝ).Inv ∧
      (BinomialTree.mk 2 ⟨2, 2, [[0, 0], [0, 0]]⟩ ⟨2, 2, [[0, 0], [0, 0]]⟩
        : BinomialTree ℝ).m_stepNumber = ((1 : Nat) : Int) + 1 ∧
      (BinomialTree.mk 2 ⟨2, 2, [[0, 0], [0, 0]]⟩ ⟨2, 2, [[0, 0], [0, 0]]⟩
        : BinomialTree ℝ).timeSteps = ((1 : Nat) : Int) ∧
      (AMatrix.Matrix.mk 2 2 [[0, 0], [0, 0]] : AMatrix.Matrix ℝ).IsGrid (1 + 1) (1 + 1) ∧
      (AMatrix.Matrix.mk 2 2 [[0, 0], [0, 0]] : AMatrix.Matrix ℝ).IsGrid (1 + 1) (1 + 1)) ∧
    ((BinomialTree.value Libm.real BinomialTree.new 50 50 0.4 0.1 0.4167 0 true).2.Inv ∧
      (BinomialTree.value Libm.real BinomialTree.new 50 50 0.4 0.1 0.4167 0 true).2.m_stepNumber
        = (BinomialTree.new : BinomialTree ℝ).m_stepNumber) :=
  ⟨BinomialTree.new_Inv, by norm_num, BinomialTree.timeStepsSet_new_one,
    (BinomialTree.state_invariant Libm.real).2.1 BinomialTree.new _ 1 BinomialTree.new_Inv
      (by norm_num) BinomialTree.timeStepsSet_new_one,
    ((BinomialTree.state_invariant Libm.real).2.2.1 BinomialTree.new 50 50 0.4 0.1 0.4167 0 true
      BinomialTree.new_Inv).1⟩

/-- C13 (as stated) fails: after `value` on the default model, `timeSteps(50)`
(the step count stays 51) leaves the asset price 50 in cell `[0][0]` of the asset
grid, not `0.0`. -/
theorem BinomialTree.timeStepsSet_keeps_contents :
    ∃ bt', (BinomialTree.value Libm.real BinomialTree.new 50 50 0.4 0.1 0.4167 0
        true).2.timeStepsSet 50 = some bt' ∧
      bt'.m_s.get 0 0 = 50 ∧ bt'.m_s.get 0 0 ≠ 0.0 := by
  have hinv := BinomialTree.value_Inv Libm.real BinomialTree.new BinomialTree.new_Inv
    50 50 0.4 0.1 0.4167 0 true
  obtain ⟨bt', h1, _, _, _, h5⟩ := BinomialTree.timeStepsSet_spec _ hinv.1 50 (by norm_num)
  have hcell := (h5 0 0 (by norm_num) (by norm_num)).1
  have hstep : (BinomialTree.value Libm.real BinomialTree.new 50 50 0.4 0.1 0.4167 0
      true).2.m_stepNumber = 51 := rfl
  have hold := (BinomialTree.value_cells Libm.real BinomialTree.new BinomialTree.new_WF
    50 50 0.4 0.1 0.4167 0 true 0 0 (by decide) (le_refl 0)).1
  rw [hstep] at hcell
  simp only [Nat.cast_zero, Nat.ofNat_pos, and_self, if_true] at hcell
  rw [hold] at hcell
  simp only [BinomialTree.value.assetNode] at hcell
  refine ⟨bt', h1, hcell, ?_⟩
  rw [hcell]
  norm_num

/-- Witness for C13 (amended): the model left by `value` on the default model and
`timeSteps(50)`, which returns with the same state. -/
theorem BinomialTree.timeStepsSet_keeps_old_cells_witness :
    (BinomialTree.value Libm.real BinomialTree.new 50 50 0.4 0.1 0.4167 0 true).2.Inv ∧
    (BinomialTree.value Libm.real BinomialTree.new 50 50 0.4 0.1 0.4167 0 true).2.timeStepsSet 50
      = some (BinomialTree.value Libm.real BinomialTree.new 50 50 0.4 0.1 0.4167 0 true).2 ∧
    ∀ i j : Nat,
      (i : Int)
        < (BinomialTree.value Libm.real BinomialTree.new 50 50 0.4 0.1 0.4167 0
            true).2.m_stepNumber →
      (j : Int)
        < (BinomialTree.value Libm.real BinomialTree.new 50 50 0.4 0.1 0.4167 0
            true).2.m_stepNumber →
      (BinomialTree.value Libm.real BinomialTree.new 50 50 0.4 0.1 0.4167 0 true).2.m_s.get i j
        = (if (i : Int) < (BinomialTree.value Libm.real BinomialTree.new 50 50 0.4 0.1 0.4167 0
                true).2.m_stepNumber ∧
              (j : Int) < (BinomialTree.value Libm.real BinomialTree.new 50 50 0.4 0.1 0.4167 0
                true).2.m_stepNumber
            then (BinomialTree.value Libm.real BinomialTree.new 50 50 0.4 0.1 0.4167 0
              true).2.m_s.get i j
            else 0.0) ∧
      (BinomialTree.value Libm.real BinomialTree.new 50 50 0.4 0.1 0.4167 0 true).2.m_v.get i j
        = (if (i : Int) < (BinomialTree.value Libm.real BinomialTree.new 50 50 0.4 0.1 0.4167 0
                true).2.m_stepNumber ∧
              (j : Int) < (BinomialTree.value Libm.real BinomialTree.new 50 50 0.4 0.1 0.4167 0
                true).2.m_stepNumber
            then (BinomialTree.value Libm.real BinomialTree.new 50 50 0.4 0.1 0.4167 0
              true).2.m_v.get i j
            else 0.0) :=
  have hinv := (BinomialTree.value_Inv Libm.real BinomialTree.new BinomialTree.new_Inv
    50 50 0.4 0.1 0.4167 0 true).1
  have hsame := BinomialTree.timeStepsSet_same
    (BinomialTree.value Libm.real BinomialTree.new 50 50 0.4 0.1 0.4167 0 true).2 hinv 50
    (by norm_num) rfl
  ⟨hinv, hsame,
    BinomialTree.timeStepsSet_keeps_old_cells _ _ hinv 50 hsame⟩

/-- Witness for C14: the default model at the arguments of Hull's example 17.1. -/
theorem BinomialTree.gamma_eq_specGamma_witness :
    3 ≤ 51 ∧ (BinomialTree.new : BinomialTree ℝ).m_stepNumber = ((51 : Nat) : Int) ∧
    (BinomialTree.new : BinomialTree ℝ).WF ∧
    (BinomialTree.gamma Libm.real BinomialTree.new 50 50 0.4 0.1 0.4167 0).1
      = BinomialTree.specGamma 50
          (Libm.real.exp (0.4 * Libm.real.sqrt (0.4167 / (((51 : Nat) : ℝ) - 1))))
          (Libm.real.exp (-0.4 * Libm.real.sqrt (0.4167 / (((51 : Nat) : ℝ) - 1))))
          (BinomialTree.value Libm.real BinomialTree.new 50 50 0.4 0.1 0.4167 0 true).2.m_v :=
  ⟨by norm_num, rfl, BinomialTree.new_WF,
    (BinomialTree.gamma_eq_specGamma Libm.real BinomialTree.new 51 (by norm_num) rfl
      BinomialTree.new_WF 50 50 0.4 0.1 0.4167 0).1⟩

/-- Witness for C15: the default model at the arguments of Hull's example 17.1. -/
theorem BinomialTree.rho_eq_difference_witness :
    2 ≤ 51 ∧ (BinomialTree.new : BinomialTree ℝ).m_stepNumber = ((51 : Nat) : Int) ∧
    (BinomialTree.new : BinomialTree ℝ).WF ∧
    (BinomialTree.rho Libm.real BinomialTree.new 50 50 0.4 0.1 0.4167 0 true).1
      = (((BinomialTree.value Libm.real BinomialTree.new 50 50 0.4 0.1 0.4167 0 true).1
          - (BinomialTree.value Libm.real BinomialTree.new 50 50 0.4 (0.1 + 1e-5) 0.4167 0
              true).1) / 1e-5) / 100 :=
  ⟨by norm_num, rfl, BinomialTree.new_WF,
    BinomialTree.rho_eq_difference Libm.real BinomialTree.new 51 (by norm_num) rfl
      BinomialTree.new_WF 50 50 0.4 0.1 0.4167 0 true⟩

end LatticeStateConcrete

/-! ## Claims on the grid -/

section GridClaims

variable {α : Type}

/-- A rectangular table gives a well-formed grid. -/
theorem AMatrix.Matrix.wellFormed_ofTable (values : List (List α)) (c : Nat)
    (hrect : ∀ row ∈ values, row.length = c) : (AMatrix.Matrix.ofTable values).WellFormed := by
  cases values with
  | nil => simp [AMatrix.Matrix.WellFormed, AMatrix.Matrix.ofTable]
  | cons row0 rest =>
    have h0 : row0.length = c := hrect row0 (List.mem_cons_self _ _)
    refine ⟨rfl, by simp [AMatrix.Matrix.ofTable], ?_⟩
    intro row hrow
    simp only [AMatrix.Matrix.ofTable, List.length_cons, ne_eq, Nat.add_one_ne_zero,
      not_false_eq_true, if_true, List.headD_cons]
    rw [hrect row hrow, h0]

variable [Zero α]

/-- C16: for a well-formed grid `g`, `r, c ≥ 0` and a fill value `v`, `g.resize(r, c, v)`
succeeds and leaves `rows = r`, `cols = c`, exactly `r` stored rows of exactly `c`
cells each, in cell `[i][j]` (for `i < r`, `j < c`) the old cell when `i < old rows`
and `j < old cols` and `v` otherwise; when `(r, c)` are the old dimensions the grid is
unchanged. -/
theorem AMatrix.resize_correct (g : AMatrix.Matrix α) (hg : g.WellFormed) (r c : Int)
    (hr : 0 ≤ r) (hc : 0 ≤ c) (v : α) :
    ∃ g', g.resize r c v = some g' ∧ g'.m_rows = r ∧ g'.m_cols = c ∧
      (g'.m_rawData.length : Int) = r ∧ (∀ row ∈ g'.m_rawData, (row.length : Int) = c) ∧
      (∀ i j : Nat, (i : Int) < r → (j : Int) < c →
        g'.get i j = if (i : Int) < g.m_rows ∧ (j : Int) < g.m_cols then g.get i j else v) ∧
      ((r = g.m_rows ∧ c = g.m_cols) → g' = g) := by
  obtain ⟨g', h1, h2, h3, h4, h5, h6⟩ := AMatrix.Matrix.resize_spec g hg r c hr hc v
  refine ⟨g', h1, h2, h3, ?_, ?_, h5, h6⟩
  · rw [← h2]; exact h4.1
  · intro row hrow
    rw [← h3]; exact h4.2.2 row hrow

/-- C17: for a well-formed grid `g`, `r' ≥ rows`, `c' ≥ cols` and fill values `v`, `w`,
`resize(r', c', v)` followed by `resize(rows, cols, w)` succeeds and gives a grid
with the dimensions and the cells of `g` (the grid `g` itself). -/
theorem AMatrix.resize_round_trip (g : AMatrix.Matrix α) (hg : g.WellFormed) (r' c' : Int)
    (hr : g.m_rows ≤ r') (hc : g.m_cols ≤ c') (v w : α) :
    ∃ g1 g2, g.resize r' c' v = some g1 ∧ g1.resize g.m_rows g.m_cols w = some g2 ∧
      g2.m_rows = g.m_rows ∧ g2.m_cols = g.m_cols ∧ g2.m_rawData = g.m_rawData ∧
      ∀ i j, g2.get i j = g.get i j := by
  obtain ⟨g1, h1, h2⟩ := AMatrix.Matrix.resize_resize g hg r' c' hr hc v w
  exact ⟨g1, g, h1, h2, rfl, rfl, rfl, fun _ _ => rfl⟩

/-- C18: for a grid `g` built from a rectangular table (the empty table and tables
of empty rows included), `transpose(transpose(g))` has the dimensions of `g` and
`transpose(transpose(g)) == g` is true. -/
theorem AMatrix.transpose_involution [DecidableEq α] (values : List (List α)) (c : Nat)
    (hrect : ∀ row ∈ values, row.length = c) :
    (AMatrix.transpose (AMatrix.transpose (AMatrix.Matrix.ofTable values))).m_rows
        = (AMatrix.Matrix.ofTable values).m_rows ∧
    (AMatrix.transpose (AMatrix.transpose (AMatrix.Matrix.ofTable values))).m_cols
        = (AMatrix.Matrix.ofTable values).m_cols ∧
    AMatrix.operator_eq (AMatrix.transpose (AMatrix.transpose (AMatrix.Matrix.ofTable values)))
        (AMatrix.Matrix.ofTable values) = true := by
  have hw := AMatrix.Matrix.wellFormed_ofTable values c hrect
  rw [AMatrix.transpose_transpose _ hw]
  refine ⟨rfl, rfl, ?_⟩
  simp [AMatrix.operator_eq]

/-- C19: for a well-formed grid `g` with dimensions `(r, c)`, `transpose(g)` is a
well-formed grid with `rows = c`, `cols = r` and cell `[i][j]` equal to `g[j][i]` for
all `i < c`, `j < r`. -/
theorem AMatrix.transpose_correct (g : AMatrix.Matrix α) (hg : g.WellFormed) :
    (AMatrix.transpose g).WellFormed ∧ (AMatrix.transpose g).m_rows = g.m_cols ∧
    (AMatrix.transpose g).m_cols = g.m_rows ∧
    ∀ i j : Nat, (i : Int) < g.m_cols → (j : Int) < g.m_rows →
      (AMatrix.transpose g).get i j = g.get j i := by
  obtain ⟨t1, t2, t3, t4⟩ := AMatrix.transpose_spec g
  have hdims := (AMatrix.Matrix.wellFormed_iff g).1 hg
  refine ⟨?_, t1, t2, ?_⟩
  · rw [AMatrix.Matrix.wellFormed_iff, t1, t2]
    exact ⟨hdims.2.1, hdims.1, t3⟩
  · intro i j hi hj
    exact t4 i j (by omega) (by omega)

/-- C20: for a well-formed grid `g`, a column index `i < cols` and a sequence `c` of
length `rows`: after the setter `column(i, c)` the getter `column(i)` returns
exactly `c`, the recorded dimensions and the well-formedness are kept, and every cell
in a column other than `i` is unchanged. -/
theorem AMatrix.column_set_get (g : AMatrix.Matrix α) (hg : g.WellFormed) (i : Nat)
    (hi : (i : Int) < g.m_cols) (c : List α) (hc : (c.length : Int) = g.m_rows) :
    (g.columnSet i c).column i = c ∧
    (g.columnSet i c).m_rows = g.m_rows ∧ (g.columnSet i c).m_cols = g.m_cols ∧
    (g.columnSet i c).WellFormed ∧
    ∀ a b, b ≠ i → (g.columnSet i c).get a b = g.get a b := by
  have hdims := (AMatrix.Matrix.wellFormed_iff g).1 hg
  have hrows : g.m_rows = ((g.m_rows.toNat : Nat) : Int) := by omega
  obtain ⟨s1, s2, s3, s4, s5⟩ :=
    AMatrix.Matrix.columnSet_spec g g.m_rows.toNat g.m_cols.toNat hdims.2.2 hrows i (by omega) c
  refine ⟨?_, s2, s3, ?_, s5⟩
  · rw [AMatrix.Matrix.column_eq_map, s2]
    apply List.ext_getElem?
    intro j
    by_cases hj : j < g.m_rows.toNat
    · have hjc : j < c.length := by omega
      simp [List.getElem?_map, List.getElem?_range hj, s4 j hj, List.getD_eq_getElem?_getD,
        List.getElem?_eq_getElem hjc]
    · rw [List.getElem?_eq_none (by simp; omega), List.getElem?_eq_none (by omega)]
  · rw [AMatrix.Matrix.wellFormed_iff, s2, s3]
    exact ⟨hdims.1, hdims.2.1, s1⟩

end GridClaims

section GridWitnesses

/-- Witness for C16: the `2 x 3` grid of the table `[[1,2,3],[4,5,6]]` resized to
`3 x 2` with fill 9. -/
theorem AMatrix.resize_correct_witness :
    (AMatrix.Matrix.ofTable [[1, 2, 3], [4, 5, 6]] : AMatrix.Matrix ℚ).WellFormed ∧
    (0 : Int) ≤ 3 ∧ (0 : Int) ≤ 2 ∧
    ∃ g', (AMatrix.Matrix.ofTable [[1, 2, 3], [4, 5, 6]] : AMatrix.Matrix ℚ).resize 3 2 9
        = some g' ∧ g'.m_rows = 3 ∧ g'.m_cols = 2 ∧
      (g'.m_rawData.length : Int) = 3 ∧ (∀ row ∈ g'.m_rawData, (row.length : Int) = 2) ∧
      (∀ i j : Nat, (i : Int) < 3 → (j : Int) < 2 →
        g'.get i j
          = if (i : Int) < (AMatrix.Matrix.ofTable [[1, 2, 3], [4, 5, 6]]
                  : AMatrix.Matrix ℚ).m_rows ∧
                (j : Int) < (AMatrix.Matrix.ofTable [[1, 2, 3], [4, 5, 6]]
                  : AMatrix.Matrix ℚ).m_cols
            then (AMatrix.Matrix.ofTable [[1, 2, 3], [4, 5, 6]] : AMatrix.Matrix ℚ).get i j
            else 9) ∧
      (((3 : Int) = (AMatrix.Matrix.ofTable [[1, 2, 3], [4, 5, 6]] : AMatrix.Matrix ℚ).m_rows ∧
          (2 : Int) = (AMatrix.Matrix.ofTable [[1, 2, 3], [4, 5, 6]]
            : AMatrix.Matrix ℚ).m_cols) →
        g' = AMatrix.Matrix.ofTable [[1, 2, 3], [4, 5, 6]]) :=
  have hw : (AMatrix.Matrix.ofTable [[1, 2, 3], [4, 5, 6]] : AMatrix.Matrix ℚ).WellFormed :=
    AMatrix.Matrix.wellFormed_ofTable _ 3 (by simp)
  ⟨hw, by norm_num, by norm_num, AMatrix.resize_correct _ hw 3 2 (by norm_num) (by norm_num) 9⟩

/-- Witness for C17: the same `2 x 3` grid resized to `4 x 5` and back. -/
theorem AMatrix.resize_round_trip_witness :
    (AMatrix.Matrix.ofTable [[1, 2, 3], [4, 5, 6]] : AMatrix.Matrix ℚ).WellFormed ∧
    (AMatrix.Matrix.ofTable [[1, 2, 3], [4, 5, 6]] : AMatrix.Matrix ℚ).m_rows ≤ 4 ∧
    (AMatrix.Matrix.ofTable [[1, 2, 3], [4, 5, 6]] : AMatrix.Matrix ℚ).m_cols ≤ 5 ∧
    ∃ g1 g2, (AMatrix.Matrix.ofTable [[1, 2, 3], [4, 5, 6]] : AMatrix.Matrix ℚ).resize 4 5 9
        = some g1 ∧
      g1.resize (AMatrix.Matrix.ofTable [[1, 2, 3], [4, 5, 6]] : AMatrix.Matrix ℚ).m_rows
        (AMatrix.Matrix.ofTable [[1, 2, 3], [4, 5, 6]] : AMatrix.Matrix ℚ).m_cols 8 = some g2 ∧
      g2.m_rows = (AMatrix.Matrix.ofTable [[1, 2, 3], [4, 5, 6]] : AMatrix.Matrix ℚ).m_rows ∧
      g2.m_cols = (AMatrix.Matrix.ofTable [[1, 2, 3], [4, 5, 6]] : AMatrix.Matrix ℚ).m_cols ∧
      g2.m_rawData
        = (AMatrix.Matrix.ofTable [[1, 2, 3], [4, 5, 6]] : AMatrix.Matrix ℚ).m_rawData ∧
      ∀ i j, g2.get i j
        = (AMatrix.Matrix.ofTable [[1, 2, 3], [4, 5, 6]] : AMatrix.Matrix ℚ).get i j :=
  have hw : (AMatrix.Matrix.ofTable [[1, 2, 3], [4, 5, 6]] : AMatrix.Matrix ℚ).WellFormed :=
    AMatrix.Matrix.wellFormed_ofTable _ 3 (by simp)
  have h1 : (AMatrix.Matrix.ofTable [[1, 2, 3], [4, 5, 6]] : AMatrix.Matrix ℚ).m_rows ≤ 4 := by
    simp [AMatrix.Matrix.ofTable]
  have h2 : (AMatrix.Matrix.ofTable [[1, 2, 3], [4, 5, 6]] : AMatrix.Matrix ℚ).m_cols ≤ 5 := by
    simp [AMatrix.Matrix.ofTable]
  ⟨hw, h1, h2, AMatrix.resize_round_trip _ hw 4 5 h1 h2 9 8⟩

/-- Witness for C18: the table `[[1,2,3],[4,5,6]]`. -/
theorem AMatrix.transpose_involution_witness :
    (∀ row ∈ ([[1, 2, 3], [4, 5, 6]] : List (List ℚ)), row.length = 3) ∧
    (AMatrix.transpose (AMatrix.transpose
        (AMatrix.Matrix.ofTable ([[1, 2, 3], [4, 5, 6]] : List (List ℚ))))).m_rows
      = (AMatrix.Matrix.ofTable ([[1, 2, 3], [4, 5, 6]] : List (List ℚ))).m_rows ∧
    (AMatrix.transpose (AMatrix.transpose
        (AMatrix.Matrix.ofTable ([[1, 2, 3], [4, 5, 6]] : List (List ℚ))))).m_cols
      = (AMatrix.Matrix.ofTable ([[1, 2, 3], [4, 5, 6]] : List (List ℚ))).m_cols ∧
    AMatrix.operator_eq
        (AMatrix.transpose (AMatrix.transpose
          (AMatrix.Matrix.ofTable ([[1, 2, 3], [4, 5, 6]] : List (List ℚ)))))
        (AMatrix.Matrix.ofTable ([[1, 2, 3], [4, 5, 6]] : List (List ℚ))) = true :=
  have hrect : ∀ row ∈ ([[1, 2, 3], [4, 5, 6]] : List (List ℚ)), row.length = 3 := by simp
  ⟨hrect, AMatrix.transpose_involution _ 3 hrect⟩

/-- Witness for C19: the `2 x 3` grid of the table `[[1,2,3],[4,5,6]]`. -/
theorem AMatrix.transpose_correct_witness :
    (AMatrix.Matrix.ofTable [[1, 2, 3], [4, 5, 6]] : AMatrix.Matrix ℚ).WellFormed ∧
    (AMatrix.transpose (AMatrix.Matrix.ofTable [[1, 2, 3], [4, 5, 6]]
      : AMatrix.Matrix ℚ)).WellFormed ∧
    (AMatrix.transpose (AMatrix.Matrix.ofTable [[1, 2, 3], [4, 5, 6]]
      : AMatrix.Matrix ℚ)).m_rows
      = (AMatrix.Matrix.ofTable [[1, 2, 3], [4, 5, 6]] : AMatrix.Matrix ℚ).m_cols ∧
    (AMatrix.transpose (AMatrix.Matrix.ofTable [[1, 2, 3], [4, 5, 6]]
      : AMatrix.Matrix ℚ)).m_cols
      = (AMatrix.Matrix.ofTable [[1, 2, 3], [4, 5, 6]] : AMatrix.Matrix ℚ).m_rows ∧
    ∀ i j : Nat,
      (i : Int) < (AMatrix.Matrix.ofTable [[1, 2, 3], [4, 5, 6]] : AMatrix.Matrix ℚ).m_cols →
      (j : Int) < (AMatrix.Matrix.ofTable [[1, 2, 3], [4, 5, 6]] : AMatrix.Matrix ℚ).m_rows →
      (AMatrix.transpose (AMatrix.Matrix.ofTable [[1, 2, 3], [4, 5, 6]]
        : AMatrix.Matrix ℚ)).get i j
        = (AMatrix.Matrix.ofTable [[1, 2, 3], [4, 5, 6]] : AMatrix.Matrix ℚ).get j i :=
  have hw : (AMatrix.Matrix.ofTable [[1, 2, 3], [4, 5, 6]] : AMatrix.Matrix ℚ).WellFormed :=
    AMatrix.Matrix.wellFormed_ofTable _ 3 (by simp)
  ⟨hw, AMatrix.transpose_correct _ hw⟩

/-- Witness for C20: column 1 of the `2 x 3` grid of the table `[[1,2,3],[4,5,6]]`
set to `[7, 8]`. -/
theorem AMatrix.column_set_get_witness :
    (AMatrix.Matrix.ofTable [[1, 2, 3], [4, 5, 6]] : AMatrix.Matrix ℚ).WellFormed ∧
    ((1 : Nat) : Int) < (AMatrix.Matrix.ofTable [[1, 2, 3], [4, 5, 6]]
      : AMatrix.Matrix ℚ).m_cols ∧
    ((([7, 8] : List ℚ).length : Nat) : Int)
      = (AMatrix.Matrix.ofTable [[1, 2, 3], [4, 5, 6]] : AMatrix.Matrix ℚ).m_rows ∧
    ((AMatrix.Matrix.ofTable [[1, 2, 3], [4, 5, 6]] : AMatrix.Matrix ℚ).columnSet 1
        [7, 8]).column 1 = [7, 8] ∧
    ((AMatrix.Matrix.ofTable [[1, 2, 3], [4, 5, 6]] : AMatrix.Matrix ℚ).columnSet 1
        [7, 8]).m_rows
      = (AMatrix.Matrix.ofTable [[1, 2, 3], [4, 5, 6]] : AMatrix.Matrix ℚ).m_rows ∧
    ((AMatrix.Matrix.ofTable [[1, 2, 3], [4, 5, 6]] : AMatrix.Matrix ℚ).columnSet 1
        [7, 8]).m_cols
      = (AMatrix.Matrix.ofTable [[1, 2, 3], [4, 5, 6]] : AMatrix.Matrix ℚ).m_cols ∧
    ((AMatrix.Matrix.ofTable [[1, 2, 3], [4, 5, 6]] : AMatrix.Matrix ℚ).columnSet 1
        [7, 8]).WellFormed ∧
    ∀ a b, b ≠ 1 →
      ((AMatrix.Matrix.ofTable [[1, 2, 3], [4, 5, 6]] : AMatrix.Matrix ℚ).columnSet 1
          [7, 8]).get a b
        = (AMatrix.Matrix.ofTable [[1, 2, 3], [4, 5, 6]] : AMatrix.Matrix ℚ).get a b :=
  have hw : (AMatrix.Matrix.ofTable [[1, 2, 3], [4, 5, 6]] : AMatrix.Matrix ℚ).WellFormed :=
    AMatrix.Matrix.wellFormed_ofTable _ 3 (by simp)
  have h1 : ((1 : Nat) : Int) < (AMatrix.Matrix.ofTable [[1, 2, 3], [4, 5, 6]]
      : AMatrix.Matrix ℚ).m_cols := by simp [AMatrix.Matrix.ofTable]
  have h2 : ((([7, 8] : List ℚ).length : Nat) : Int)
      = (AMatrix.Matrix.ofTable [[1, 2, 3], [4, 5, 6]] : AMatrix.Matrix ℚ).m_rows := by
    simp [AMatrix.Matrix.ofTable]
  ⟨hw, h1, h2, AMatrix.column_set_get _ hw 1 h1 [7, 8] h2⟩

end GridWitnesses

/-! ## Equality of grids -/

namespace AMatrix

variable {α : Type} [Zero α] [DecidableEq α]

theorem operator_eq_iff (m1 m2 : Matrix α) :
    operator_eq m1 m2 = true ↔
      ∀ i j : Nat, i < m1.m_rows.toNat → j < m1.m_cols.toNat → m1.get i j = m2.get i j := by
  simp only [operator_eq, List.all_eq_true, List.mem_range, decide_eq_true_eq]
  constructor
  · intro h i j hi hj; exact h i hi j hj
  · intro h i hi j hj; exact h i j hi hj

theorem operator_ne_iff (m1 m2 : Matrix α) :
    operator_ne m1 m2 = true ↔
      ∃ i j : Nat, i < m1.m_rows.toNat ∧ j < m1.m_cols.toNat ∧ m1.get i j ≠ m2.get i j := by
  simp only [operator_ne, List.any_eq_true, List.mem_range, decide_eq_true_eq]
  constructor
  · rintro ⟨i, hi, j, hj, h⟩; exact ⟨i, j, hi, hj, h⟩
  · rintro ⟨i, j, hi, hj, h⟩; exact ⟨i, hi, j, hj, h⟩

theorem operator_ne_eq_not (m1 m2 : Matrix α) :
    operator_ne m1 m2 = !operator_eq m1 m2 := by
  cases h : operator_eq m1 m2 with
  | true =>
    rw [Bool.not_true, ← Bool.not_eq_true, operator_ne_iff]
    rw [operator_eq_iff] at h
    rintro ⟨i, j, hi, hj, hne⟩
    exact hne (h i j hi hj)
  | false =>
    rw [Bool.not_false, operator_ne_iff]
    by_contra hcon
    have : operator_eq m1 m2 = true := by
      rw [operator_eq_iff]
      intro i j hi hj
      by_contra hne
      exact hcon ⟨i, j, hi, hj, hne⟩
    rw [h] at this
    exact Bool.noConfusion this

end AMatrix

/-! ## Rectangularity and the empty shape -/

namespace AMatrix.Matrix

variable {α : Type}

theorem wellFormed_fill (r c : Int) (hr : 0 ≤ r) (hc : 0 ≤ c) (x : α) :
    (fill r c x).WellFormed := by
  rw [wellFormed_iff]
  exact ⟨hr, hc, isGrid_fill_toNat r c x⟩

theorem wellFormed_empty : (empty : Matrix α).WellFormed := by
  simp [WellFormed, empty]

theorem wellFormed_clear (m : Matrix α) : m.clear.WellFormed := by
  simp [WellFormed, clear]

theorem wellFormed_assign (m : Matrix α) (hm : m.WellFormed) (a : α) :
    (m.assign a).WellFormed ∧ (m.assign a).m_rows = m.m_rows ∧
      (m.assign a).m_cols = m.m_cols := by
  rw [wellFormed_iff] at hm
  have key : (m.assign a).IsGrid m.m_rows.toNat m.m_cols.toNat ∧
      (m.assign a).m_rows = m.m_rows ∧ (m.assign a).m_cols = m.m_cols := by
    simp only [assign]
    refine forUp_preserve
      (fun (t : Matrix α) => t.IsGrid m.m_rows.toNat m.m_cols.toNat ∧ t.m_rows = m.m_rows ∧
        t.m_cols = m.m_cols) _ _ _ _ ⟨hm.2.2, rfl, rfl⟩ ?_
    intro i t ht
    refine forUp_preserve
      (fun (t : Matrix α) => t.IsGrid m.m_rows.toNat m.m_cols.toNat ∧ t.m_rows = m.m_rows ∧
        t.m_cols = m.m_cols) _ _ _ _ ht ?_
    intro j t' ht'
    exact keeps_set _ _ _ _ _ _ _ _ ht'
  refine ⟨?_, key.2.1, key.2.2⟩
  rw [wellFormed_iff, key.2.1, key.2.2]
  exact ⟨hm.1, hm.2.1, key.1⟩

/-- Every public mutating operation but `setMatrix(r, c)` keeps a grid well formed,
and the constructors build well-formed grids. -/
theorem wellFormed_operations [Zero α] (m : Matrix α) (hm : m.WellFormed) :
    (∀ (r c : Int) (x : α), 0 ≤ r → 0 ≤ c → (fill r c x).WellFormed) ∧
    (∀ (values : List (List α)) (c : Nat), (∀ row ∈ values, row.length = c) →
      (ofTable values).WellFormed ∧ (m.setMatrixTable values).WellFormed) ∧
    (∀ (r c : Int) (v : α), 0 ≤ r → 0 ≤ c → ∃ m', m.resize r c v = some m' ∧ m'.WellFormed) ∧
    (∀ a : α, (m.assign a).WellFormed) ∧
    (∀ (i : Nat) (col : List α), (i : Int) < m.m_cols → (col.length : Int) = m.m_rows →
      (m.columnSet i col).WellFormed) ∧
    m.clear.WellFormed := by
  refine ⟨fun r c x hr hc => wellFormed_fill r c hr hc x, ?_, ?_, ?_, ?_, wellFormed_clear m⟩
  · intro values c hrect
    exact ⟨wellFormed_ofTable values c hrect, wellFormed_ofTable values c hrect⟩
  · intro r c v hr hc
    obtain ⟨m', h1, _, _, h4, _⟩ := resize_spec m hm r c hr hc v
    exact ⟨m', h1, h4⟩
  · intro a
    exact (wellFormed_assign m hm a).1
  · intro i col hi hcol
    have hdims := (wellFormed_iff m).1 hm
    have hrows : m.m_rows = ((m.m_rows.toNat : Nat) : Int) := by omega
    obtain ⟨s1, s2, s3, _, _⟩ :=
      columnSet_spec m m.m_rows.toNat m.m_cols.toNat hdims.2.2 hrows i (by omega) col
    rw [wellFormed_iff, s2, s3]
    exact ⟨hdims.1, hdims.2.1, s1⟩

/-- When every `Matrix(r, c, fill)` and `resize(r, c, fill)` has `c = 0` whenever
`r = 0`, a reachable grid with no rows records no columns. -/
theorem reachable_rows_zero (m : Matrix α)
    (h : Reachable (fun r c => r = 0 → c = 0) m) : m.m_rows = 0 → m.m_cols = 0 := by
  induction h with
  | empty => intro _; rfl
  | fill r c x _ _ hok => exact hok
  | ofTable values =>
    intro h0
    simp only [ofTable] at h0 ⊢
    have : values.length = 0 := by omega
    simp [this]
  | resize m m' r c v _ hok hres ih =>
    simp only [Matrix.resize] at hres
    split_ifs at hres <;> simp only [Option.some.injEq] at hres <;> subst hres <;>
      first | exact ih | exact hok
  | clear m _ _ => intro _; rfl

end AMatrix.Matrix

/-! ## Claims on grid equality, rectangularity and the shared normal distribution -/

section GridClaims2

variable {α : Type}

/-- C21: for two well-formed grids `g` and `h` of equal dimensions, `g == h` is true
exactly when `g[i][j] = h[i][j]` for every in-range `(i, j)` (equivalently, when the
two grids are the same grid), and `g != h` is the negation of `g == h`. -/
theorem AMatrix.equality_correct [Zero α] [DecidableEq α] (g h : AMatrix.Matrix α)
    (hg : g.WellFormed) (hh : h.WellFormed) (hr : g.m_rows = h.m_rows)
    (hc : g.m_cols = h.m_cols) :
    (AMatrix.operator_eq g h = true ↔
      ∀ i j : Nat, (i : Int) < g.m_rows → (j : Int) < g.m_cols → g.get i j = h.get i j) ∧
    (AMatrix.operator_eq g h = true ↔ g = h) ∧
    AMatrix.operator_ne g h = !AMatrix.operator_eq g h := by
  have hgd := (AMatrix.Matrix.wellFormed_iff g).1 hg
  have hhd := (AMatrix.Matrix.wellFormed_iff h).1 hh
  refine ⟨?_, ?_, AMatrix.operator_ne_eq_not g h⟩
  · rw [AMatrix.operator_eq_iff]
    constructor
    · intro hall i j hi hj; exact hall i j (by omega) (by omega)
    · intro hall i j hi hj; exact hall i j (by omega) (by omega)
  · rw [AMatrix.operator_eq_iff]
    constructor
    · intro hall
      apply AMatrix.Matrix.eq_of_fields _ _ hr hc
      have hh' := hhd.2.2
      rw [← hr, ← hc] at hh'
      exact AMatrix.Matrix.rawData_eq_of_get g h _ _ hgd.2.2 hh' hall
    · intro heq i j _ _
      rw [heq]

/-- C22: from the well-formed `2 x 3` grid `Matrix(2, 3, 0)`, `setMatrix(2, 5)`
records 5 columns and leaves both stored rows with 3 cells: the result is not well
formed. -/
theorem AMatrix.setMatrix_breaks_rectangularity :
    (AMatrix.Matrix.fill 2 3 (0 : ℚ)).WellFormed ∧
    (AMatrix.Matrix.fill 2 3 (0 : ℚ)).setMatrix 2 5
      = some ⟨2, 5, [[0, 0, 0], [0, 0, 0]]⟩ ∧
    ¬ (AMatrix.Matrix.mk 2 5 [[0, 0, 0], [0, 0, 0]] : AMatrix.Matrix ℚ).WellFormed := by
  refine ⟨AMatrix.Matrix.wellFormed_fill 2 3 (by norm_num) (by norm_num) 0, ?_, ?_⟩
  · simp [AMatrix.Matrix.setMatrix, AMatrix.Matrix.fill, AMatrix.vectorResize]
  · intro h
    have := h.2.2 [0, 0, 0] (by simp)
    simp at this

/-- C23 (as stated) fails: `Matrix(0, 5, 0)` is reachable and has `rows() = 0` with
`cols() = 5`. -/
theorem AMatrix.empty_shape_fails :
    AMatrix.Matrix.Reachable (fun _ _ => True) (AMatrix.Matrix.fill 0 5 (0 : ℚ)) ∧
    (AMatrix.Matrix.fill 0 5 (0 : ℚ)).m_rows = 0 ∧
    (AMatrix.Matrix.fill 0 5 (0 : ℚ)).m_cols ≠ 0 :=
  ⟨AMatrix.Matrix.Reachable.fill 0 5 0 (by norm_num) (by norm_num) trivial, rfl, by
    simp [AMatrix.Matrix.fill]⟩

/-- C23 (amended): for every grid reachable through `Matrix()`, `Matrix(r, c, fill)`
with `r, c ≥ 0`, `Matrix(table)` and any sequence of `resize(r, c, fill)` and `clear`
calls, in which every `Matrix(r, c, fill)` and `resize(r, c, fill)` has `c = 0`
whenever `r = 0`: `rows() = 0` implies `cols() = 0`. -/
theorem AMatrix.empty_shape (m : AMatrix.Matrix α)
    (h : AMatrix.Matrix.Reachable (fun r c => r = 0 → c = 0) m) (hrows : m.m_rows = 0) :
    m.m_cols = 0 :=
  AMatrix.Matrix.reachable_rows_zero m h hrows

/-- Witness for C23 (amended): `Matrix(2, 3, 0)` resized to `0 x 0`. -/
theorem AMatrix.empty_shape_witness :
    AMatrix.Matrix.Reachable (fun r c => r = 0 → c = 0)
      (AMatrix.Matrix.mk 0 0 [] : AMatrix.Matrix ℚ) ∧
    (AMatrix.Matrix.mk 0 0 [] : AMatrix.Matrix ℚ).m_rows = 0 ∧
    (AMatrix.Matrix.mk 0 0 [] : AMatrix.Matrix ℚ).m_cols = 0 :=
  have hr : AMatrix.Matrix.Reachable (fun r c => r = 0 → c = 0)
      (AMatrix.Matrix.mk 0 0 [] : AMatrix.Matrix ℚ) :=
    AMatrix.Matrix.Reachable.resize (AMatrix.Matrix.fill 2 3 (0 : ℚ)) _ 0 0 0
      (AMatrix.Matrix.Reachable.fill 2 3 0 (by norm_num) (by norm_num) (by norm_num))
      (fun _ => rfl)
      (by simp [AMatrix.Matrix.resize, AMatrix.Matrix.fill, AMatrix.vectorResize])
  ⟨hr, rfl, AMatrix.empty_shape _ hr rfl⟩

/-- Witness for C21: the grids of the tables `[[1,2],[3,4]]` and `[[1,2],[3,5]]`. -/
theorem AMatrix.equality_correct_witness :
    (AMatrix.Matrix.ofTable [[1, 2], [3, 4]] : AMatrix.Matrix ℚ).WellFormed ∧
    (AMatrix.Matrix.ofTable [[1, 2], [3, 5]] : AMatrix.Matrix ℚ).WellFormed ∧
    (AMatrix.Matrix.ofTable [[1, 2], [3, 4]] : AMatrix.Matrix ℚ).m_rows
      = (AMatrix.Matrix.ofTable [[1, 2], [3, 5]] : AMatrix.Matrix ℚ).m_rows ∧
    (AMatrix.Matrix.ofTable [[1, 2], [3, 4]] : AMatrix.Matrix ℚ).m_cols
      = (AMatrix.Matrix.ofTable [[1, 2], [3, 5]] : AMatrix.Matrix ℚ).m_cols ∧
    (AMatrix.operator_eq (AMatrix.Matrix.ofTable [[1, 2], [3, 4]] : AMatrix.Matrix ℚ)
        (AMatrix.Matrix.ofTable [[1, 2], [3, 5]]) = true ↔
      ∀ i j : Nat, (i : Int) < (AMatrix.Matrix.ofTable [[1, 2], [3, 4]] : AMatrix.Matrix ℚ).m_rows →
        (j : Int) < (AMatrix.Matrix.ofTable [[1, 2], [3, 4]] : AMatrix.Matrix ℚ).m_cols →
        (AMatrix.Matrix.ofTable [[1, 2], [3, 4]] : AMatrix.Matrix ℚ).get i j
          = (AMatrix.Matrix.ofTable [[1, 2], [3, 5]] : AMatrix.Matrix ℚ).get i j) ∧
    (AMatrix.operator_eq (AMatrix.Matrix.ofTable [[1, 2], [3, 4]] : AMatrix.Matrix ℚ)
        (AMatrix.Matrix.ofTable [[1, 2], [3, 5]]) = true ↔
      (AMatrix.Matrix.ofTable [[1, 2], [3, 4]] : AMatrix.Matrix ℚ)
        = AMatrix.Matrix.ofTable [[1, 2], [3, 5]]) ∧
    AMatrix.operator_ne (AMatrix.Matrix.ofTable [[1, 2], [3, 4]] : AMatrix.Matrix ℚ)
        (AMatrix.Matrix.ofTable [[1, 2], [3, 5]])
      = !AMatrix.operator_eq (AMatrix.Matrix.ofTable [[1, 2], [3, 4]] : AMatrix.Matrix ℚ)
          (AMatrix.Matrix.ofTable [[1, 2], [3, 5]]) :=
  have h1 : (AMatrix.Matrix.ofTable [[1, 2], [3, 4]] : AMatrix.Matrix ℚ).WellFormed :=
    AMatrix.Matrix.wellFormed_ofTable _ 2 (by simp)
  have h2 : (AMatrix.Matrix.ofTable [[1, 2], [3, 5]] : AMatrix.Matrix ℚ).WellFormed :=
    AMatrix.Matrix.wellFormed_ofTable _ 2 (by simp)
  ⟨h1, h2, rfl, rfl, AMatrix.equality_correct _ _ h1 h2 rfl rfl⟩

end GridClaims2

section SharedNormal

variable {α : Type} [LinearOrderedField α]

/-- C24: with `M_PI` the number `Black.cpp` spells out (the same `double` as the
`M_PI` of `<math.h>`), `Black.N(x) = BlackScholes.N(x)` for every `x`; and
`Black.DN(x) = BlackScholes.DN(x)` for every `x` whatever `M_PI` is. -/
theorem normal_functions_shared (L : Libm α)
    (hpi : L.M_PI = 3.141592653589793238462643) (x : α) :
    Black.N L x = BlackScholes.N L x ∧ Black.DN L x = BlackScholes.DN L x := by
  refine ⟨?_, rfl⟩
  simp only [Black.N, BlackScholes.N, hpi]

/-- Witness for C24: the real functions with `M_PI` the literal of `Black.cpp`, at
`x = 1`. -/
theorem normal_functions_shared_witness :
    (Libm.mk Real.exp Real.sqrt Real.log 3.141592653589793238462643 : Libm ℝ).M_PI
      = 3.141592653589793238462643 ∧
    Black.N (Libm.mk Real.exp Real.sqrt Real.log 3.141592653589793238462643 : Libm ℝ) 1
      = BlackScholes.N (Libm.mk Real.exp Real.sqrt Real.log 3.141592653589793238462643) 1 ∧
    Black.DN (Libm.mk Real.exp Real.sqrt Real.log 3.141592653589793238462643 : Libm ℝ) 1
      = BlackScholes.DN (Libm.mk Real.exp Real.sqrt Real.log 3.141592653589793238462643) 1 :=
  ⟨rfl, normal_functions_shared _ rfl 1⟩

end SharedNormal

/-! ## Forward-model rho against the rate derivative of the Forward-model price -/

section ForwardRho

theorem Black.fwd_rho_eq_d {α : Type} [LinearOrderedField α] (L : Libm α)
    (K F vol r T : α) (call : Bool) :
    Black.rho L K F vol r T call =
      if call then K * T * L.exp (-r * T) * Black.N L (Black.d2 L K F vol T)
      else -K * T * L.exp (-r * T) * Black.N L (-(Black.d2 L K F vol T)) := by
  have e : (vol * vol) / 2.0 = vol ^ 2 / 2 := by norm_num [sq]
  simp only [Black.rho, Black.d1, Black.d2, e]

/-- The Forward-model price as a function of the rate is a constant times
`exp (-r T)`, so its derivative at `r` is `-T` times the price. -/
theorem Black.fwd_value_hasDerivAt_rate (K F vol r T : ℝ) (call : Bool) :
    HasDerivAt (fun r' => Black.value Libm.real K F vol r' T call)
      (-T * Black.value Libm.real K F vol r T call) r := by
  have h1 : HasDerivAt (fun r' : ℝ => -r' * T) (-T) r := by
    simpa using ((hasDerivAt_id r).neg.mul_const T)
  have h2 := h1.exp
  simp only [Black.fwd_value_eq_d, Libm.real_exp]
  cases call
  · simp only [Bool.false_eq_true, if_false]
    have h3 := h2.mul_const (K * Black.N Libm.real (-Black.d2 Libm.real K F vol T)
      - F * Black.N Libm.real (-Black.d1 Libm.real K F vol T))
    convert h3 using 1
    ring
  · simp only [if_true]
    have h3 := h2.mul_const (F * Black.N Libm.real (Black.d1 Libm.real K F vol T)
      - K * Black.N Libm.real (Black.d2 Libm.real K F vol T))
    convert h3 using 1
    ring

/-- The Forward model's approximate normal distribution is positive at 0. -/
theorem Black.fwd_N_zero_pos : 0 < Black.N Libm.real 0 := by
  rw [Black.fwd_N_real_zero]
  have hs : (2 : ℝ) ≤ Real.sqrt (2 * 3.141592653589793238462643) := by
    apply Real.le_sqrt_of_sq_le
    norm_num
  have hdiv : 1.253314136 / Real.sqrt (2 * 3.141592653589793238462643)
      ≤ 1.253314136 / (2 : ℝ) :=
    div_le_div_of_nonneg_left (by norm_num) (by norm_num) hs
  norm_num at hdiv ⊢
  linarith

/-- C25: at `K = 1`, `F = exp(-1/2)`, `vol = 1`, `r = 0`, `T = 1` the call `rho` of
the Forward model is not the derivative at `r` of the Forward call price as a
function of the rate, which `Black.h` documents it to be. -/
theorem Black.fwd_rho_ne_rate_derivative :
    Black.rho Libm.real 1 (Real.exp (-1 / 2)) 1 0 1 true
      ≠ deriv (fun r' => Black.value Libm.real 1 (Real.exp (-1 / 2)) 1 r' 1 true) 0 := by
  rw [(Black.fwd_value_hasDerivAt_rate 1 (Real.exp (-1 / 2)) 1 0 1 true).deriv,
    Black.fwd_rho_eq_d, Black.fwd_value_eq_d]
  simp only [if_true, Black.fwd_d1_cex, Black.fwd_d2_cex,
    Libm.real_exp, neg_zero, zero_mul, mul_one, Real.exp_zero, one_mul]
  intro h
  have h3 : Real.exp (-1 / 2) * Black.N Libm.real 0 = 0 := by
    linear_combination h
  rcases mul_eq_zero.1 h3 with h4 | h4
  · exact absurd h4 (Real.exp_pos _).ne'
  · exact absurd h4 Black.fwd_N_zero_pos.ne'

/-- For all real `K`, `F`, `vol`, `r`, `T` and both option kinds, the derivative at
`r` of `r' -> Black.value(K,F,vol,r',T,kind)` is `-T * Black.value(K,F,vol,r,T,kind)`,
and `Black.rho(K,F,vol,r,T,kind)` is that derivative plus `F T exp(-r T) N(d1)` for a
call, minus `F T exp(-r T) N(-d1)` for a put. -/
theorem Black.fwd_rho_vs_rate_derivative (K F vol r T : ℝ) (call : Bool) :
    HasDerivAt (fun r' => Black.value Libm.real K F vol r' T call)
      (-T * Black.value Libm.real K F vol r T call) r ∧
    Black.rho Libm.real K F vol r T call
      = -T * Black.value Libm.real K F vol r T call
        + (if call then F * T * Real.exp (-r * T) * Black.N Libm.real (Black.d1 Libm.real K F vol T)
           else -(F * T * Real.exp (-r * T)
              * Black.N Libm.real (-(Black.d1 Libm.real K F vol T)))) := by
  refine ⟨Black.fwd_value_hasDerivAt_rate K F vol r T call, ?_⟩
  rw [Black.fwd_rho_eq_d, Black.fwd_value_eq_d]
  cases call
  · simp only [Bool.false_eq_true, if_false, Libm.real_exp]
    ring
  · simp only [if_true, Libm.real_exp]
    ring

end ForwardRho

/-! ## Validity of the risk-neutral probability -/

section Probability

/-- The value grid `BinomialTree.value` leaves behind is the backward pass run with
the probability `value.p`. -/
theorem BinomialTree.value_uses_p {α : Type} [LinearOrderedField α] (L : Libm α)
    (bt : BinomialTree α) (K S vol r T q : α) (call : Bool) :
    (BinomialTree.value L bt K S vol r T q call).2.m_v
      = BinomialTree.value.backwardPass bt.m_stepNumber K
          (BinomialTree.value.p L bt.m_stepNumber vol r T q)
          (L.exp (-r * (T / (((bt.m_stepNumber - 1 : Int) : α))))) call
          (BinomialTree.value L bt K S vol r T q call).2.m_s
          (BinomialTree.value.terminalPass bt.m_stepNumber K call
            (BinomialTree.value L bt K S vol r T q call).2.m_s bt.m_v) :=
  rfl

/-- With `u = exp (vol s)`, `d = exp (-vol s)`, `a = exp (c s^2)`, `vol > 0` and
`s > 0`: `0 ≤ (a - d)/(u - d) ≤ 1` exactly when `|c| s ≤ vol`. -/
theorem BinomialTree.p_range_iff (vol c s : ℝ) (hvol : 0 < vol) (hs : 0 < s) :
    (0 ≤ (Real.exp (c * (s * s)) - Real.exp (-vol * s))
          / (Real.exp (vol * s) - Real.exp (-vol * s)) ∧
      (Real.exp (c * (s * s)) - Real.exp (-vol * s))
          / (Real.exp (vol * s) - Real.exp (-vol * s)) ≤ 1) ↔ |c| * s ≤ vol := by
  have hvs : 0 < vol * s := mul_pos hvol hs
  have hud : 0 < Real.exp (vol * s) - Real.exp (-vol * s) := by
    have : Real.exp (-vol * s) < Real.exp (vol * s) := by
      rw [Real.exp_lt_exp]; nlinarith
    linarith
  rw [le_div_iff₀ hud, div_le_iff₀ hud, zero_mul, one_mul, sub_nonneg, sub_le_sub_iff_right,
    Real.exp_le_exp, Real.exp_le_exp]
  have habs : |c| * s = |c * s| := by rw [abs_mul, abs_of_pos hs]
  rw [habs, abs_le]
  constructor
  · rintro ⟨h1, h2⟩
    constructor
    · by_contra hlt
      push_neg at hlt
      nlinarith
    · by_contra hlt
      push_neg at hlt
      nlinarith
  · rintro ⟨h1, h2⟩
    constructor <;> nlinarith

/-- C29: for `vol > 0`, `T > 0` and step count `N ≥ 2` (both grids `N x N`), the
probability `p = (exp((r-q) dt) - d)/(u - d)` that `BinomialTree.value` computes, the
one its backward induction runs with and its returned price is built from, satisfies
`0 ≤ p ≤ 1` if and only if `|r - q| * sqrt(dt) ≤ vol`, where `dt = T/(N-1)` (real `exp`
and `sqrt`). -/
theorem BinomialTree.probability_valid_iff (bt : BinomialTree ℝ) (N : Nat) (hN : 2 ≤ N)
    (hstep : bt.m_stepNumber = (N : Int)) (hwf : bt.WF) (vol r T q : ℝ)
    (hvol : 0 < vol) (hT : 0 < T) :
    ∃ p : ℝ,
      p = (Real.exp ((r - q) * (T / ((N : ℝ) - 1)))
            - Real.exp (-vol * Real.sqrt (T / ((N : ℝ) - 1))))
          / (Real.exp (vol * Real.sqrt (T / ((N : ℝ) - 1)))
            - Real.exp (-vol * Real.sqrt (T / ((N : ℝ) - 1)))) ∧
      (∀ (K S : ℝ) (call : Bool),
        (BinomialTree.value Libm.real bt K S vol r T q call).2.m_v
          = BinomialTree.value.backwardPass bt.m_stepNumber K p
              (Real.exp (-r * (T / ((N : ℝ) - 1)))) call
              (BinomialTree.value Libm.real bt K S vol r T q call).2.m_s
              (BinomialTree.value.terminalPass bt.m_stepNumber K call
                (BinomialTree.value Libm.real bt K S vol r T q call).2.m_s bt.m_v) ∧
        (BinomialTree.value Libm.real bt K S vol r T q call).1
          = BinomialTree.value.valueNode K p (Real.exp (-r * (T / ((N : ℝ) - 1)))) call
              (BinomialTree.value.assetNode (Real.exp (vol * Real.sqrt (T / ((N : ℝ) - 1))))
                (Real.exp (-vol * Real.sqrt (T / ((N : ℝ) - 1)))) S) (N - 1) 0 0) ∧
      ((0 ≤ p ∧ p ≤ 1) ↔ |r - q| * Real.sqrt (T / ((N : ℝ) - 1)) ≤ vol) := by
  have ecast : (((bt.m_stepNumber - 1 : Int)) : ℝ) = (N : ℝ) - 1 := by
    rw [hstep]; push_cast; ring
  have etoNat : bt.m_stepNumber.toNat - 1 = N - 1 := by rw [hstep]; simp
  refine ⟨_, rfl, ?_, ?_⟩
  · intro K S call
    constructor
    · have h := BinomialTree.value_uses_p Libm.real bt K S vol r T q call
      simp only [BinomialTree.value.p, Libm.real_exp, Libm.real_sqrt, ecast] at h
      exact h
    · have h := BinomialTree.value_eq_valueNode Libm.real bt hwf (by omega) K S vol r T q call
      simp only [Libm.real_exp, Libm.real_sqrt, ecast, etoNat] at h
      exact h
  · have hN1 : (0 : ℝ) < (N : ℝ) - 1 := by
      have : (2 : ℝ) ≤ (N : ℝ) := by exact_mod_cast hN
      linarith
    have hdt : 0 < T / ((N : ℝ) - 1) := div_pos hT hN1
    have hs : 0 < Real.sqrt (T / ((N : ℝ) - 1)) := Real.sqrt_pos.2 hdt
    have hss := Real.mul_self_sqrt hdt.le
    have h := BinomialTree.p_range_iff vol (r - q) _ hvol hs
    rw [hss] at h
    exact h

/-- Witness for C29: the default model (`N = 51`), `vol = 0.4`, `r = 0.1`,
`T = 0.4167`, `q = 0`. -/
theorem BinomialTree.probability_valid_iff_witness :
    2 ≤ 51 ∧ (BinomialTree.new : BinomialTree ℝ).m_stepNumber = ((51 : Nat) : Int) ∧
    (BinomialTree.new : BinomialTree ℝ).WF ∧ (0 : ℝ) < 0.4 ∧ (0 : ℝ) < 0.4167 ∧
    ∃ p : ℝ,
      p = (Real.exp ((0.1 - 0) * (0.4167 / (((51 : Nat) : ℝ) - 1)))
            - Real.exp (-0.4 * Real.sqrt (0.4167 / (((51 : Nat) : ℝ) - 1))))
          / (Real.exp (0.4 * Real.sqrt (0.4167 / (((51 : Nat) : ℝ) - 1)))
            - Real.exp (-0.4 * Real.sqrt (0.4167 / (((51 : Nat) : ℝ) - 1)))) ∧
      (∀ (K S : ℝ) (call : Bool),
        (BinomialTree.value Libm.real BinomialTree.new K S 0.4 0.1 0.4167 0 call).2.m_v
          = BinomialTree.value.backwardPass (BinomialTree.new : BinomialTree ℝ).m_stepNumber K p
              (Real.exp (-0.1 * (0.4167 / (((51 : Nat) : ℝ) - 1)))) call
              (BinomialTree.value Libm.real BinomialTree.new K S 0.4 0.1 0.4167 0 call).2.m_s
              (BinomialTree.value.terminalPass (BinomialTree.new : BinomialTree ℝ).m_stepNumber
                K call
                (BinomialTree.value Libm.real BinomialTree.new K S 0.4 0.1 0.4167 0 call).2.m_s
                (BinomialTree.new : BinomialTree ℝ).m_v) ∧
        (BinomialTree.value Libm.real BinomialTree.new K S 0.4 0.1 0.4167 0 call).1
          = BinomialTree.value.valueNode K p
              (Real.exp (-0.1 * (0.4167 / (((51 : Nat) : ℝ) - 1)))) call
              (BinomialTree.value.assetNode
                (Real.exp (0.4 * Real.sqrt (0.4167 / (((51 : Nat) : ℝ) - 1))))
                (Real.exp (-0.4 * Real.sqrt (0.4167 / (((51 : Nat) : ℝ) - 1)))) S)
              (51 - 1) 0 0) ∧
      ((0 ≤ p ∧ p ≤ 1) ↔ |(0.1 : ℝ) - 0| * Real.sqrt (0.4167 / (((51 : Nat) : ℝ) - 1)) ≤ 0.4) :=
  ⟨by norm_num, rfl, BinomialTree.new_WF, by norm_num, by norm_num,
    BinomialTree.probability_valid_iff BinomialTree.new 51 (by norm_num) rfl BinomialTree.new_WF
      0.4 0.1 0.4167 0 (by norm_num) (by norm_num)⟩

end Probability

/-! ## Index safety of the lattice pricer -/

section IndexSafety

/-- For every step count `N ≥ 2` the last pass of the asset loop (`m = N - 1`) starts
its inner loop at `n = m + 1 = N`, so `BinomialTree.value` stores into
`m_s[N - 1][N]`. -/
theorem BinomialTree.value.accesses_last_column (N : Int) (hN : 2 ≤ N) :
    (true, (N - 1).toNat, N.toNat) ∈ BinomialTree.value.accesses N := by
  obtain ⟨k, hk⟩ : ∃ k : Nat, N.toNat = k + 1 := ⟨N.toNat - 1, by omega⟩
  have hk1 : 1 ≤ k := by omega
  have hk' : (N - 1).toNat = k := by omega
  simp only [BinomialTree.value.accesses]
  rw [hk', hk, forUp_succ 1 k hk1]
  apply List.mem_append_left
  refine forDownTo0_preserve
    (fun (t : List BinomialTree.value.Access) => (true, k, k + 1) ∈ t) _ _ _ ?_ ?_
  · refine forUp_preserve
      (fun (t : List BinomialTree.value.Access) => (true, k, k + 1) ∈ t) _ _ _ _ ?_ ?_
    · apply List.mem_append_left
      rw [forDown]
      refine forDown_preserve
        (fun (t : List BinomialTree.value.Access) => (true, k, k + 1) ∈ t) _ _ _ ?_ ?_
      · simp
      · intro i t ht
        exact List.mem_append_left _ ht
    · intro i t ht
      exact List.mem_append_left _ ht
  · intro i t ht
    refine forUp_preserve
      (fun (t : List BinomialTree.value.Access) => (true, k, k + 1) ∈ t) _ _ _ _ ht ?_
    intro j t ht
    exact List.mem_append_left _ ht

/-- For every step count `N ≥ 2`, every cell `BinomialTree.value` reads or writes has
its row index in `0..N-1`, and its column index in `0..N-1` unless the access is the
store into `m_s[N - 1][N]`. -/
theorem BinomialTree.value.accesses_in_range (N : Int) (hN : 2 ≤ N) :
    ∀ a ∈ BinomialTree.value.accesses N,
      a.2.1 < N.toNat ∧ (a.2.2 < N.toNat ∨ a = (true, (N - 1).toNat, N.toNat)) := by
  obtain ⟨k, hk⟩ : ∃ k : Nat, N.toNat = k + 1 := ⟨N.toNat - 1, by omega⟩
  have hk1 : 1 ≤ k := by omega
  have hk' : (N - 1).toNat = k := by omega
  simp only [BinomialTree.value.accesses, hk', hk]
  have step : ∀ (t l : List BinomialTree.value.Access),
      (∀ a ∈ t, a.2.1 < k + 1 ∧ (a.2.2 < k + 1 ∨ a = (true, k, k + 1))) →
      (∀ a ∈ l, a.2.1 < k + 1 ∧ (a.2.2 < k + 1 ∨ a = (true, k, k + 1))) →
      ∀ a ∈ t ++ l, a.2.1 < k + 1 ∧ (a.2.2 < k + 1 ∨ a = (true, k, k + 1)) := by
    intro t l ht hl a ha
    rcases List.mem_append.1 ha with h | h
    · exact ht a h
    · exact hl a h
  apply step
  · refine forDownTo0_invariant
      (fun _ (t : List BinomialTree.value.Access) =>
        ∀ a ∈ t, a.2.1 < k + 1 ∧ (a.2.2 < k + 1 ∨ a = (true, k, k + 1))) _ _ _ ?_ ?_
    · refine forUp_invariant
        (fun _ (t : List BinomialTree.value.Access) =>
          ∀ a ∈ t, a.2.1 < k + 1 ∧ (a.2.2 < k + 1 ∨ a = (true, k, k + 1))) _ _ (Nat.zero_le _)
        _ _ ?_ ?_
      · refine forUp_invariant
          (fun _ (t : List BinomialTree.value.Access) =>
            ∀ a ∈ t, a.2.1 < k + 1 ∧ (a.2.2 < k + 1 ∨ a = (true, k, k + 1))) _ _ (by omega)
          _ _ ?_ ?_
        · intro a ha
          simp only [List.mem_singleton] at ha
          subst ha
          exact ⟨by simp, Or.inl (by simp)⟩
        · intro m t hm1 hm2 ht
          apply step
          · refine forDown_invariant
              (fun _ (t : List BinomialTree.value.Access) =>
                ∀ a ∈ t, a.2.1 < k + 1 ∧ (a.2.2 < k + 1 ∨ a = (true, k, k + 1))) _ _ _ ht ?_
            intro j t' hj ht'
            apply step _ _ ht'
            intro a ha
            simp only [List.mem_cons, List.mem_singleton, List.not_mem_nil, or_false] at ha
            rcases ha with ha | ha
            · subst ha
              exact ⟨by simp; omega, Or.inl (by simp; omega)⟩
            · subst ha
              refine ⟨by simp; omega, ?_⟩
              by_cases hlast : j + 1 < k + 1
              · exact Or.inl hlast
              · right
                have h1 : m = k := by omega
                have h2 : j = k := by omega
                subst h1 h2
                rfl
          · intro a ha
            simp only [List.mem_cons, List.mem_singleton, List.not_mem_nil, or_false] at ha
            rcases ha with ha | ha <;> subst ha <;>
              exact ⟨by simp; omega, Or.inl (by simp)⟩
      · intro n t _ hn ht
        apply step _ _ ht
        intro a ha
        simp only [List.mem_cons, List.mem_singleton, List.not_mem_nil, or_false] at ha
        rcases ha with ha | ha <;> subst ha <;>
          exact ⟨by simp, Or.inl (by simp; omega)⟩
    · intro m t hm ht
      refine forUp_invariant
        (fun _ (t : List BinomialTree.value.Access) =>
          ∀ a ∈ t, a.2.1 < k + 1 ∧ (a.2.2 < k + 1 ∨ a = (true, k, k + 1))) _ _ (Nat.zero_le _)
        _ _ ht ?_
      intro n t' _ hn ht'
      apply step _ _ ht'
      intro a ha
      simp only [List.mem_cons, List.mem_singleton, List.not_mem_nil, or_false] at ha
      rcases ha with ha | ha | ha | ha <;> subst ha <;>
        exact ⟨by simp; omega, Or.inl (by simp; omega)⟩
  · intro a ha
    simp only [List.mem_singleton] at ha
    subst ha
    exact ⟨by simp, Or.inl (by simp)⟩

/-- C30: with the default step count `N = 51`, `BinomialTree.value` accesses
`m_s[50][51]`, whose column index is not in `0..50` (the asset grid of the default
model has 51 columns); every other cell it reads or writes has both indices in
`0..50`. -/
theorem BinomialTree.value_accesses_column_out_of_range :
    (true, 50, 51) ∈ BinomialTree.value.accesses (BinomialTree.new : BinomialTree ℚ).m_stepNumber ∧
    (BinomialTree.new : BinomialTree ℚ).m_s.m_cols = 51 ∧ ¬ ((51 : Int) < 51) ∧
    ∀ a ∈ BinomialTree.value.accesses 51, a.2.1 < 51 ∧ (a.2.2 < 51 ∨ a = (true, 50, 51)) :=
  ⟨BinomialTree.value.accesses_last_column 51 (by norm_num), rfl, by decide,
    BinomialTree.value.accesses_in_range 51 (by norm_num)⟩

end IndexSafety

/-! ## The lattice put under immediate exercise -/

section ImmediateExercise

variable {α : Type} [LinearOrderedField α]

end ImmediateExercise

section ImmediateExerciseReal

end ImmediateExerciseReal

/-! ## Lattice convergence -/

section Convergence

end Convergence

/-! ## A call the lattice prices at zero -/

section CallOutOfMoney

/-- When no asset price of a `k`-step lattice exceeds the strike, every node of the
call recurrence is `0`. -/
theorem BinomialTree.value.valueNode_call_zero {α : Type} [LinearOrderedField α]
    (K p disc : α) (asset : Nat → Nat → α) (k : Nat)
    (hpay : ∀ m n, n ≤ m → m ≤ k → asset m n ≤ K) :
    ∀ j m n, n ≤ m → m + j ≤ k →
      BinomialTree.value.valueNode K p disc true asset j m n = 0 := by
  have hp0 : ∀ m n, n ≤ m → m ≤ k → BinomialTree.payOff K (asset m n) true = 0 := by
    intro m n hnm hm
    rw [BinomialTree.payOff_eq_specPayoff]
    simp only [BinomialTree.specPayoff, if_true]
    exact max_eq_right (by linarith [hpay m n hnm hm])
  intro j
  induction j with
  | zero =>
    intro m n hnm hm
    rw [BinomialTree.value.valueNode]
    exact hp0 m n hnm (by omega)
  | succ j ih =>
    intro m n hnm hm
    rw [BinomialTree.value.valueNode, ih (m + 1) n (by omega) (by omega),
      ih (m + 1) (n + 1) (by omega) (by omega), hp0 m n hnm (by omega),
      BinomialTree.dmax_eq_max]
    simp

/-- A call whose strike no asset price of the lattice reaches is priced `0`. -/
theorem BinomialTree.value_call_zero (bt : BinomialTree ℝ) (hwf : bt.WF) (k : Nat)
    (hN : bt.m_stepNumber = (k : Int) + 1) (K S vol r T q : ℝ) (hS : 0 ≤ S) (hvol : 0 ≤ vol)
    (hb : S * Real.exp ((k : ℝ) * (vol * Real.sqrt (T / (k : ℝ)))) ≤ K) :
    (BinomialTree.value Libm.real bt K S vol r T q true).1 = 0 := by
  rw [BinomialTree.value_eq_valueNode Libm.real bt hwf (by omega)]
  have e : (((bt.m_stepNumber - 1 : Int)) : ℝ) = (k : ℝ) := by
    rw [hN]; push_cast; ring
  have e2 : bt.m_stepNumber.toNat - 1 = k := by omega
  simp only [e, e2, Libm.real_exp, Libm.real_sqrt]
  apply BinomialTree.value.valueNode_call_zero _ _ _ _ k _ k 0 0 (le_refl 0) (by omega)
  intro m n hnm hm
  rw [BinomialTree.value.assetNode_closed _ _ _ m n hnm]
  have hx : 0 ≤ vol * Real.sqrt (T / (k : ℝ)) := mul_nonneg hvol (Real.sqrt_nonneg _)
  have hu1 : 1 ≤ Real.exp (vol * Real.sqrt (T / (k : ℝ))) := Real.one_le_exp hx
  have hd1 : Real.exp (-vol * Real.sqrt (T / (k : ℝ))) ≤ 1 := by
    rw [neg_mul]
    exact Real.exp_le_one_iff.2 (by linarith)
  have hd0 : 0 ≤ Real.exp (-vol * Real.sqrt (T / (k : ℝ))) := (Real.exp_pos _).le
  have h1 : Real.exp (vol * Real.sqrt (T / (k : ℝ))) ^ n
      ≤ Real.exp (vol * Real.sqrt (T / (k : ℝ))) ^ k :=
    pow_le_pow_right₀ hu1 (by omega)
  have h2 : Real.exp (-vol * Real.sqrt (T / (k : ℝ))) ^ (m - n) ≤ 1 := pow_le_one₀ hd0 hd1
  have h3 : Real.exp (vol * Real.sqrt (T / (k : ℝ))) ^ k
      = Real.exp ((k : ℝ) * (vol * Real.sqrt (T / (k : ℝ)))) := by
    rw [← Real.exp_nat_mul]
  have hun : 0 ≤ Real.exp (vol * Real.sqrt (T / (k : ℝ))) ^ n := pow_nonneg (by linarith) n
  have hdn : 0 ≤ Real.exp (-vol * Real.sqrt (T / (k : ℝ))) ^ (m - n) := pow_nonneg hd0 _
  calc S * Real.exp (vol * Real.sqrt (T / (k : ℝ))) ^ n
        * Real.exp (-vol * Real.sqrt (T / (k : ℝ))) ^ (m - n)
      ≤ S * Real.exp (vol * Real.sqrt (T / (k : ℝ))) ^ n * 1 :=
        mul_le_mul_of_nonneg_left h2 (mul_nonneg hS hun)
    _ = S * Real.exp (vol * Real.sqrt (T / (k : ℝ))) ^ n := mul_one _
    _ ≤ S * Real.exp (vol * Real.sqrt (T / (k : ℝ))) ^ k := mul_le_mul_of_nonneg_left h1 hS
    _ = S * Real.exp ((k : ℝ) * (vol * Real.sqrt (T / (k : ℝ)))) := by rw [h3]
    _ ≤ K := hb

/-- The inequality of C28 fails for calls too: for the call with `K = 3`, `S = 1`,
`vol = 0.04`, `r = 0.05`, `T = 1`, `q = 0` no asset price of the lattice reaches the
strike, on 10 steps or on 500, so the lattice returns `0` after `timeSteps(10)` and
after `timeSteps(500)` on the default model and the two errors are equal. -/
theorem BinomialTree.convergence_not_strict_call :
    ∃ bt10 bt500, (BinomialTree.new : BinomialTree ℝ).timeStepsSet 10 = some bt10 ∧
      (BinomialTree.new : BinomialTree ℝ).timeStepsSet 500 = some bt500 ∧
      (BinomialTree.value Libm.real bt10 3 1 0.04 0.05 1 0 true).1 = 0 ∧
      (BinomialTree.value Libm.real bt500 3 1 0.04 0.05 1 0 true).1 = 0 ∧
      ¬ (|(BinomialTree.value Libm.real bt500 3 1 0.04 0.05 1 0 true).1
            - BlackScholes.value Libm.real 3 1 0.04 0.05 1 0 true|
          < |(BinomialTree.value Libm.real bt10 3 1 0.04 0.05 1 0 true).1
            - BlackScholes.value Libm.real 3 1 0.04 0.05 1 0 true|) := by
  obtain ⟨bt10, e10, hinv10, hN10, -, -⟩ :=
    BinomialTree.timeStepsSet_spec (BinomialTree.new : BinomialTree ℝ) BinomialTree.new_Inv 10
      (by norm_num)
  obtain ⟨bt500, e500, hinv500, hN500, -, -⟩ :=
    BinomialTree.timeStepsSet_spec (BinomialTree.new : BinomialTree ℝ) BinomialTree.new_Inv 500
      (by norm_num)
  have he : Real.exp 1 ≤ 3 := by
    have := Real.exp_one_lt_d9
    linarith
  have v10 : (BinomialTree.value Libm.real bt10 3 1 0.04 0.05 1 0 true).1 = 0 := by
    apply BinomialTree.value_call_zero bt10 (BinomialTree.Inv.toWF bt10 hinv10) 10 hN10
      3 1 0.04 0.05 1 0 (by norm_num) (by norm_num)
    have hs : Real.sqrt (1 / ((10 : Nat) : ℝ)) ≤ 0.32 := by
      rw [Real.sqrt_le_left (by norm_num)]
      norm_num
    have hx : ((10 : Nat) : ℝ) * (0.04 * Real.sqrt (1 / ((10 : Nat) : ℝ))) ≤ 1 := by
      push_cast at hs ⊢
      linarith
    have := Real.exp_le_exp.2 hx
    linarith
  have v500 : (BinomialTree.value Libm.real bt500 3 1 0.04 0.05 1 0 true).1 = 0 := by
    apply BinomialTree.value_call_zero bt500 (BinomialTree.Inv.toWF bt500 hinv500) 500 hN500
      3 1 0.04 0.05 1 0 (by norm_num) (by norm_num)
    have hs : Real.sqrt (1 / ((500 : Nat) : ℝ)) ≤ 0.045 := by
      rw [Real.sqrt_le_left (by norm_num)]
      norm_num
    have hx : ((500 : Nat) : ℝ) * (0.04 * Real.sqrt (1 / ((500 : Nat) : ℝ))) ≤ 1 := by
      push_cast at hs ⊢
      linarith
    have := Real.exp_le_exp.2 hx
    linarith
  refine ⟨bt10, bt500, e10, e500, v10, v500, ?_⟩
  rw [v10, v500]
  exact lt_irrefl _

end CallOutOfMoney

/-! ## Soundness of the fixed-point enclosures -/

namespace Enclosure

theorem SC_pos : (0 : ℝ) < (SC : ℝ) := by
  simp only [SC]; norm_num

theorem le_ceil_mul (n : Nat) : n ≤ (n + (SC - 1)) / SC * SC := by
  simp only [SC]
  omega

theorem mulI_sound (a b : I) (x y : ℝ) (ha : Brk a x) (hb : Brk b y) :
    Brk (mulI a b) (x * y) := by
  have hs := SC_pos
  have hx0 : 0 ≤ x * (SC : ℝ) := le_trans (Nat.cast_nonneg _) ha.1
  have hy0 : 0 ≤ y * (SC : ℝ) := le_trans (Nat.cast_nonneg _) hb.1
  constructor
  · have h1 : (((a.1 * b.1 / SC : Nat)) : ℝ) ≤ ((a.1 * b.1 : Nat) : ℝ) / (SC : ℝ) :=
      Nat.cast_div_le
    have h2 : ((a.1 * b.1 : Nat) : ℝ) ≤ (x * (SC : ℝ)) * (y * (SC : ℝ)) := by
      push_cast
      exact mul_le_mul ha.1 hb.1 (Nat.cast_nonneg _) hx0
    simp only [mulI]
    calc (((a.1 * b.1 / SC : Nat)) : ℝ) ≤ ((a.1 * b.1 : Nat) : ℝ) / (SC : ℝ) := h1
      _ ≤ ((x * (SC : ℝ)) * (y * (SC : ℝ))) / (SC : ℝ) := by
        exact div_le_div_of_nonneg_right h2 hs.le
      _ = x * y * (SC : ℝ) := by field_simp; ring
  · have h1 : (x * (SC : ℝ)) * (y * (SC : ℝ)) ≤ ((a.2 * b.2 : Nat) : ℝ) := by
      push_cast
      exact mul_le_mul ha.2 hb.2 hy0 (Nat.cast_nonneg _)
    have h2 : ((a.2 * b.2 : Nat) : ℝ) ≤ (((a.2 * b.2 + (SC - 1)) / SC * SC : Nat) : ℝ) := by
      exact_mod_cast le_ceil_mul (a.2 * b.2)
    simp only [mulI]
    have h3 : x * y * (SC : ℝ) * (SC : ℝ)
        ≤ ((((a.2 * b.2 + (SC - 1)) / SC : Nat)) : ℝ) * (SC : ℝ) := by
      calc x * y * (SC : ℝ) * (SC : ℝ) = (x * (SC : ℝ)) * (y * (SC : ℝ)) := by ring
        _ ≤ ((a.2 * b.2 : Nat) : ℝ) := h1
        _ ≤ (((a.2 * b.2 + (SC - 1)) / SC * SC : Nat) : ℝ) := h2
        _ = ((((a.2 * b.2 + (SC - 1)) / SC : Nat)) : ℝ) * (SC : ℝ) := by push_cast; ring
    exact le_of_mul_le_mul_right h3 hs

theorem addI_sound (a b : I) (x y : ℝ) (ha : Brk a x) (hb : Brk b y) :
    Brk (addI a b) (x + y) := by
  simp only [Brk, addI, Nat.cast_add, add_mul]
  exact ⟨add_le_add ha.1 hb.1, add_le_add ha.2 hb.2⟩

theorem cast_tsub_eq_max (a b : Nat) : ((a - b : Nat) : ℝ) = max ((a : ℝ) - (b : ℝ)) 0 := by
  rcases le_total b a with h | h
  · rw [Nat.cast_sub h, max_eq_left]
    have : (b : ℝ) ≤ (a : ℝ) := by exact_mod_cast h
    linarith
  · rw [Nat.sub_eq_zero_of_le h, Nat.cast_zero, max_eq_right]
    have : (a : ℝ) ≤ (b : ℝ) := by exact_mod_cast h
    linarith

theorem oneSubI_sound (a : I) (x : ℝ) (ha : Brk a x) (h1 : a.2 ≤ SC) :
    Brk (oneSubI a) (1 - x) := by
  simp only [Brk, oneSubI, sub_mul, one_mul]
  constructor
  · rw [Nat.cast_sub h1]
    linarith [ha.2]
  · have : ((SC : ℝ)) - (a.1 : ℝ) ≤ ((SC - a.1 : Nat) : ℝ) := by
      rw [cast_tsub_eq_max]
      exact le_max_left _ _
    linarith [ha.1]

theorem maxI_sound (a b : I) (x y : ℝ) (ha : Brk a x) (hb : Brk b y) :
    Brk (maxI a b) (max x y) := by
  have hs := SC_pos
  simp only [Brk, maxI, Nat.cast_max]
  rw [max_mul_of_nonneg _ _ hs.le]
  exact ⟨max_le_max ha.1 hb.1, max_le_max ha.2 hb.2⟩

theorem payI_sound (K : Nat) (a : I) (x : ℝ) (ha : Brk a x) (call : Bool) :
    Brk (payI K a call) (BinomialTree.payOff (K : ℝ) x call) := by
  have hs := SC_pos
  have e : (0.0 : ℝ) = 0 := by norm_num
  cases call
  · simp only [Brk, payI, BinomialTree.payOff, Bool.false_eq_true, if_false,
      BinomialTree.dmax_eq_max, e, cast_tsub_eq_max, Nat.cast_mul]
    rw [max_mul_of_nonneg _ _ hs.le, zero_mul, sub_mul]
    exact ⟨max_le_max (by linarith [ha.2]) le_rfl, max_le_max (by linarith [ha.1]) le_rfl⟩
  · simp only [Brk, payI, BinomialTree.payOff, if_true, BinomialTree.dmax_eq_max, e,
      cast_tsub_eq_max, Nat.cast_mul]
    rw [max_mul_of_nonneg _ _ hs.le, zero_mul, sub_mul]
    exact ⟨max_le_max (by linarith [ha.1]) le_rfl, max_le_max (by linarith [ha.2]) le_rfl⟩

theorem nodeI_sound (K : Nat) (p disc : I) (call : Bool) (a v0 v1 : I)
    (rp rdisc ra rv0 rv1 : ℝ)
    (hp : Brk p rp) (hp1 : p.2 ≤ SC) (hdisc : Brk disc rdisc) (ha : Brk a ra)
    (hv0 : Brk v0 rv0) (hv1 : Brk v1 rv1) :
    Brk (nodeI K p disc call a v0 v1)
      (BinomialTree.dmax ((((1 - rp) * rv0) + (rp * rv1)) * rdisc)
        (BinomialTree.payOff (K : ℝ) ra call)) := by
  rw [BinomialTree.dmax_eq_max]
  exact maxI_sound _ _ _ _
    (mulI_sound _ _ _ _
      (addI_sound _ _ _ _ (mulI_sound _ _ _ _ (oneSubI_sound _ _ hp hp1) hv0)
        (mulI_sound _ _ _ _ hp hv1)) hdisc)
    (payI_sound K a ra ha call)

theorem getD_map_of_lt {β γ : Type} (f : β → γ) (l : List β) (n : Nat) (h : n < l.length)
    (d : γ) (d' : β) : (l.map f).getD n d = f (l.getD n d') := by
  rw [List.getD_eq_getElem?_getD, List.getD_eq_getElem?_getD, List.getElem?_map,
    List.getElem?_eq_getElem h]
  rfl

theorem getD_map_range {γ : Type} (f : Nat → γ) (k n : Nat) (h : n < k) (d : γ) :
    ((List.range k).map f).getD n d = f n := by
  rw [getD_map_of_lt f (List.range k) n (by simpa using h) d 0,
    List.getD_eq_getElem?_getD, List.getElem?_range h]
  rfl

theorem assetNext_sound (u d S : ℝ) (uI dI : I) (hu : Brk uI u) (hd : Brk dI d) (m : Nat)
    (r : List I) (hr : RowOK (BinomialTree.value.assetNode u d S) m r) :
    RowOK (BinomialTree.value.assetNode u d S) (m + 1) (assetNext uI dI r) := by
  obtain ⟨hlen, hr⟩ := hr
  refine ⟨by simp [assetNext, hlen], ?_⟩
  intro n hn
  cases n with
  | zero =>
    simp only [assetNext, List.getD_cons_zero, BinomialTree.value.assetNode]
    exact mulI_sound _ _ _ _ hd (hr 0 (Nat.zero_le m))
  | succ n =>
    simp only [assetNext, List.getD_cons_succ, BinomialTree.value.assetNode]
    rw [getD_map_of_lt _ r n (by omega) _ (0, 0)]
    exact mulI_sound _ _ _ _ hu (hr n (by omega))

theorem assetRows_sound (u d S : ℝ) (uI dI SI : I) (hu : Brk uI u) (hd : Brk dI d)
    (hS : Brk SI S) (k : Nat) :
    RowsOK (BinomialTree.value.assetNode u d S) (k + 1) (assetRows uI dI SI k) := by
  induction k with
  | zero =>
    refine ⟨[SI], [], rfl, ⟨rfl, ?_⟩, rfl⟩
    intro n hn
    have : n = 0 := Nat.le_zero.1 hn
    subst this
    simpa [BinomialTree.value.assetNode] using hS
  | succ k ih =>
    obtain ⟨r, rest, e, hr, hrest⟩ := ih
    refine ⟨assetNext uI dI r, r :: rest, ?_, assetNext_sound u d S uI dI hu hd k r hr,
      ⟨r, rest, rfl, hr, hrest⟩⟩
    rw [assetRows, e]

theorem valueNext_sound (K : Nat) (p disc : ℝ) (pI discI : I) (call : Bool) (hp : Brk pI p)
    (hp1 : pI.2 ≤ SC) (hdisc : Brk discI disc) (asset : Nat → Nat → ℝ) (k m : Nat)
    (arow v : List I) (ha : RowOK asset m arow)
    (hv : ∀ n, n ≤ m + 1 →
      Brk (v.getD n (0, 0)) (BinomialTree.value.valueNode (K : ℝ) p disc call asset k (m + 1) n)) :
    ∀ n, n ≤ m →
      Brk ((valueNext K pI discI call v arow).getD n (0, 0))
        (BinomialTree.value.valueNode (K : ℝ) p disc call asset (k + 1) m n) := by
  intro n hn
  obtain ⟨hlen, ha⟩ := ha
  simp only [valueNext, BinomialTree.value.valueNode]
  rw [getD_map_range _ _ n (by omega)]
  exact nodeI_sound K pI discI call _ _ _ p disc _ _ _ hp hp1 hdisc (ha n hn) (hv n (by omega))
    (hv (n + 1) (by omega))

theorem foldl_valueNext_sound (K : Nat) (p disc : ℝ) (pI discI : I) (call : Bool)
    (hp : Brk pI p) (hp1 : pI.2 ≤ SC) (hdisc : Brk discI disc) (asset : Nat → Nat → ℝ) :
    ∀ (m : Nat) (rs : List (List I)) (v : List I) (k : Nat), RowsOK asset m rs →
      (∀ n, n ≤ m →
        Brk (v.getD n (0, 0)) (BinomialTree.value.valueNode (K : ℝ) p disc call asset k m n)) →
      Brk ((rs.foldl (valueNext K pI discI call) v).getD 0 (0, 0))
        (BinomialTree.value.valueNode (K : ℝ) p disc call asset (k + m) 0 0) := by
  intro m
  induction m with
  | zero =>
    intro rs v k hrs hv
    simp only [RowsOK] at hrs
    subst hrs
    simpa using hv 0 le_rfl
  | succ m ih =>
    intro rs v k hrs hv
    obtain ⟨r, rest, e, hr, hrest⟩ := hrs
    subst e
    rw [List.foldl_cons]
    have h := ih rest (valueNext K pI discI call v r) (k + 1) hrest
      (valueNext_sound K p disc pI discI call hp hp1 hdisc asset k m r v hr hv)
    have e : k + 1 + m = k + (m + 1) := by omega
    rw [e] at h
    exact h

/-- The enclosure computed by `valueRoot` contains the root of the code's value
recurrence on `N + 1` levels. -/
theorem valueRoot_sound (K : Nat) (u d S p disc : ℝ) (uI dI SI pI discI : I) (call : Bool)
    (hu : Brk uI u) (hd : Brk dI d) (hS : Brk SI S) (hp : Brk pI p) (hp1 : pI.2 ≤ SC)
    (hdisc : Brk discI disc) (N : Nat) :
    Brk (valueRoot K pI discI call (assetRows uI dI SI N))
      (BinomialTree.value.valueNode (K : ℝ) p disc call (BinomialTree.value.assetNode u d S)
        N 0 0) := by
  obtain ⟨r, rest, e, hr, hrest⟩ := assetRows_sound u d S uI dI SI hu hd hS N
  rw [e]
  simp only [valueRoot]
  have h := foldl_valueNext_sound K p disc pI discI call hp hp1 hdisc
    (BinomialTree.value.assetNode u d S) N rest (r.map (fun a => payI K a call)) 0 hrest ?_
  · rw [Nat.zero_add] at h
    exact h
  · intro n hn
    rw [getD_map_of_lt _ r n (by rw [hr.1]; omega) _ (0, 0)]
    simp only [BinomialTree.value.valueNode]
    exact payI_sound K _ _ (hr.2 n hn) call

end Enclosure

/-! ## Enclosures of the constants of Hull's example 17.1 -/

section TaylorBounds

theorem exp_taylor_lower (x : ℝ) (hx : 0 ≤ x) :
    1 + x + x ^ 2 / 2 + x ^ 3 / 6 + x ^ 4 / 24 + x ^ 5 / 120 + x ^ 6 / 720 ≤ Real.exp x := by
  have h := Real.sum_le_exp_of_nonneg hx 7
  simp only [Finset.sum_range_succ, Finset.sum_range_zero, Nat.factorial] at h
  norm_num at h
  linarith

theorem exp_taylor_upper (x : ℝ) (hx0 : 0 ≤ x) (hx1 : x ≤ 1) :
    Real.exp x
      ≤ 1 + x + x ^ 2 / 2 + x ^ 3 / 6 + x ^ 4 / 24 + x ^ 5 / 120 + x ^ 6 / 720 + x ^ 7 / 4410 := by
  have h := Real.exp_bound' hx0 hx1 (show 0 < 7 by norm_num)
  simp only [Finset.sum_range_succ, Finset.sum_range_zero, Nat.factorial] at h
  norm_num at h
  linarith

/-- Enclosure of `exp x` from an enclosure `[a, b]` of `x` inside `[0, 1]` and rational
bounds on the Taylor polynomials at `a` and `b`. -/
theorem exp_enclosure (x a b lo hi : ℝ) (ha : 0 ≤ a) (hax : a ≤ x) (hxb : x ≤ b) (hb : b ≤ 1)
    (hlo : lo ≤ 1 + a + a ^ 2 / 2 + a ^ 3 / 6 + a ^ 4 / 24 + a ^ 5 / 120 + a ^ 6 / 720)
    (hhi : 1 + b + b ^ 2 / 2 + b ^ 3 / 6 + b ^ 4 / 24 + b ^ 5 / 120 + b ^ 6 / 720 + b ^ 7 / 4410
      ≤ hi) :
    lo ≤ Real.exp x ∧ Real.exp x ≤ hi :=
  ⟨hlo.trans ((exp_taylor_lower a ha).trans (Real.exp_le_exp.2 hax)),
    (Real.exp_le_exp.2 hxb).trans ((exp_taylor_upper b (ha.trans (hax.trans hxb)) hb).trans hhi)⟩

/-- Enclosure of `exp (-x)` from an enclosure of `exp x`. -/
theorem exp_neg_enclosure (x lo hi lo' hi' : ℝ) (h : lo ≤ Real.exp x ∧ Real.exp x ≤ hi)
    (h0 : 0 ≤ lo') (h0' : 0 ≤ hi') (hlo' : lo' * hi ≤ 1) (hhi' : 1 ≤ hi' * lo) :
    lo' ≤ Real.exp (-x) ∧ Real.exp (-x) ≤ hi' := by
  have hpos := Real.exp_pos x
  rw [Real.exp_neg, ← one_div, le_div_iff₀ hpos, div_le_iff₀ hpos]
  exact ⟨(mul_le_mul_of_nonneg_left h.2 h0).trans hlo',
    hhi'.trans (mul_le_mul_of_nonneg_left h.1 h0')⟩

end TaylorBounds

section HullConstants

theorem hull_sqrt_dt :
    (0.0912907443 : ℝ) ≤ Real.sqrt 0.008334 ∧ Real.sqrt 0.008334 ≤ 0.0912907444 := by
  constructor
  · rw [Real.le_sqrt (by norm_num) (by norm_num)]
    norm_num
  · rw [Real.sqrt_le_left (by norm_num)]
    norm_num

theorem hull_u :
    (1.0371912077 : ℝ) ≤ Real.exp (0.4 * Real.sqrt 0.008334) ∧
    Real.exp (0.4 * Real.sqrt 0.008334) ≤ 1.0371912078 := by
  obtain ⟨h1, h2⟩ := hull_sqrt_dt
  apply exp_enclosure _ (0.4 * 0.0912907443) (0.4 * 0.0912907444)
  · norm_num
  · linarith
  · linarith
  · norm_num
  · norm_num
  · norm_num

theorem hull_d :
    (0.9641423803 : ℝ) ≤ Real.exp (-0.4 * Real.sqrt 0.008334) ∧
    Real.exp (-0.4 * Real.sqrt 0.008334) ≤ 0.9641423805 := by
  rw [neg_mul]
  apply exp_neg_enclosure _ _ _ _ _ hull_u <;> norm_num

theorem hull_a :
    (1.0008337473 : ℝ) ≤ Real.exp ((0.1 - 0) * 0.008334) ∧
    Real.exp ((0.1 - 0) * 0.008334) ≤ 1.0008337474 := by
  apply exp_enclosure _ (0.1 * 0.008334) (0.1 * 0.008334) <;> norm_num

theorem hull_disc :
    (0.9991669471 : ℝ) ≤ Real.exp (-0.1 * 0.008334) ∧
    Real.exp (-0.1 * 0.008334) ≤ 0.9991669473 := by
  have h := hull_a
  rw [sub_zero] at h
  rw [neg_mul]
  apply exp_neg_enclosure _ _ _ _ _ h <;> norm_num

theorem hull_p :
    (0.502285495 : ℝ) ≤
      (Real.exp ((0.1 - 0) * 0.008334) - Real.exp (-0.4 * Real.sqrt 0.008334))
        / (Real.exp (0.4 * Real.sqrt 0.008334) - Real.exp (-0.4 * Real.sqrt 0.008334)) ∧
    (Real.exp ((0.1 - 0) * 0.008334) - Real.exp (-0.4 * Real.sqrt 0.008334))
        / (Real.exp (0.4 * Real.sqrt 0.008334) - Real.exp (-0.4 * Real.sqrt 0.008334))
      ≤ 0.50228551 := by
  obtain ⟨u1, u2⟩ := hull_u
  obtain ⟨d1, d2⟩ := hull_d
  obtain ⟨a1, a2⟩ := hull_a
  have hden : 0 < Real.exp (0.4 * Real.sqrt 0.008334) - Real.exp (-0.4 * Real.sqrt 0.008334) := by
    linarith
  rw [le_div_iff₀ hden, div_le_iff₀ hden]
  constructor <;> nlinarith

end HullConstants

/-! ## Hull's example 17.1 on the default lattice -/

section HullLattice

theorem Enclosure.brk_of_bounds (i : Enclosure.I) (x lo hi : ℝ) (h : lo ≤ x ∧ x ≤ hi)
    (hlo : (i.1 : ℝ) ≤ lo * (Enclosure.SC : ℝ)) (hhi : hi * (Enclosure.SC : ℝ) ≤ (i.2 : ℝ)) :
    Enclosure.Brk i x := by
  have hs := Enclosure.SC_pos
  exact ⟨hlo.trans (mul_le_mul_of_nonneg_right h.1 hs.le),
    (mul_le_mul_of_nonneg_right h.2 hs.le).trans hhi⟩

/-- The price `BinomialTree.value` returns for Hull's example 17.1 as a call on the
default model lies in the enclosure `hullRoot`. -/
theorem BinomialTree.hull_value_enclosed :
    Enclosure.Brk Enclosure.hullRoot
      (BinomialTree.value Libm.real BinomialTree.new 50 50 0.4 0.1 0.4167 0 true).1 := by
  rw [BinomialTree.value_eq_valueNode Libm.real BinomialTree.new BinomialTree.new_WF
    (by simp [BinomialTree.new])]
  have e : (0.4167 : ℝ) / ((((BinomialTree.new : BinomialTree ℝ).m_stepNumber - 1 : Int)) : ℝ)
      = 0.008334 := by
    simp only [BinomialTree.new]; norm_num
  have e2 : (BinomialTree.new : BinomialTree ℝ).m_stepNumber.toNat - 1 = 50 := by
    simp [BinomialTree.new]
  have e3 : (50 : ℝ) = ((50 : Nat) : ℝ) := by norm_num
  simp only [e, e2, Libm.real_exp, Libm.real_sqrt]
  rw [e3]
  have hsc : (Enclosure.SC : ℝ) = 1000000000000 := by simp [Enclosure.SC]
  refine Enclosure.valueRoot_sound 50 _ _ _ _ _ Enclosure.hullU Enclosure.hullD
    (50 * Enclosure.SC, 50 * Enclosure.SC) Enclosure.hullP Enclosure.hullDisc true
    ?_ ?_ ?_ ?_ ?_ ?_ 50
  · apply Enclosure.brk_of_bounds _ _ _ _ hull_u <;>
      simp only [Enclosure.hullU, hsc] <;> norm_num
  · apply Enclosure.brk_of_bounds _ _ _ _ hull_d <;>
      simp only [Enclosure.hullD, hsc] <;> norm_num
  · simp only [Enclosure.Brk, hsc, Enclosure.SC]
    norm_num
  · apply Enclosure.brk_of_bounds _ _ _ _ hull_p <;>
      simp only [Enclosure.hullP, hsc] <;> norm_num
  · simp only [Enclosure.hullP, Enclosure.SC]
    norm_num
  · apply Enclosure.brk_of_bounds _ _ _ _ hull_disc <;>
      simp only [Enclosure.hullDisc, hsc] <;> norm_num

set_option maxRecDepth 100000 in
/-- The enclosure `hullRoot` lies inside `[6.0913, 6.0914]`. -/
theorem Enclosure.hullRoot_bounds :
    6091300000000 ≤ Enclosure.hullRoot.1 ∧ Enclosure.hullRoot.2 ≤ 6091400000000 := by
  decide!

/-- On the default model the call of Hull's example 17.1 is priced between 6.0913
and 6.0914. -/
theorem BinomialTree.hull_value_bounds :
    6.0913 ≤ (BinomialTree.value Libm.real BinomialTree.new 50 50 0.4 0.1 0.4167 0 true).1 ∧
    (BinomialTree.value Libm.real BinomialTree.new 50 50 0.4 0.1 0.4167 0 true).1 ≤ 6.0914 := by
  obtain ⟨h1, h2⟩ := BinomialTree.hull_value_enclosed
  obtain ⟨b1, b2⟩ := Enclosure.hullRoot_bounds
  have c1 : ((6091300000000 : Nat) : ℝ) ≤ (Enclosure.hullRoot.1 : ℝ) := by exact_mod_cast b1
  have c2 : (Enclosure.hullRoot.2 : ℝ) ≤ ((6091400000000 : Nat) : ℝ) := by exact_mod_cast b2
  have hsc : (Enclosure.SC : ℝ) = 1000000000000 := by simp [Enclosure.SC]
  rw [hsc] at h1 h2
  push_cast at c1 c2
  constructor <;> linarith

end HullLattice

/-! ## Hull's example 17.1 as printed: a put on 5 steps -/

section HullPut

theorem hull5_sqrt_dt :
    (0.2886866813 : ℝ) ≤ Real.sqrt 0.08334 ∧ Real.sqrt 0.08334 ≤ 0.2886866814 := by
  constructor
  · rw [Real.le_sqrt (by norm_num) (by norm_num)]
    norm_num
  · rw [Real.sqrt_le_left (by norm_num)]
    norm_num

theorem hull5_u :
    (1.122406086 : ℝ) ≤ Real.exp (0.4 * Real.sqrt 0.08334) ∧
    Real.exp (0.4 * Real.sqrt 0.08334) ≤ 1.122406087 := by
  obtain ⟨h1, h2⟩ := hull5_sqrt_dt
  apply exp_enclosure _ (0.4 * 0.2886866813) (0.4 * 0.2886866814)
  · norm_num
  · linarith
  · linarith
  · norm_num
  · norm_num
  · norm_num

theorem hull5_d :
    (0.890943136 : ℝ) ≤ Real.exp (-0.4 * Real.sqrt 0.08334) ∧
    Real.exp (-0.4 * Real.sqrt 0.08334) ≤ 0.890943138 := by
  rw [neg_mul]
  apply exp_neg_enclosure _ _ _ _ _ hull5_u <;> norm_num

theorem hull5_a :
    (1.008368824 : ℝ) ≤ Real.exp ((0.1 - 0) * 0.08334) ∧
    Real.exp ((0.1 - 0) * 0.08334) ≤ 1.008368825 := by
  apply exp_enclosure _ (0.1 * 0.08334) (0.1 * 0.08334) <;> norm_num

theorem hull5_disc :
    (0.99170063 : ℝ) ≤ Real.exp (-0.1 * 0.08334) ∧
    Real.exp (-0.1 * 0.08334) ≤ 0.991700632 := by
  have h := hull5_a
  rw [sub_zero] at h
  rw [neg_mul]
  apply exp_neg_enclosure _ _ _ _ _ h <;> norm_num

theorem hull5_p :
    (0.507319575 : ℝ) ≤
      (Real.exp ((0.1 - 0) * 0.08334) - Real.exp (-0.4 * Real.sqrt 0.08334))
        / (Real.exp (0.4 * Real.sqrt 0.08334) - Real.exp (-0.4 * Real.sqrt 0.08334)) ∧
    (Real.exp ((0.1 - 0) * 0.08334) - Real.exp (-0.4 * Real.sqrt 0.08334))
        / (Real.exp (0.4 * Real.sqrt 0.08334) - Real.exp (-0.4 * Real.sqrt 0.08334))
      ≤ 0.507319595 := by
  obtain ⟨u1, u2⟩ := hull5_u
  obtain ⟨d1, d2⟩ := hull5_d
  obtain ⟨a1, a2⟩ := hull5_a
  have hden : 0 < Real.exp (0.4 * Real.sqrt 0.08334) - Real.exp (-0.4 * Real.sqrt 0.08334) := by
    linarith
  rw [le_div_iff₀ hden, div_le_iff₀ hden]
  constructor <;> linarith

/-- On a model with 6 levels that satisfies the invariant, the price
`BinomialTree.value` returns for Hull's example 17.1 as a put lies in the enclosure
`hull5Root`. -/
theorem BinomialTree.hull_put_enclosed (bt : BinomialTree ℝ) (hwf : bt.WF)
    (hN : bt.m_stepNumber = 6) :
    Enclosure.Brk Enclosure.hull5Root
      (BinomialTree.value Libm.real bt 50 50 0.4 0.1 0.4167 0 false).1 := by
  rw [BinomialTree.value_eq_valueNode Libm.real bt hwf (by omega)]
  have e : (0.4167 : ℝ) / ((((bt.m_stepNumber - 1 : Int)) : ℝ)) = 0.08334 := by
    rw [hN]; norm_num
  have e2 : bt.m_stepNumber.toNat - 1 = 5 := by
    rw [hN]; rfl
  have e3 : (50 : ℝ) = ((50 : Nat) : ℝ) := by norm_num
  simp only [e, e2, Libm.real_exp, Libm.real_sqrt]
  rw [e3]
  have hsc : (Enclosure.SC : ℝ) = 1000000000000 := by simp [Enclosure.SC]
  refine Enclosure.valueRoot_sound 50 _ _ _ _ _ Enclosure.hull5U Enclosure.hull5D
    (50 * Enclosure.SC, 50 * Enclosure.SC) Enclosure.hull5P Enclosure.hull5Disc false
    ?_ ?_ ?_ ?_ ?_ ?_ 5
  · apply Enclosure.brk_of_bounds _ _ _ _ hull5_u <;>
      simp only [Enclosure.hull5U, hsc] <;> norm_num
  · apply Enclosure.brk_of_bounds _ _ _ _ hull5_d <;>
      simp only [Enclosure.hull5D, hsc] <;> norm_num
  · simp only [Enclosure.Brk, hsc, Enclosure.SC]
    norm_num
  · apply Enclosure.brk_of_bounds _ _ _ _ hull5_p <;>
      simp only [Enclosure.hull5P, hsc] <;> norm_num
  · simp only [Enclosure.hull5P, Enclosure.SC]
    norm_num
  · apply Enclosure.brk_of_bounds _ _ _ _ hull5_disc <;>
      simp only [Enclosure.hull5Disc, hsc] <;> norm_num

/-- The enclosure `hull5Root` lies inside `[4.4885, 4.4887]`. -/
theorem Enclosure.hull5Root_bounds :
    4488500000000 ≤ Enclosure.hull5Root.1 ∧ Enclosure.hull5Root.2 ≤ 4488700000000 := by
  decide!

/-- After `timeSteps(5)` on the default model the put of Hull's example 17.1 is
priced between 4.4885 and 4.4887. -/
theorem BinomialTree.hull_put_bounds :
    ∃ bt5, (BinomialTree.new : BinomialTree ℝ).timeStepsSet 5 = some bt5 ∧
      4.4885 ≤ (BinomialTree.value Libm.real bt5 50 50 0.4 0.1 0.4167 0 false).1 ∧
      (BinomialTree.value Libm.real bt5 50 50 0.4 0.1 0.4167 0 false).1 ≤ 4.4887 := by
  obtain ⟨bt5, e, hinv, hN, -, -⟩ :=
    BinomialTree.timeStepsSet_spec (BinomialTree.new : BinomialTree ℝ) BinomialTree.new_Inv 5
      (by norm_num)
  refine ⟨bt5, e, ?_⟩
  obtain ⟨h1, h2⟩ := BinomialTree.hull_put_enclosed bt5 (BinomialTree.Inv.toWF bt5 hinv)
    (by rw [hN]; norm_num)
  obtain ⟨b1, b2⟩ := Enclosure.hull5Root_bounds
  have c1 : ((4488500000000 : Nat) : ℝ) ≤ (Enclosure.hull5Root.1 : ℝ) := by exact_mod_cast b1
  have c2 : (Enclosure.hull5Root.2 : ℝ) ≤ ((4488700000000 : Nat) : ℝ) := by exact_mod_cast b2
  have hsc : (Enclosure.SC : ℝ) = 1000000000000 := by simp [Enclosure.SC]
  rw [hsc] at h1 h2
  push_cast at c1 c2
  constructor <;> linarith

end HullPut

/-! ## Claims on Hull's example 17.1 -/

section HullLatticeClaims

/-- C27 (as stated) fails: with the default step count the call of Hull's example
17.1 is not within 0.05 of 4.49. -/
theorem BinomialTree.hull_call_not_near_4_49 :
    ¬ (|(BinomialTree.value Libm.real BinomialTree.new 50 50 0.4 0.1 0.4167 0 true).1 - 4.49|
        ≤ 0.05) := by
  obtain ⟨h1, _⟩ := BinomialTree.hull_value_bounds
  intro h
  rw [abs_le] at h
  linarith [h.2]

/-- C27 (amended): with the default step count (`N = 51`),
`BinomialTree.value(strike = 50, assetPrice = 50, vol = 0.4, rate = 0.1, T = 0.4167,
yield = 0, call)` lies within 0.05 of 6.09; the value within 0.05 of 4.49 is the one
returned for the same arguments priced as a put after `timeSteps(5)`. -/
theorem BinomialTree.hull_example_17_1 :
    |(BinomialTree.value Libm.real BinomialTree.new 50 50 0.4 0.1 0.4167 0 true).1 - 6.09|
        ≤ 0.05 ∧
    ∃ bt5, (BinomialTree.new : BinomialTree ℝ).timeStepsSet 5 = some bt5 ∧
      |(BinomialTree.value Libm.real bt5 50 50 0.4 0.1 0.4167 0 false).1 - 4.49| ≤ 0.05 := by
  obtain ⟨h1, h2⟩ := BinomialTree.hull_value_bounds
  obtain ⟨bt5, e, h3, h4⟩ := BinomialTree.hull_put_bounds
  refine ⟨?_, bt5, e, ?_⟩
  · rw [abs_le]
    constructor <;> linarith
  · rw [abs_le]
    constructor <;> linarith

end HullLatticeClaims

/-! ## Hull's example 14.1 in the Spot model -/

section HullSpot

/-- Enclosure of `BlackScholes.N x` for `x ≥ 0` from an enclosure `[xLo, xHi]` of `x`,
an enclosure `[cLo, cHi]` of `1/sqrt(2 pi)`, and rational bounds: `[ELo, EHi]` for
`exp(x^2/2)` (through its Taylor polynomials), `[eLo, eHi]` for its inverse,
`[kLo, kHi]` for `k = 1/(1 + 0.2316419 x)`, and `[nLo, nHi]` for the result. -/
theorem BlackScholes.N_enclosure (x xLo xHi ELo EHi eLo eHi kLo kHi cLo cHi nLo nHi : ℝ)
    (h0 : 0 ≤ xLo) (hx : xLo ≤ x ∧ x ≤ xHi) (hx1 : xHi * xHi / 2 ≤ 1)
    (hc : cLo ≤ 1 / Real.sqrt (2 * Real.pi) ∧ 1 / Real.sqrt (2 * Real.pi) ≤ cHi)
    (hc0 : 0 ≤ cLo)
    (hE1 : ELo ≤ 1 + (xLo * xLo / 2) + (xLo * xLo / 2) ^ 2 / 2 + (xLo * xLo / 2) ^ 3 / 6
      + (xLo * xLo / 2) ^ 4 / 24 + (xLo * xLo / 2) ^ 5 / 120 + (xLo * xLo / 2) ^ 6 / 720)
    (hE2 : 1 + (xHi * xHi / 2) + (xHi * xHi / 2) ^ 2 / 2 + (xHi * xHi / 2) ^ 3 / 6
      + (xHi * xHi / 2) ^ 4 / 24 + (xHi * xHi / 2) ^ 5 / 120 + (xHi * xHi / 2) ^ 6 / 720
      + (xHi * xHi / 2) ^ 7 / 4410 ≤ EHi)
    (he0 : 0 ≤ eLo) (he0' : 0 ≤ eHi) (he1 : eLo * EHi ≤ 1) (he2 : 1 ≤ eHi * ELo)
    (hk0 : 0 ≤ kLo) (hk0' : 0 ≤ kHi) (hk1 : kLo * (1 + 0.2316419 * xHi) ≤ 1)
    (hk2 : 1 ≤ kHi * (1 + 0.2316419 * xLo))
    (hP : 0 ≤ 0.31938153 * kLo + -0.356563782 * (kHi * kHi) + 1.781477937 * kLo ^ 3
      + -1.821255978 * kHi ^ 4 + 1.330274429 * kLo ^ 5)
    (hn1 : nLo ≤ 1 - cHi * (eHi * (0.31938153 * kHi + -0.356563782 * (kLo * kLo)
      + 1.781477937 * kHi ^ 3 + -1.821255978 * kLo ^ 4 + 1.330274429 * kHi ^ 5)))
    (hn2 : 1 - cLo * (eLo * (0.31938153 * kLo + -0.356563782 * (kHi * kHi)
      + 1.781477937 * kLo ^ 3 + -1.821255978 * kHi ^ 4 + 1.330274429 * kLo ^ 5)) ≤ nHi) :
    nLo ≤ BlackScholes.N Libm.real x ∧ BlackScholes.N Libm.real x ≤ nHi := by
  have hx0 : 0 ≤ x := h0.trans hx.1
  have hxHi : 0 ≤ xHi := hx0.trans hx.2
  -- the exponential factor
  have hy1 : xLo * xLo / 2 ≤ x * x / 2 := by
    have := mul_le_mul hx.1 hx.1 h0 hx0
    linarith
  have hy2 : x * x / 2 ≤ xHi * xHi / 2 := by
    have := mul_le_mul hx.2 hx.2 hx0 hxHi
    linarith
  have hE := exp_enclosure (x * x / 2) (xLo * xLo / 2) (xHi * xHi / 2) ELo EHi
    (by positivity) hy1 hy2 hx1 hE1 hE2
  have he := exp_neg_enclosure (x * x / 2) ELo EHi eLo eHi hE he0 he0' he1 he2
  -- the rational factor k
  have hden : 0 < 1 + 0.2316419 * x := by positivity
  have hk : kLo ≤ 1 / (1 + 0.2316419 * x) ∧ 1 / (1 + 0.2316419 * x) ≤ kHi := by
    rw [le_div_iff₀ hden, div_le_iff₀ hden]
    constructor
    · have := mul_le_mul_of_nonneg_left hx.2 hk0
      linarith
    · have := mul_le_mul_of_nonneg_left hx.1 hk0'
      linarith
  have e1 : (1.0 : ℝ) = 1 := by norm_num
  have eneg : -x * x / 2 = -(x * x / 2) := by ring
  simp only [BlackScholes.N, Libm.real_exp, Libm.real_sqrt, Libm.real_pi, e1, abs_of_nonneg hx0,
    not_lt.2 hx0, if_false, eneg]
  generalize 1 / (1 + 0.2316419 * x) = k at hk
  generalize Real.exp (-(x * x / 2)) = e at he
  generalize 1 / Real.sqrt (2 * Real.pi) = c at hc
  obtain ⟨k1, k2⟩ := hk
  have hk_nn : 0 ≤ k := hk0.trans k1
  have p2a : kLo * kLo ≤ k * k := mul_le_mul k1 k1 hk0 hk_nn
  have p2b : k * k ≤ kHi * kHi := mul_le_mul k2 k2 hk_nn hk0'
  have p3a : kLo ^ 3 ≤ k ^ 3 := pow_le_pow_left₀ hk0 k1 3
  have p3b : k ^ 3 ≤ kHi ^ 3 := pow_le_pow_left₀ hk_nn k2 3
  have p4a : kLo ^ 4 ≤ k ^ 4 := pow_le_pow_left₀ hk0 k1 4
  have p4b : k ^ 4 ≤ kHi ^ 4 := pow_le_pow_left₀ hk_nn k2 4
  have p5a : kLo ^ 5 ≤ k ^ 5 := pow_le_pow_left₀ hk0 k1 5
  have p5b : k ^ 5 ≤ kHi ^ 5 := pow_le_pow_left₀ hk_nn k2 5
  have hPlo : 0.31938153 * kLo + -0.356563782 * (kHi * kHi) + 1.781477937 * kLo ^ 3
      + -1.821255978 * kHi ^ 4 + 1.330274429 * kLo ^ 5
      ≤ 0.31938153 * k + -0.356563782 * k * k + 1.781477937 * k ^ 3
      + -1.821255978 * k ^ 4 + 1.330274429 * k ^ 5 := by linarith
  have hPhi : 0.31938153 * k + -0.356563782 * k * k + 1.781477937 * k ^ 3
      + -1.821255978 * k ^ 4 + 1.330274429 * k ^ 5
      ≤ 0.31938153 * kHi + -0.356563782 * (kLo * kLo) + 1.781477937 * kHi ^ 3
      + -1.821255978 * kLo ^ 4 + 1.330274429 * kHi ^ 5 := by linarith
  generalize 0.31938153 * k + -0.356563782 * k * k + 1.781477937 * k ^ 3
      + -1.821255978 * k ^ 4 + 1.330274429 * k ^ 5 = P at hPlo hPhi
  generalize 0.31938153 * kLo + -0.356563782 * (kHi * kHi) + 1.781477937 * kLo ^ 3
      + -1.821255978 * kHi ^ 4 + 1.330274429 * kLo ^ 5 = PLo at hP hn2 hPlo
  generalize 0.31938153 * kHi + -0.356563782 * (kLo * kLo) + 1.781477937 * kHi ^ 3
      + -1.821255978 * kLo ^ 4 + 1.330274429 * kHi ^ 5 = PHi at hn1 hPhi
  have hP0 : 0 ≤ P := hP.trans hPlo
  have he_nn : 0 ≤ e := he0.trans he.1
  have hc_nn : 0 ≤ c := hc0.trans hc.1
  have hprod1 : cLo * (eLo * PLo) ≤ c * e * P := by
    rw [mul_assoc]
    exact mul_le_mul hc.1 (mul_le_mul he.1 hPlo hP he_nn) (mul_nonneg he0 hP) hc_nn
  have hprod2 : c * e * P ≤ cHi * (eHi * PHi) := by
    rw [mul_assoc]
    exact mul_le_mul hc.2 (mul_le_mul he.2 hPhi hP0 he0') (mul_nonneg he_nn hP0)
      (hc_nn.trans hc.2)
  constructor <;> linarith

theorem hull_log :
    (0.0327898227 : ℝ) ≤ Real.log (930 / 900) ∧ Real.log (930 / 900) ≤ 0.0327898229 := by
  have h := Real.abs_log_sub_add_sum_range_le (show |(1 / 31 : ℝ)| < 1 by
    rw [abs_of_pos] <;> norm_num) 6
  have e : Real.log (1 - 1 / 31) = -Real.log (930 / 900) := by
    rw [← Real.log_inv]
    norm_num
  rw [e, abs_of_pos (show (0 : ℝ) < 1 / 31 by norm_num), abs_le] at h
  simp only [Finset.sum_range_succ, Finset.sum_range_zero] at h
  norm_num at h
  obtain ⟨h1, h2⟩ := h
  constructor <;> linarith

theorem hull_sqrt_T :
    (0.4082482904 : ℝ) ≤ Real.sqrt (2 / 12) ∧ Real.sqrt (2 / 12) ≤ 0.4082482905 := by
  constructor
  · rw [Real.le_sqrt (by norm_num) (by norm_num)]
    norm_num
  · rw [Real.sqrt_le_left (by norm_num)]
    norm_num

theorem hull_d1 :
    (0.5444785734 : ℝ) ≤ BlackScholes.d1 Libm.real 900 930 0.2 0.08 (2 / 12) 0.03 ∧
    BlackScholes.d1 Libm.real 900 930 0.2 0.08 (2 / 12) 0.03 ≤ 0.5444785761 := by
  obtain ⟨l1, l2⟩ := hull_log
  obtain ⟨s1, s2⟩ := hull_sqrt_T
  simp only [BlackScholes.d1, Libm.real_log, Libm.real_sqrt]
  have hden : (0 : ℝ) < 0.2 * Real.sqrt (2 / 12) := by linarith
  rw [le_div_iff₀ hden, div_le_iff₀ hden]
  constructor <;> linarith

theorem hull_d2 :
    (0.4628289153 : ℝ) ≤ BlackScholes.d2 Libm.real 900 930 0.2 0.08 (2 / 12) 0.03 ∧
    BlackScholes.d2 Libm.real 900 930 0.2 0.08 (2 / 12) 0.03 ≤ 0.4628289181 := by
  obtain ⟨d1, d2⟩ := hull_d1
  obtain ⟨s1, s2⟩ := hull_sqrt_T
  simp only [BlackScholes.d2, Libm.real_sqrt]
  constructor <;> linarith

theorem inv_sqrt_two_pi :
    (0.3989422803 : ℝ) ≤ 1 / Real.sqrt (2 * Real.pi) ∧
    1 / Real.sqrt (2 * Real.pi) ≤ 0.3989422805 := by
  have hpi1 := Real.pi_gt_d20
  have hpi2 := Real.pi_lt_d20
  have s1 : (2.5066282746 : ℝ) ≤ Real.sqrt (2 * Real.pi) := by
    rw [Real.le_sqrt (by norm_num) (by positivity)]
    norm_num at hpi1 ⊢
    linarith
  have s2 : Real.sqrt (2 * Real.pi) ≤ 2.5066282747 := by
    rw [Real.sqrt_le_left (by norm_num)]
    norm_num at hpi2 ⊢
    linarith
  have hpos : (0 : ℝ) < Real.sqrt (2 * Real.pi) := by linarith
  rw [le_div_iff₀ hpos, div_le_iff₀ hpos]
  constructor <;> linarith

theorem hull_N_d1 :
    (0.7069439335 : ℝ) ≤ BlackScholes.N Libm.real
      (BlackScholes.d1 Libm.real 900 930 0.2 0.08 (2 / 12) 0.03) ∧
    BlackScholes.N Libm.real (BlackScholes.d1 Libm.real 900 930 0.2 0.08 (2 / 12) 0.03)
      ≤ 0.7069439373 := by
  apply BlackScholes.N_enclosure _ 0.5444785734 0.5444785761 1.1597778268 1.1597778289
    0.8622341064 0.8622341081 0.8880016356 0.8880016362 0.3989422803 0.3989422805 _ _
    (by norm_num) hull_d1 (by norm_num) inv_sqrt_two_pi <;> norm_num

theorem hull_N_d2 :
    (0.6782564832 : ℝ) ≤ BlackScholes.N Libm.real
      (BlackScholes.d2 Libm.real 900 930 0.2 0.08 (2 / 12) 0.03) ∧
    BlackScholes.N Libm.real (BlackScholes.d2 Libm.real 900 930 0.2 0.08 (2 / 12) 0.03)
      ≤ 0.6782564872 := by
  apply BlackScholes.N_enclosure _ 0.4628289153 0.4628289181 1.1130514552 1.1130514568
    0.8984310598 0.8984310612 0.9031705685 0.9031705691 0.3989422803 0.3989422805 _ _
    (by norm_num) hull_d2 (by norm_num) inv_sqrt_two_pi <;> norm_num

theorem hull_yield_factor :
    (0.9950124791 : ℝ) ≤ Real.exp (-0.03 * (2 / 12)) ∧
    Real.exp (-0.03 * (2 / 12)) ≤ 0.9950124793 := by
  have h := exp_enclosure (0.03 * (2 / 12)) (0.03 * (2 / 12)) (0.03 * (2 / 12))
    1.0050125208 1.0050125209 (by norm_num) le_rfl le_rfl (by norm_num) (by norm_num)
    (by norm_num)
  rw [neg_mul]
  apply exp_neg_enclosure _ _ _ _ _ h <;> norm_num

theorem hull_rate_factor :
    (0.9867551617 : ℝ) ≤ Real.exp (-0.08 * (2 / 12)) ∧
    Real.exp (-0.08 * (2 / 12)) ≤ 0.9867551619 := by
  have h := exp_enclosure (0.08 * (2 / 12)) (0.08 * (2 / 12)) (0.08 * (2 / 12))
    1.0134226186 1.0134226187 (by norm_num) le_rfl le_rfl (by norm_num) (by norm_num)
    (by norm_num)
  rw [neg_mul]
  apply exp_neg_enclosure _ _ _ _ _ h <;> norm_num

/-- The Spot-model price of Hull's example 14.1 lies between 51.8329 and 51.8331. -/
theorem BlackScholes.hull_spot_value_bounds :
    51.8329 ≤ BlackScholes.value Libm.real 900 930 0.2 0.08 (2 / 12) 0.03 true ∧
    BlackScholes.value Libm.real 900 930 0.2 0.08 (2 / 12) 0.03 true ≤ 51.8331 := by
  rw [BlackScholes.value_eq_d]
  simp only [if_true, Libm.real_exp]
  obtain ⟨n1, n1'⟩ := hull_N_d1
  obtain ⟨n2, n2'⟩ := hull_N_d2
  obtain ⟨y1, y1'⟩ := hull_yield_factor
  obtain ⟨r1, r1'⟩ := hull_rate_factor
  generalize BlackScholes.N Libm.real (BlackScholes.d1 Libm.real 900 930 0.2 0.08 (2 / 12) 0.03)
    = N1 at n1 n1'
  generalize BlackScholes.N Libm.real (BlackScholes.d2 Libm.real 900 930 0.2 0.08 (2 / 12) 0.03)
    = N2 at n2 n2'
  generalize Real.exp (-0.03 * (2 / 12)) = E1 at y1 y1'
  generalize Real.exp (-0.08 * (2 / 12)) = E2 at r1 r1'
  have a1 : 0.9950124791 * 0.7069439335 ≤ E1 * N1 :=
    mul_le_mul y1 n1 (by norm_num) (by linarith)
  have a2 : E1 * N1 ≤ 0.9950124793 * 0.7069439373 :=
    mul_le_mul y1' n1' (by linarith) (by norm_num)
  have b1 : 0.9867551617 * 0.6782564832 ≤ E2 * N2 :=
    mul_le_mul r1 n2 (by norm_num) (by linarith)
  have b2 : E2 * N2 ≤ 0.9867551619 * 0.6782564872 :=
    mul_le_mul r1' n2' (by linarith) (by norm_num)
  constructor <;> linarith

/-- C26: Hull's example 14.1, `BlackScholes.value(strike = 900, assetPrice = 930,
vol = 0.2, rate = 0.08, T = 2/12, yield = 0.03, call)` with the real `exp`, `log`,
`sqrt` and `pi`, lies within 0.01 of 51.83. -/
theorem BlackScholes.hull_example_14_1 :
    |BlackScholes.value Libm.real 900 930 0.2 0.08 (2 / 12) 0.03 true - 51.83| ≤ 0.01 := by
  obtain ⟨h1, h2⟩ := BlackScholes.hull_spot_value_bounds
  rw [abs_le]
  constructor <;> linarith

end HullSpot

/-! ## The call on an asset without yield: no early exercise -/

namespace BinomialTree

variable {α : Type} [LinearOrderedField α]

end BinomialTree

/-! ## Soundness of the fixed-point binomial sum -/

namespace Enclosure

end Enclosure


/-! ## Enclosures of the lattice constants for 10 and 500 steps -/

section HullConvergenceConstants

end HullConvergenceConstants

/-! ## Enclosures of the call price on 10 and 500 steps -/

section CallEnclosure

end CallEnclosure

/-! ## The Spot price at the inputs of Hull's example 17.1 -/

section HullConvergenceSpot

end HullConvergenceSpot

/-! ## Convergence at the inputs of Hull's example 17.1 -/

section HullConvergence

end HullConvergence

/-! ## Symmetry of the approximate normal distribution, and the Forward model as the
Spot model with yield equal to the rate -/

section AnalyticClaims2

variable {α : Type} [LinearOrderedField α]

/-- C33: for every `x ≠ 0`, `N(x) + N(-x) = 1` exactly, for `BlackScholes.N` and for
`Black.N`; so put-call parity holds exactly in both models whenever `d1 ≠ 0` and
`d2 ≠ 0`. -/
theorem normal_symmetry_and_parity (L : Libm α) :
    (∀ x : α, x ≠ 0 →
      BlackScholes.N L x + BlackScholes.N L (-x) = 1 ∧ Black.N L x + Black.N L (-x) = 1) ∧
    (∀ K S vol r T q : α, BlackScholes.d1 L K S vol r T q ≠ 0 →
      BlackScholes.d2 L K S vol r T q ≠ 0 →
      BlackScholes.value L K S vol r T q true - BlackScholes.value L K S vol r T q false
        = S * L.exp (-q * T) - K * L.exp (-r * T)) ∧
    (∀ K F vol r T : α, Black.d1 L K F vol T ≠ 0 → Black.d2 L K F vol T ≠ 0 →
      Black.value L K F vol r T true - Black.value L K F vol r T false
        = (F - K) * L.exp (-r * T)) := by
  refine ⟨fun x hx => ⟨BlackScholes.N_add_N_neg L x hx, Black.fwd_N_add_N_neg L x hx⟩, ?_, ?_⟩
  · intro K S vol r T q h1 h2
    rw [BlackScholes.value_eq_d, BlackScholes.value_eq_d]
    simp only [if_true, Bool.false_eq_true, if_false]
    have e1 := BlackScholes.N_add_N_neg L _ h1
    have e2 := BlackScholes.N_add_N_neg L _ h2
    linear_combination (S * L.exp (-q * T)) * e1 - (K * L.exp (-r * T)) * e2
  · intro K F vol r T h1 h2
    rw [Black.fwd_value_eq_d, Black.fwd_value_eq_d]
    simp only [if_true, Bool.false_eq_true, if_false]
    have e1 := Black.fwd_N_add_N_neg L _ h1
    have e2 := Black.fwd_N_add_N_neg L _ h2
    linear_combination (F * L.exp (-r * T)) * e1 - (K * L.exp (-r * T)) * e2

end AnalyticClaims2

section AnalyticWitnesses2

/-- Witness for C33: `x = 1`, and parity at `K = S = F = 1`, `vol = 1`, `r = 0`,
`T = 1`, `q = 0`, where `d1 = 1/2` and `d2 = -1/2`. -/
theorem normal_symmetry_and_parity_witness :
    ((1 : ℝ) ≠ 0 ∧ BlackScholes.N Libm.real 1 + BlackScholes.N Libm.real (-1) = 1 ∧
      Black.N Libm.real 1 + Black.N Libm.real (-1) = 1) ∧
    (BlackScholes.d1 Libm.real 1 1 1 0 1 0 ≠ 0 ∧ BlackScholes.d2 Libm.real 1 1 1 0 1 0 ≠ 0 ∧
      BlackScholes.value Libm.real 1 1 1 0 1 0 true
          - BlackScholes.value Libm.real 1 1 1 0 1 0 false
        = 1 * Libm.real.exp (-0 * 1) - 1 * Libm.real.exp (-0 * 1)) ∧
    (Black.d1 Libm.real 1 1 1 1 ≠ 0 ∧ Black.d2 Libm.real 1 1 1 1 ≠ 0 ∧
      Black.value Libm.real 1 1 1 0 1 true - Black.value Libm.real 1 1 1 0 1 false
        = (1 - 1) * Libm.real.exp (-0 * 1)) :=
  have h1 : BlackScholes.d1 Libm.real 1 1 1 0 1 0 ≠ 0 := by
    simp only [BlackScholes.d1, Libm.real_log, Libm.real_sqrt]; norm_num
  have h2 : BlackScholes.d2 Libm.real 1 1 1 0 1 0 ≠ 0 := by
    simp only [BlackScholes.d2, BlackScholes.d1, Libm.real_log, Libm.real_sqrt]; norm_num
  have h3 : Black.d1 Libm.real 1 1 1 1 ≠ 0 := by
    simp only [Black.d1, Libm.real_log, Libm.real_sqrt]; norm_num
  have h4 : Black.d2 Libm.real 1 1 1 1 ≠ 0 := by
    simp only [Black.d2, Black.d1, Libm.real_log, Libm.real_sqrt]; norm_num
  ⟨⟨one_ne_zero, (normal_symmetry_and_parity Libm.real).1 1 one_ne_zero⟩,
    ⟨h1, h2, (normal_symmetry_and_parity Libm.real).2.1 1 1 1 0 1 0 h1 h2⟩,
    ⟨h3, h4, (normal_symmetry_and_parity Libm.real).2.2 1 1 1 0 1 h3 h4⟩⟩

end AnalyticWitnesses2

/-! ## The lattice price against immediate exercise, and the cells the lattice
sensitivities read -/

section LatticeClaims3

variable {α : Type} [LinearOrderedField α] (L : Libm α)

/-- When the lattice has at least two levels the root of the code's value recurrence
is at least the payoff at the root, which is at least 0. -/
theorem BinomialTree.value.valueNode_root_ge_payOff (K p disc : α) (call : Bool)
    (asset : Nat → Nat → α) (k : Nat) :
    BinomialTree.payOff K (asset 0 0) call
      ≤ BinomialTree.value.valueNode K p disc call asset (k + 1) 0 0 ∧
    0 ≤ BinomialTree.payOff K (asset 0 0) call := by
  have e : (0.0 : α) = 0 := by norm_num
  constructor
  · rw [BinomialTree.value.valueNode, BinomialTree.dmax_eq_max]
    exact le_max_right _ _
  · simp only [BinomialTree.payOff, BinomialTree.dmax_eq_max, e]
    split_ifs <;> exact le_max_right _ _

/-- C32: for every step count `N ≥ 2` (both grids `N x N`) and all arguments,
`BinomialTree.value(K,S,vol,r,T,q,kind) ≥ payoff(S) ≥ 0`, where
`payoff(S) = max(S - K, 0)` for a call and `max(K - S, 0)` for a put. -/
theorem BinomialTree.value_ge_payoff (bt : BinomialTree α) (N : Nat) (hN : 2 ≤ N)
    (hstep : bt.m_stepNumber = (N : Int)) (hwf : bt.WF) (K S vol r T q : α) (call : Bool) :
    BinomialTree.specPayoff K call S ≤ (BinomialTree.value L bt K S vol r T q call).1 ∧
    0 ≤ BinomialTree.specPayoff K call S := by
  obtain ⟨k, hk⟩ : ∃ k : Nat, bt.m_stepNumber.toNat - 1 = k + 1 := ⟨N - 2, by omega⟩
  rw [BinomialTree.value_eq_valueNode L bt hwf (by omega), hk,
    ← BinomialTree.payOff_eq_specPayoff]
  have h := BinomialTree.value.valueNode_root_ge_payOff K
    ((L.exp ((r - q) * (T / (((bt.m_stepNumber - 1 : Int) : α))))
        - L.exp (-vol * L.sqrt (T / (((bt.m_stepNumber - 1 : Int) : α)))))
      / (L.exp (vol * L.sqrt (T / (((bt.m_stepNumber - 1 : Int) : α))))
        - L.exp (-vol * L.sqrt (T / (((bt.m_stepNumber - 1 : Int) : α))))))
    (L.exp (-r * (T / (((bt.m_stepNumber - 1 : Int) : α))))) call
    (BinomialTree.value.assetNode (L.exp (vol * L.sqrt (T / (((bt.m_stepNumber - 1 : Int) : α)))))
      (L.exp (-vol * L.sqrt (T / (((bt.m_stepNumber - 1 : Int) : α))))) S) k
  simp only [BinomialTree.value.assetNode] at h
  exact h

/-- On a model that satisfies the invariant with step count `N`, after the nested
call of `value` the value grid records `N` rows and `N` columns and stores `N` rows;
the cells `delta` reads are inside it when `N ≥ 2`, those `gamma` and `theta` read
when `N ≥ 3`. -/
theorem BinomialTree.greek_reads_in_range (bt : BinomialTree α) (h : bt.Inv) (N : Nat)
    (hstep : bt.m_stepNumber = (N : Int)) (K S vol r T q : α) (call : Bool) :
    ((BinomialTree.value L bt K S vol r T q call).2.m_v.m_rows = (N : Int) ∧
      (BinomialTree.value L bt K S vol r T q call).2.m_v.m_cols = (N : Int) ∧
      (BinomialTree.value L bt K S vol r T q call).2.m_v.m_rawData.length = N) ∧
    (2 ≤ N → ∀ c ∈ BinomialTree.delta.reads, c.1 < N ∧ c.2 < N) ∧
    (3 ≤ N → ∀ c ∈ BinomialTree.gamma.reads ++ BinomialTree.theta.reads, c.1 < N ∧ c.2 < N) := by
  obtain ⟨⟨_, hv, _, _, hr, hc⟩, hs⟩ := BinomialTree.value_Inv L bt h K S vol r T q call
  refine ⟨⟨by rw [hr, hs, hstep], by rw [hc, hs, hstep], ?_⟩, ?_, ?_⟩
  · have := hv.1
    rw [hr, hs, hstep] at this
    exact_mod_cast this
  · intro hN c hc
    simp only [BinomialTree.delta.reads, List.mem_cons, List.mem_singleton, List.not_mem_nil,
      or_false] at hc
    rcases hc with rfl | rfl <;> exact ⟨by omega, by omega⟩
  · intro hN c hc
    simp only [BinomialTree.gamma.reads, BinomialTree.theta.reads, List.cons_append,
      List.nil_append, List.mem_cons, List.mem_singleton, List.not_mem_nil, or_false] at hc
    rcases hc with rfl | rfl | rfl | rfl | rfl | rfl <;> exact ⟨by omega, by omega⟩

end LatticeClaims3

section LatticeConcrete3

/-- Witness for C32: the default model at the arguments of Hull's example 17.1,
priced as a put. -/
theorem BinomialTree.value_ge_payoff_witness :
    2 ≤ 51 ∧ (BinomialTree.new : BinomialTree ℝ).m_stepNumber = ((51 : Nat) : Int) ∧
    (BinomialTree.new : BinomialTree ℝ).WF ∧
    BinomialTree.specPayoff (50 : ℝ) false 50
      ≤ (BinomialTree.value Libm.real BinomialTree.new 50 50 0.4 0.1 0.4167 0 false).1 ∧
    0 ≤ BinomialTree.specPayoff (50 : ℝ) false 50 :=
  ⟨by norm_num, rfl, BinomialTree.new_WF,
    BinomialTree.value_ge_payoff Libm.real BinomialTree.new 51 (by norm_num) rfl
      BinomialTree.new_WF 50 50 0.4 0.1 0.4167 0 false⟩

/-- C31: after `timeSteps(1)` on the default model the step count is `N = 2` and,
after the nested call of `value`, the value grid has 2 rows (indices 0 and 1), while
`gamma` reads `m_v[2][2]` and `theta` reads `m_v[2][1]`: row 2 is outside the grid. -/
theorem BinomialTree.gamma_theta_read_outside_grid :
    ∃ bt2, (BinomialTree.new : BinomialTree ℝ).timeStepsSet 1 = some bt2 ∧
      bt2.m_stepNumber = 2 ∧
      (BinomialTree.value Libm.real bt2 50 50 0.4 0.1 0.4167 0 true).2.m_v.m_rows = 2 ∧
      (BinomialTree.value Libm.real bt2 50 50 0.4 0.1 0.4167 0 true).2.m_v.m_rawData.length = 2 ∧
      (2, 2) ∈ BinomialTree.gamma.reads ∧ (2, 1) ∈ BinomialTree.theta.reads ∧
      ¬ ((2 : Nat) < 2) := by
  obtain ⟨bt2, e, hinv, hN, -, -⟩ :=
    BinomialTree.timeStepsSet_spec (BinomialTree.new : BinomialTree ℝ) BinomialTree.new_Inv 1
      (by norm_num)
  have hN2 : bt2.m_stepNumber = ((2 : Nat) : Int) := by rw [hN]; norm_num
  obtain ⟨⟨h1, _, h3⟩, _, _⟩ :=
    BinomialTree.greek_reads_in_range Libm.real bt2 hinv 2 hN2 50 50 0.4 0.1 0.4167 0 true
  refine ⟨bt2, e, by rw [hN]; norm_num, ?_, h3, ?_, ?_, by decide⟩
  · rw [h1]; norm_num
  · simp [BinomialTree.gamma.reads]
  · simp [BinomialTree.theta.reads]

end LatticeConcrete3
